import Mathlib

/-!
# Compact dex debug-info offset table

A shallow embedding of `runtime/dex/compact_dex_debug_info.cc`:
the encoder `CompactDexDebugInfoOffsetTable::Build` and the decoder
`CompactDexDebugInfoOffsetTable::Accessor::GetDebugInfoOffset`.

Conventions of the embedding.

* A `std::vector<uint8_t>` and the memory an accessor reads are `List Nat`
  (one entry per byte); `push_back` is `++ [b]`, a pointer is an index and
  `*p` is the optional lookup `data[p]?`, so a read outside the buffer makes
  the operation return `none`.
* `uint32_t`, `uint16_t` and `uint8_t` values are natural numbers, reduced
  `% 2 ^ 32`, `% 2 ^ 16`, `% 256` wherever the C++ code converts to the narrower
  type. `size_t` values (vector sizes, loop counters) are unbounded naturals.
* `DCHECK(c)` is checked only in builds where the constant `kEnableDChecks` is set; a
  failed check aborts, which makes the operation return `none`. `Build.compiled` takes
  the constant as a parameter, and `Build` is the function with the checks enabled; on
  an empty `out_data` the check of `Build` passes and the two agree.
* Loops are structural recursions on a counter; the `while` loop of `Build`
  runs on fuel and returns `none` if the fuel runs out.
-/

namespace art

/-! ## Constants and helpers declared outside the translated file -/

/-- Modelled from the spec: the constant `kBitsPerByte` (declared in a header that is
not among the sources); a byte has eight bits. -/
def kBitsPerByte : Nat := 8

/-- Modelled from the spec: the constant `kElementsPerIndex` of the class declaration
(`compact_dex_debug_info.h`, not among the sources); a block holds 16 keys. -/
def kElementsPerIndex : Nat := 16

/-- Modelled from the spec: the loop of `EncodeUnsignedLeb128` (`leb128.h` is not
among the sources). `out` holds the pending seven-bit group and `value` the bits
still to write; every group but the last is written with the continuation bit
`0x80`. A `uint32_t` needs at most four continuation groups, so the caller's fuel
never runs out on a 32-bit value. -/
def EncodeUnsignedLeb128.loop : Nat → List Nat → Nat → Nat → List Nat
  | 0, dest, out, _ => dest ++ [out]
  | fuel + 1, dest, out, value =>
    if value ≠ 0 then
      EncodeUnsignedLeb128.loop fuel (dest ++ [out ||| 0x80]) (value &&& 0x7f) (value >>> 7)
    else
      dest ++ [out]

/-- Modelled from the spec: `EncodeUnsignedLeb128(dest, value)` of `leb128.h` (not
among the sources): appends the unsigned LEB128 encoding of the `uint32_t` `value`
to the byte vector `dest`, least significant seven-bit group first. -/
def EncodeUnsignedLeb128 (dest : List Nat) (value : Nat) : List Nat :=
  EncodeUnsignedLeb128.loop 4 dest (value &&& 0x7f) (value >>> 7)

/-- Modelled from the spec: the byte-by-byte reading of `DecodeUnsignedLeb128`
(`leb128.h` is not among the sources). Reads seven-bit groups starting at `ptr`,
least significant first, until a byte without the continuation bit; the byte read
with one unit of fuel left is the last one and is taken whole. Returns the value
read and the cursor past it, `none` if a byte lies outside `data`. -/
def DecodeUnsignedLeb128.go (data : List Nat) : Nat → Nat → Option (Nat × Nat)
  | 0, _ => none
  | fuel + 1, ptr =>
    match data[ptr]? with
    | none => none
    | some cur =>
      if cur ≤ 0x7f ∨ fuel = 0 then
        some (cur, ptr + 1)
      else
        match DecodeUnsignedLeb128.go data fuel (ptr + 1) with
        | none => none
        | some (rest, ptr') => some ((cur &&& 0x7f) ||| (rest <<< 7), ptr')

/-- Modelled from the spec: `DecodeUnsignedLeb128(&ptr)` of `leb128.h` (not among
the sources): reads one unsigned LEB128 value of at most five bytes starting at
`ptr` and returns it as a `uint32_t` together with the advanced cursor. -/
def DecodeUnsignedLeb128 (data : List Nat) (ptr : Nat) : Option (Nat × Nat) :=
  match DecodeUnsignedLeb128.go data 5 ptr with
  | none => none
  | some (result, ptr') => some (result % 2 ^ 32, ptr')

/-- Modelled from the spec: the loop of `AlignmentPadVector` (`compact_dex_utils.h`
is not among the sources): appends a zero byte while the length is not aligned.
Fewer than `alignment` bytes are ever needed, so fuel `alignment` suffices. -/
def AlignmentPadVector.loop : Nat → List Nat → Nat → List Nat
  | 0, dest, _ => dest
  | fuel + 1, dest, alignment =>
    if dest.length % alignment ≠ 0 then
      AlignmentPadVector.loop fuel (dest ++ [0]) alignment
    else
      dest

/-- Modelled from the spec: `AlignmentPadVector(dest, alignment)` of
`compact_dex_utils.h` (not among the sources): appends zero bytes to `dest` until
its length is a multiple of `alignment`. -/
def AlignmentPadVector (dest : List Nat) (alignment : Nat) : List Nat :=
  AlignmentPadVector.loop alignment dest alignment

/-- Modelled from the spec: the macro `POPCOUNT` (declared in a header that is not
among the sources): the population count, i.e. the number of set bits of `x`.
The recursion halves `x` on fuel, which outlasts the binary digits of `x` when it
starts at `x`. -/
def POPCOUNT.go : Nat → Nat → Nat
  | 0, _ => 0
  | fuel + 1, x => if x = 0 then 0 else x % 2 + POPCOUNT.go fuel (x / 2)

/-- Modelled from the spec: `POPCOUNT(x)`, the number of set bits of `x`. -/
def POPCOUNT (x : Nat) : Nat :=
  POPCOUNT.go x x

/-- The four bytes of a `uint32_t` in memory, as `reinterpret_cast<const uint8_t*>`
exposes them on a little-endian host. -/
def uint32Bytes (v : Nat) : List Nat :=
  [v % 256, v / 2 ^ 8 % 256, v / 2 ^ 16 % 256, v / 2 ^ 24 % 256]

/-- Reading the `uint32_t` stored at byte address `p`, as dereferencing a
`const uint32_t*` does on a little-endian host; `none` outside the buffer. -/
def loadUint32 (data : List Nat) (p : Nat) : Option Nat :=
  match data[p]?, data[p + 1]?, data[p + 2]?, data[p + 3]? with
  | some b0, some b1, some b2, some b3 => some (b0 + b1 * 2 ^ 8 + b2 * 2 ^ 16 + b3 * 2 ^ 24)
  | _, _, _, _ => none

/-! ## The accessor -/

/-- The fields of `CompactDexDebugInfoOffsetTable::Accessor` as its constructor sets
them: `data_begin_` is the memory from `data_begin` on, `table_` the byte address
`data_begin + debug_info_table_offset` (kept as an index into `data_begin_`), and
`debug_info_base_` the base offset. -/
structure Accessor where
  table_ : Nat
  debug_info_base_ : Nat
  data_begin_ : List Nat
deriving Repr, DecidableEq

/-- The constructor `Accessor(data_begin, debug_info_base, debug_info_table_offset)`
(lines 26-31). -/
def Accessor.ctor (data_begin : List Nat) (debug_info_base debug_info_table_offset : Nat) :
    Accessor :=
  { table_ := debug_info_table_offset
    debug_info_base_ := debug_info_base
    data_begin_ := data_begin }

/-- The `do ... while (count > 0)` loop of `GetDebugInfoOffset` (lines 51-54):
decode one LEB128 value at `block`, add it to `current_offset` (in `uint32_t`
arithmetic), decrement `count`, repeat while `count > 0`. The loop is only entered with
`count > 0` (the `DCHECK_GT` before it). -/
def GetDebugInfoOffset.loop (data : List Nat) : Nat → Nat → Nat → Option Nat
  | 0, _, _ => none
  | count + 1, block, current_offset =>
    match DecodeUnsignedLeb128 data block with
    | none => none
    | some (delta, block') =>
      let current_offset := (current_offset + delta) % 2 ^ 32
      if count > 0 then GetDebugInfoOffset.loop data count block' current_offset
      else some current_offset

/-- The method `Accessor::GetDebugInfoOffset(method_idx)` (lines 33-56).
`kBitsPerIntPtrT` is the width in bits of `uintptr_t` on the target (a constant declared
outside the sources, taken as a parameter). The result is `none` when a read falls
outside `data_begin_` or `DCHECK_GT(count, 0u)` fails. -/
def GetDebugInfoOffset (kBitsPerIntPtrT : Nat) (acc : Accessor) (method_idx : Nat) :
    Option Nat :=
  match loadUint32 acc.data_begin_ (acc.table_ + 4 * (method_idx / kElementsPerIndex)) with
  | none => none
  | some offset =>
    let bit_index := method_idx % kElementsPerIndex
    let block := offset
    match acc.data_begin_[block]?, acc.data_begin_[block + 1]? with
    | some hi, some lo =>
      let bit_mask := ((hi <<< kBitsPerByte) ||| lo) % 2 ^ 16
      let block := block + 2
      if bit_mask &&& (1 <<< bit_index) = 0 then
        some 0
      else
        let count :=
          POPCOUNT ((bit_mask <<< (kBitsPerIntPtrT - 1 - bit_index)) % 2 ^ kBitsPerIntPtrT)
        if count > 0 then
          GetDebugInfoOffset.loop acc.data_begin_ count block acc.debug_info_base_
        else
          none
    | _, _ => none

/-! ## The encoder -/

/-- The three outputs of `Build`: the byte vector and the two `uint32_t` scalars. -/
structure BuildResult where
  out_data : List Nat
  out_min_offset : Nat
  out_table_offset : Nat
deriving Repr, DecidableEq

/-- The first loop of `Build` (lines 65-70): the base offset, starting from
`std::numeric_limits<uint32_t>::max()` and lowered by every nonzero offset. -/
def Build.minOffset (debug_info_offsets : List Nat) : Nat :=
  debug_info_offsets.foldl
    (fun out_min_offset offset =>
      if offset ≠ 0 then min out_min_offset offset else out_min_offset)
    0xFFFFFFFF

/-- The bit-mask loop of `Build` (lines 85-90) for the block starting at `block_start`:
`n` iterations are left, `i` is the loop index, `bit_mask` the `uint16_t`
accumulator. `none` if an index is outside the input vector. -/
def Build.bitMaskLoop (debug_info_offsets : List Nat) (block_start : Nat) :
    Nat → Nat → Nat → Option Nat
  | 0, _, bit_mask => some bit_mask
  | n + 1, i, bit_mask =>
    match debug_info_offsets[block_start + i]? with
    | none => none
    | some offset =>
      Build.bitMaskLoop debug_info_offsets block_start n (i + 1)
        (if offset ≠ 0 then (bit_mask ||| (1 <<< i)) % 2 ^ 16 else bit_mask)

/-- The delta loop of `Build` (lines 96-104) for the block starting at `block_start`:
`n` iterations are left, `i` is the loop index. Every nonzero offset is written as
the LEB128 encoding of `debug_info_offset - current_offset` (a `uint32_t`
subtraction) and becomes the new `current_offset`. -/
def Build.deltaLoop (debug_info_offsets : List Nat) (block_start : Nat) :
    Nat → Nat → List Nat → Nat → Option (List Nat)
  | 0, _, out_data, _ => some out_data
  | n + 1, i, out_data, current_offset =>
    match debug_info_offsets[block_start + i]? with
    | none => none
    | some debug_info_offset =>
      if debug_info_offset ≠ 0 then
        let delta := (debug_info_offset + 2 ^ 32 - current_offset) % 2 ^ 32
        Build.deltaLoop debug_info_offsets block_start n (i + 1)
          (EncodeUnsignedLeb128 out_data delta) debug_info_offset
      else
        Build.deltaLoop debug_info_offsets block_start n (i + 1) out_data current_offset

/-- The `while (block_start < debug_info_offsets.size())` loop of `Build` (lines 77-107),
on fuel.
The state is `block_start`, `out_data` and `offset_table`; the entry pushed to
`offset_table` is `out_data->size()` converted to `uint32_t`, the element type of
`offset_table`. -/
def Build.blockLoop (debug_info_offsets : List Nat) (out_min_offset : Nat) :
    Nat → Nat → List Nat → List Nat → Option (List Nat × List Nat)
  | 0, block_start, out_data, offset_table =>
    if block_start < debug_info_offsets.length then none
    else some (out_data, offset_table)
  | fuel + 1, block_start, out_data, offset_table =>
    if block_start < debug_info_offsets.length then
      let offset_table := offset_table ++ [out_data.length % 2 ^ 32]
      let block_size := min (debug_info_offsets.length - block_start) kElementsPerIndex
      match Build.bitMaskLoop debug_info_offsets block_start block_size 0 0 with
      | none => none
      | some bit_mask =>
        let out_data := out_data ++ [(bit_mask >>> kBitsPerByte) % 256]
        let out_data := out_data ++ [bit_mask % 256]
        match Build.deltaLoop debug_info_offsets block_start block_size 0 out_data
            out_min_offset with
        | none => none
        | some out_data =>
          Build.blockLoop debug_info_offsets out_min_offset fuel (block_start + block_size)
            out_data offset_table
    else some (out_data, offset_table)

/-- The function `CompactDexDebugInfoOffsetTable::Build(debug_info_offsets, out_data,
out_min_offset, out_table_offset)` (lines 58-115), as compiled with the given value of
`kEnableDChecks`. `out_data` is the vector's content on entry. `DCHECK(out_data->empty())`
(line 63) aborts on a non-empty one when the checks are enabled; when they are compiled
out nothing is checked and the code below appends to what `out_data` holds. The `while`
loop gets `debug_info_offsets.size()` units of fuel (every iteration consumes at least
one element). `out_table_offset` is `out_data->size()` converted to `uint32_t`, and the
table bytes are the in-memory representation of `offset_table` (nothing for an empty
table). -/
def Build.compiled (kEnableDChecks : Bool) (debug_info_offsets : List Nat)
    (out_data : List Nat) : Option BuildResult :=
  if kEnableDChecks = true ∧ out_data ≠ [] then none
  else
    let out_min_offset := Build.minOffset debug_info_offsets
    match Build.blockLoop debug_info_offsets out_min_offset debug_info_offsets.length 0
        out_data [] with
    | none => none
    | some (out_data, offset_table) =>
      let out_data := AlignmentPadVector out_data 4
      let out_table_offset := out_data.length % 2 ^ 32
      some
        { out_data := out_data ++ (offset_table.map uint32Bytes).flatten
          out_min_offset := out_min_offset
          out_table_offset := out_table_offset }

/-- The function `CompactDexDebugInfoOffsetTable::Build` (lines 58-115) with the `DCHECK`s
enabled: `DCHECK(out_data->empty())` rejects a non-empty `out_data`. On an empty
`out_data` the check passes and the function is the same with the checks compiled out. -/
def Build (debug_info_offsets : List Nat) (out_data : List Nat) : Option BuildResult :=
  Build.compiled true debug_info_offsets out_data

/-! ## Proof-side definitions

Pure descriptions of what the loops of `Build` compute, used to state and prove the
lemmas below, and the concrete inputs the theorems are instantiated at. -/

/-- The presence mask of a list of offsets: bit `i` is set iff entry `i` is nonzero. -/
def maskOf : List Nat → Nat
  | [] => 0
  | v :: vs => (if v ≠ 0 then 1 else 0) + 2 * maskOf vs

/-- The delta bytes of a list of offsets, accumulating from `cur`. -/
def deltaBytes : Nat → List Nat → List Nat
  | _, [] => []
  | cur, v :: vs =>
    if v ≠ 0 then EncodeUnsignedLeb128 [] ((v + 2 ^ 32 - cur) % 2 ^ 32) ++ deltaBytes v vs
    else deltaBytes cur vs

/-- The offsets of block `b`: the up to 16 input values from key `16 * b` on. -/
def blockVals (seq : List Nat) (b : Nat) : List Nat := (seq.drop (16 * b)).take 16

/-- The record of a block: the two mask bytes, high byte first, then the delta bytes
accumulated from `base`. -/
def blockRecord (base : Nat) (vals : List Nat) : List Nat :=
  [maskOf vals / 256 % 256, maskOf vals % 256] ++ deltaBytes base vals

/-- The number of blocks of an input of `n` offsets, `ceil(n / 16)`. -/
def numBlocks (n : Nat) : Nat := (n + 15) / 16

/-- The records of the `k` consecutive blocks from block `b` on. -/
def recordsFrom (base : Nat) (seq : List Nat) (b k : Nat) : List (List Nat) :=
  (List.range' b k).map fun j => blockRecord base (blockVals seq j)

/-- The start offsets of consecutive records laid out from offset `s` on. -/
def blockStarts : Nat → List (List Nat) → List Nat
  | _, [] => []
  | s, r :: rs => s :: blockStarts (s + r.length) rs

/-- The zero bytes that pad a vector of length `n` to a multiple of 4. -/
def padding (n : Nat) : List Nat := List.replicate ((4 - n % 4) % 4) 0

/-- The data section `Build` writes: the records of all blocks, concatenated. -/
def dataSection (seq : List Nat) : List Nat :=
  (recordsFrom (Build.minOffset seq) seq 0 (numBlocks seq.length)).flatten

/-- The entries of the indirection table: the start offset of every record, each
converted to `uint32_t`. -/
def tableEntries (seq : List Nat) : List Nat :=
  (blockStarts 0 (recordsFrom (Build.minOffset seq) seq 0 (numBlocks seq.length))).map
    (· % 2 ^ 32)

/-- The result of `Build` in closed form: data section, padding, table bytes, and the
two scalars. -/
def layout (seq : List Nat) : BuildResult :=
  { out_data := dataSection seq ++ padding (dataSection seq).length
      ++ ((tableEntries seq).map uint32Bytes).flatten
    out_min_offset := Build.minOffset seq
    out_table_offset :=
      ((dataSection seq).length + (4 - (dataSection seq).length % 4) % 4) % 2 ^ 32 }

/-- Number of nonzero entries. -/
def countNz : List Nat → Nat
  | [] => 0
  | v :: vs => (if v ≠ 0 then 1 else 0) + countNz vs

/-- The last nonzero entry, `cur` if there is none. -/
def lastNz : Nat → List Nat → Nat
  | cur, [] => cur
  | cur, v :: vs => if v ≠ 0 then lastNz v vs else lastNz cur vs

/-- The cursor after decoding `n` LEB128 values one after the other, starting at `ptr`. -/
def decodeCursor (data : List Nat) : Nat → Nat → Option Nat
  | 0, ptr => some ptr
  | n + 1, ptr =>
    match DecodeUnsignedLeb128 data ptr with
    | none => none
    | some (_, ptr') => decodeCursor data n ptr'

/-- The byte offset at which the record of block `b` starts in the data section. -/
def blockStart (seq : List Nat) (b : Nat) : Nat :=
  (recordsFrom (Build.minOffset seq) seq 0 b).flatten.length

/-- The input of `16 * k` offsets all equal to 1. -/
def onesInput (k : Nat) : List Nat := List.replicate (16 * k) 1

/-- The record `Build` writes for a full block of offsets all equal to the base offset:
the mask `0xFFFF` and sixteen zero deltas. -/
def onesRecord : List Nat := [255, 255, 0, 0, 0, 0, 0, 0, 0, 0, 0, 0, 0, 0, 0, 0, 0, 0]

/-- The scenario input: 16 offsets, 5 at key 1 and 7 at key 4. -/
def scenarioInput : List Nat := [0, 5, 0, 0, 7, 0, 0, 0, 0, 0, 0, 0, 0, 0, 0, 0]

/-- An unsorted input of 23 offsets: one full block and a partial one. -/
def sampleInput : List Nat :=
  [0, 5, 0, 0, 7, 0, 0, 0, 0, 0, 0, 0, 0, 0, 0, 0, 4294967295, 1, 0, 300, 299, 70000, 5]

/-- The `do ... while (count > 0)` loop of `GetDebugInfoOffset` (lines 51-54) with the
values `current_offset` takes recorded, one entry per decode: the same recursion as
`GetDebugInfoOffset.loop`, returning the whole chain instead of its last value. -/
def GetDebugInfoOffset.loopTrace (data : List Nat) : Nat → Nat → Nat → Option (List Nat)
  | 0, _, _ => none
  | count + 1, block, current_offset =>
    match DecodeUnsignedLeb128 data block with
    | none => none
    | some (delta, block') =>
      let current_offset := (current_offset + delta) % 2 ^ 32
      if count > 0 then
        match GetDebugInfoOffset.loopTrace data count block' current_offset with
        | none => none
        | some rest => some (current_offset :: rest)
      else some [current_offset]

/-- The delta loop of `Build` (lines 96-104) with the deltas collected instead of
encoded: the same recursion as `Build.deltaLoop`, returning the `uint32_t` value of
every `delta` in the order it is written. -/
def Build.deltaValues (debug_info_offsets : List Nat) (block_start : Nat) :
    Nat → Nat → Nat → Option (List Nat)
  | 0, _, _ => some []
  | n + 1, i, current_offset =>
    match debug_info_offsets[block_start + i]? with
    | none => none
    | some debug_info_offset =>
      if debug_info_offset ≠ 0 then
        let delta := (debug_info_offset + 2 ^ 32 - current_offset) % 2 ^ 32
        match Build.deltaValues debug_info_offsets block_start n (i + 1) debug_info_offset with
        | none => none
        | some rest => some (delta :: rest)
      else
        Build.deltaValues debug_info_offsets block_start n (i + 1) current_offset

/-- The nonzero offsets of a list, in key order. -/
def nonzeroOffsets (vals : List Nat) : List Nat :=
  vals.filter fun v => decide (v ≠ 0)

/-- The deltas of a run of offsets accumulated from `cur`: every nonzero offset minus its
predecessor (the previous nonzero offset, or `cur` for the first), modulo 2 ^ 32. -/
def deltasOf (cur : Nat) (vals : List Nat) : List Nat :=
  List.zipWith (fun o c => (o + 2 ^ 32 - c) % 2 ^ 32) (nonzeroOffsets vals)
    (cur :: nonzeroOffsets vals)

/-- The input that starts with the offset `x`, followed by fifteen offsets equal to 1
(together the first block) and `n` further offsets equal to 1. -/
def spikeInput (x n : Nat) : List Nat := (x :: List.replicate 15 1) ++ List.replicate n 1

/-! ## Lemmas -/

/-! ### Bit operations as arithmetic -/

theorem and_0x7f (x : Nat) : x &&& 0x7f = x % 128 :=
  Nat.and_pow_two_sub_one_eq_mod x 7

theorem shiftRight_7 (x : Nat) : x >>> 7 = x / 128 :=
  Nat.shiftRight_eq_div_pow x 7

theorem or_0x80 (x : Nat) (h : x < 128) : x ||| 0x80 = x + 128 := by
  have := Nat.mul_add_lt_is_or (i := 7) (b := x) h 1
  norm_num at this
  rw [Nat.or_comm]
  omega

theorem or_shiftLeft_7 (a b : Nat) (h : a < 128) : a ||| (b <<< 7) = a + 128 * b := by
  have := Nat.mul_add_lt_is_or (i := 7) (b := a) h b
  norm_num at this
  rw [Nat.or_comm, Nat.shiftLeft_eq, Nat.mul_comm b]
  norm_num
  omega

theorem getElem?_append_cons (pre post : List Nat) (x : Nat) :
    (pre ++ x :: post)[pre.length]? = some x := by
  rw [List.getElem?_append_right (le_refl _)]
  simp

@[simp] theorem getElem_append_cons (pre post : List Nat) (x : Nat)
    (h : pre.length < (pre ++ x :: post).length) :
    (pre ++ x :: post)[pre.length] = x := by
  have := getElem?_append_cons pre post x
  rw [List.getElem?_eq_getElem h] at this
  exact Option.some.inj this

/-! ### LEB128: encoding then decoding -/

theorem encodeLoop_append (fuel : Nat) : ∀ (dest : List Nat) (out value : Nat),
    EncodeUnsignedLeb128.loop fuel dest out value
      = dest ++ EncodeUnsignedLeb128.loop fuel [] out value := by
  induction fuel with
  | zero => intro dest out value; simp [EncodeUnsignedLeb128.loop]
  | succ fuel ih =>
    intro dest out value
    simp only [EncodeUnsignedLeb128.loop]
    split
    · rw [ih (dest ++ _), ih ([] ++ _)]; simp
    · simp

theorem EncodeUnsignedLeb128_append (dest : List Nat) (value : Nat) :
    EncodeUnsignedLeb128 dest value = dest ++ EncodeUnsignedLeb128 [] value := by
  unfold EncodeUnsignedLeb128
  exact encodeLoop_append _ _ _ _

theorem encodeLoop_length_pos (fuel : Nat) (out value : Nat) :
    0 < (EncodeUnsignedLeb128.loop fuel [] out value).length := by
  cases fuel with
  | zero => simp [EncodeUnsignedLeb128.loop]
  | succ fuel =>
    simp only [EncodeUnsignedLeb128.loop]
    split
    · rw [encodeLoop_append]; simp
    · simp

theorem decodeGo_encodeLoop (fuel : Nat) : ∀ (out value : Nat) (pre post : List Nat),
    out < 128 → value < 128 ^ fuel →
    DecodeUnsignedLeb128.go (pre ++ EncodeUnsignedLeb128.loop fuel [] out value ++ post)
        (fuel + 1) pre.length
      = some (out + 128 * value,
          pre.length + (EncodeUnsignedLeb128.loop fuel [] out value).length) := by
  induction fuel with
  | zero =>
    intro out value pre post hout hv
    have hv0 : value = 0 := by simpa using hv
    subst hv0
    simp [EncodeUnsignedLeb128.loop, DecodeUnsignedLeb128.go, getElem?_append_cons]
  | succ fuel ih =>
    intro out value pre post hout hv
    by_cases hv0 : value = 0
    · subst hv0
      have h1 : out ≤ 127 := by omega
      simp [EncodeUnsignedLeb128.loop, DecodeUnsignedLeb128.go, getElem?_append_cons, h1]
    · have hlt : value / 128 < 128 ^ fuel := by
        rw [Nat.div_lt_iff_lt_mul (by norm_num)]
        rw [pow_succ] at hv; exact hv
      have hmod : value % 128 < 128 := Nat.mod_lt _ (by norm_num)
      have key := ih (value % 128) (value / 128) (pre ++ [out + 128]) post hmod hlt
      simp only [List.length_append, List.length_singleton, List.append_assoc] at key
      have henc : EncodeUnsignedLeb128.loop (fuel + 1) [] out value
          = [out + 128] ++ EncodeUnsignedLeb128.loop fuel [] (value % 128) (value / 128) := by
        simp only [EncodeUnsignedLeb128.loop, if_pos hv0, ne_eq, not_false_eq_true]
        rw [encodeLoop_append, or_0x80 _ hout, and_0x7f, shiftRight_7]; simp
      rw [henc]
      rw [DecodeUnsignedLeb128.go]
      have hget : (pre ++ ([out + 128] ++ EncodeUnsignedLeb128.loop fuel [] (value % 128)
          (value / 128)) ++ post)[pre.length]? = some (out + 128) := by
        simp [getElem?_append_cons]
      rw [hget]
      simp only [List.append_assoc]
      rw [key]
      have h1 : ¬ (out + 128 ≤ 0x7f ∨ fuel + 1 = 0) := by omega
      simp only [if_neg h1, and_0x7f]
      rw [or_shiftLeft_7 _ _ (Nat.mod_lt _ (by norm_num))]
      simp only [List.length_append, List.length_singleton, List.length_cons, Option.some.injEq, Prod.mk.injEq]
      constructor
      · omega
      · simp only [List.length_nil]; omega

/-- The fuel of the encoding loop is never exhausted on a 32-bit value: more fuel gives
the same bytes. -/
theorem encodeLoop_fuel (fuel : Nat) : ∀ (k : Nat) (dest : List Nat) (out value : Nat),
    value < 128 ^ fuel →
    EncodeUnsignedLeb128.loop (fuel + k) dest out value
      = EncodeUnsignedLeb128.loop fuel dest out value := by
  induction fuel with
  | zero =>
    intro k dest out value hv
    have hv0 : value = 0 := by simpa using hv
    subst hv0
    cases k <;> simp [EncodeUnsignedLeb128.loop]
  | succ fuel ih =>
    intro k dest out value hv
    have hk : fuel + 1 + k = (fuel + k) + 1 := by omega
    rw [hk]
    simp only [EncodeUnsignedLeb128.loop]
    split
    · rw [ih]
      rw [shiftRight_7, Nat.div_lt_iff_lt_mul (by norm_num)]
      rw [pow_succ] at hv
      exact hv
    · rfl

/-- Decoding at the start of an encoded `uint32_t` returns the value and the cursor just
past the encoding, whatever precedes and follows it. -/
theorem Decode_Encode (value : Nat) (hv : value < 2 ^ 32) (pre post : List Nat) :
    DecodeUnsignedLeb128 (pre ++ EncodeUnsignedLeb128 [] value ++ post) pre.length
      = some (value, pre.length + (EncodeUnsignedLeb128 [] value).length) := by
  unfold DecodeUnsignedLeb128 EncodeUnsignedLeb128
  rw [decodeGo_encodeLoop 4 _ _ pre post (by rw [and_0x7f]; omega) (by rw [shiftRight_7]; omega)]
  simp only [and_0x7f, shiftRight_7]
  congr 2
  omega

/-! ### The loops of `Build` in closed form -/

theorem maskOf_lt : ∀ (vs : List Nat), maskOf vs < 2 ^ vs.length
  | [] => by simp [maskOf]
  | v :: vs => by
    have := maskOf_lt vs
    simp only [maskOf, List.length_cons, pow_succ]
    split <;> omega

theorem or_one_shiftLeft (acc i : Nat) (hacc : acc < 2 ^ i) (hi : i < 16) :
    (acc ||| (1 <<< i)) % 2 ^ 16 = acc + 2 ^ i := by
  have h1 := Nat.mul_add_lt_is_or (i := i) (b := acc) hacc 1
  rw [Nat.mul_one] at h1
  rw [Nat.shiftLeft_eq, Nat.one_mul, Nat.or_comm, ← h1]
  have h2 : 2 ^ (i + 1) ≤ 2 ^ 16 := Nat.pow_le_pow_right (by norm_num) (by omega)
  rw [pow_succ] at h2
  rw [Nat.mod_eq_of_lt (by omega)]
  omega

theorem take_succ_drop (l : List Nat) (k n : Nat) (h : k < l.length) :
    (l.drop k).take (n + 1) = l[k] :: (l.drop (k + 1)).take n := by
  rw [List.drop_eq_getElem_cons h, List.take_succ_cons]

theorem bitMaskLoop_eq (offs : List Nat) (bs : Nat) : ∀ (n i acc : Nat),
    acc < 2 ^ i → i + n ≤ 16 → bs + i + n ≤ offs.length →
    Build.bitMaskLoop offs bs n i acc
      = some (acc + 2 ^ i * maskOf ((offs.drop (bs + i)).take n)) := by
  intro n
  induction n with
  | zero => intro i acc _ _ _; simp [Build.bitMaskLoop, maskOf]
  | succ n ih =>
    intro i acc hacc hi hlen
    have hlt : bs + i < offs.length := by omega
    rw [Build.bitMaskLoop, List.getElem?_eq_getElem hlt, take_succ_drop _ _ _ hlt]
    simp only [maskOf]
    by_cases hv : offs[bs + i] = 0
    · simp only [hv, ne_eq, not_true_eq_false, if_false]
      rw [ih (i + 1) acc (by rw [pow_succ]; omega) (by omega) (by omega)]
      simp only [pow_succ, Nat.add_assoc]
      congr 1; ring
    · simp only [hv, ne_eq, not_false_eq_true, if_true]
      rw [or_one_shiftLeft acc i hacc (by omega)]
      rw [ih (i + 1) (acc + 2 ^ i) (by rw [pow_succ]; omega) (by omega) (by omega)]
      simp only [pow_succ, Nat.add_assoc]
      congr 1; ring

theorem deltaLoop_eq (offs : List Nat) (bs : Nat) : ∀ (n i : Nat) (out : List Nat) (cur : Nat),
    bs + i + n ≤ offs.length →
    Build.deltaLoop offs bs n i out cur
      = some (out ++ deltaBytes cur ((offs.drop (bs + i)).take n)) := by
  intro n
  induction n with
  | zero => intro i out cur _; simp [Build.deltaLoop, deltaBytes]
  | succ n ih =>
    intro i out cur hlen
    have hlt : bs + i < offs.length := by omega
    rw [Build.deltaLoop, List.getElem?_eq_getElem hlt, take_succ_drop _ _ _ hlt]
    simp only [deltaBytes]
    by_cases hv : offs[bs + i] = 0
    · simp only [hv, ne_eq, not_true_eq_false, if_false]
      rw [ih (i + 1) out cur (by omega)]
      simp only [Nat.add_assoc]
    · simp only [hv, ne_eq, not_false_eq_true, if_true]
      rw [ih (i + 1) _ _ (by omega), EncodeUnsignedLeb128_append]
      simp only [Nat.add_assoc, List.append_assoc]

theorem take_min_length (l : List Nat) (k : Nat) : l.take (min l.length k) = l.take k := by
  rcases Nat.le_total k l.length with h | h
  · rw [Nat.min_eq_right h]
  · rw [Nat.min_eq_left h, List.take_of_length_le (le_refl _), List.take_of_length_le h]

theorem recordsFrom_succ (base : Nat) (seq : List Nat) (b k : Nat) :
    recordsFrom base seq b (k + 1)
      = blockRecord base (blockVals seq b) :: recordsFrom base seq (b + 1) k := by
  simp [recordsFrom, List.range'_succ]

/-- The block loop from block `b` on, with enough fuel, appends the records of the
remaining blocks and their start offsets. -/
theorem blockLoop_eq (offs : List Nat) (base : Nat) :
    ∀ (fuel b : Nat) (out tbl : List Nat),
    b ≤ numBlocks offs.length → numBlocks offs.length ≤ b + fuel →
    Build.blockLoop offs base fuel (min (16 * b) offs.length) out tbl
      = some (out ++ (recordsFrom base offs b (numBlocks offs.length - b)).flatten,
          tbl ++ (blockStarts out.length
            (recordsFrom base offs b (numBlocks offs.length - b))).map (· % 2 ^ 32)) := by
  intro fuel
  induction fuel with
  | zero =>
    intro b out tbl hb hfuel
    have hbe : b = numBlocks offs.length := by omega
    have hmin : min (16 * b) offs.length = offs.length := by
      unfold numBlocks at hbe; omega
    rw [Build.blockLoop, hmin, if_neg (lt_irrefl _)]
    simp [hbe, recordsFrom, blockStarts]
  | succ fuel ih =>
    intro b out tbl hb hfuel
    by_cases hbe : b = numBlocks offs.length
    · have hmin : min (16 * b) offs.length = offs.length := by
        unfold numBlocks at hbe; omega
      rw [Build.blockLoop, hmin, if_neg (lt_irrefl _)]
      simp [hbe, recordsFrom, blockStarts]
    · have hblt : b < numBlocks offs.length := by omega
      have h16 : 16 * b < offs.length := by unfold numBlocks at hblt; omega
      have hmin : min (16 * b) offs.length = 16 * b := by omega
      have hk : numBlocks offs.length - b = (numBlocks offs.length - (b + 1)) + 1 := by omega
      rw [hk, recordsFrom_succ, Build.blockLoop, hmin, if_pos h16]
      simp only [kElementsPerIndex, kBitsPerByte]
      rw [bitMaskLoop_eq offs (16 * b) _ 0 0 (by norm_num) (by omega) (by omega)]
      simp only [Nat.add_zero, pow_zero, Nat.one_mul, Nat.zero_add]
      have htake : (offs.drop (16 * b)).take (min (offs.length - 16 * b) 16)
          = blockVals offs b := by
        have := take_min_length (offs.drop (16 * b)) 16
        rw [List.length_drop] at this
        exact this
      rw [htake, deltaLoop_eq offs (16 * b) _ 0 _ _ (by omega)]
      simp only [Nat.add_zero, htake]
      have hnext : 16 * b + min (offs.length - 16 * b) 16 = min (16 * (b + 1)) offs.length := by
        omega
      rw [hnext, ih (b + 1) _ _ (by omega) (by omega)]
      simp only [blockRecord, blockStarts, Nat.shiftRight_eq_div_pow, List.flatten_cons,
        List.append_assoc, List.map_cons, List.length_append, List.length_cons,
        List.length_nil, List.singleton_append, List.cons_append, List.nil_append]

theorem padLoop_eq : ∀ (fuel : Nat) (dest : List Nat),
    (4 - dest.length % 4) % 4 ≤ fuel →
    AlignmentPadVector.loop fuel dest 4 = dest ++ padding dest.length := by
  intro fuel
  induction fuel with
  | zero =>
    intro dest h
    have h0 : (4 - dest.length % 4) % 4 = 0 := by omega
    simp [AlignmentPadVector.loop, padding, h0]
  | succ fuel ih =>
    intro dest h
    rw [AlignmentPadVector.loop]
    by_cases hz : dest.length % 4 = 0
    · simp [hz, padding]
    · rw [if_pos hz, ih (dest ++ [0]) (by simp only [List.length_append, List.length_singleton]; omega)]
      have hp : (4 - dest.length % 4) % 4 = (4 - (dest.length + 1) % 4) % 4 + 1 := by omega
      simp only [padding, List.length_append, List.length_singleton, List.append_assoc]
      rw [hp, List.replicate_succ]
      simp

theorem AlignmentPadVector_eq (dest : List Nat) :
    AlignmentPadVector dest 4 = dest ++ padding dest.length :=
  padLoop_eq 4 dest (by omega)

theorem blockLoop_run (seq : List Nat) :
    Build.blockLoop seq (Build.minOffset seq) seq.length 0 [] []
      = some (dataSection seq, tableEntries seq) := by
  have h := blockLoop_eq seq (Build.minOffset seq) seq.length 0 [] []
    (Nat.zero_le _) (by unfold numBlocks; omega)
  simpa [dataSection, tableEntries] using h

/-- `Build` on an empty `out_data` succeeds for every input and returns `layout`. -/
theorem Build_eq (seq : List Nat) : Build seq [] = some (layout seq) := by
  unfold Build Build.compiled
  rw [if_neg (by simp)]
  simp only [blockLoop_run, AlignmentPadVector_eq, layout, padding, List.length_append,
    List.length_replicate]

/-! ### Population count and the rank of a key in its block -/

theorem popGo_fuel : ∀ (fuel x fuel' : Nat), x ≤ fuel → x ≤ fuel' →
    POPCOUNT.go fuel x = POPCOUNT.go fuel' x := by
  intro fuel
  induction fuel with
  | zero =>
    intro x fuel' h _
    have hx : x = 0 := by omega
    subst hx
    cases fuel' <;> simp [POPCOUNT.go]
  | succ fuel ih =>
    intro x fuel' h h'
    by_cases hx : x = 0
    · subst hx
      cases fuel' <;> simp [POPCOUNT.go]
    · obtain ⟨f', rfl⟩ : ∃ f', fuel' = f' + 1 := ⟨fuel' - 1, by omega⟩
      simp only [POPCOUNT.go, if_neg hx]
      rw [ih (x / 2) f' (by omega) (by omega)]

theorem POPCOUNT_zero : POPCOUNT 0 = 0 := rfl

theorem POPCOUNT_eq (x : Nat) (hx : x ≠ 0) : POPCOUNT x = x % 2 + POPCOUNT (x / 2) := by
  unfold POPCOUNT
  obtain ⟨y, rfl⟩ : ∃ y, x = y + 1 := ⟨x - 1, by omega⟩
  simp only [POPCOUNT.go, if_neg hx]
  rw [popGo_fuel y ((y + 1) / 2) ((y + 1) / 2) (by omega) (le_refl _)]

theorem POPCOUNT_double (x : Nat) : POPCOUNT (2 * x) = POPCOUNT x := by
  by_cases hx : x = 0
  · subst hx; rfl
  · rw [POPCOUNT_eq (2 * x) (by omega)]
    have h1 : 2 * x % 2 = 0 := by omega
    have h2 : 2 * x / 2 = x := by omega
    rw [h1, h2, Nat.zero_add]

theorem POPCOUNT_double_add (x b : Nat) (hb : b < 2) : POPCOUNT (b + 2 * x) = b + POPCOUNT x := by
  by_cases hz : b + 2 * x = 0
  · have hb0 : b = 0 := by omega
    have hx0 : x = 0 := by omega
    subst hb0 hx0; rfl
  · rw [POPCOUNT_eq _ hz]
    have h1 : (b + 2 * x) % 2 = b := by omega
    have h2 : (b + 2 * x) / 2 = x := by omega
    rw [h1, h2]

theorem POPCOUNT_mul_two_pow (x s : Nat) : POPCOUNT (x * 2 ^ s) = POPCOUNT x := by
  induction s with
  | zero => simp
  | succ s ih =>
    have : x * 2 ^ (s + 1) = 2 * (x * 2 ^ s) := by rw [pow_succ]; ring
    rw [this, POPCOUNT_double, ih]

theorem POPCOUNT_maskOf : ∀ (vs : List Nat), POPCOUNT (maskOf vs) = countNz vs
  | [] => rfl
  | v :: vs => by
    simp only [maskOf, countNz]
    rw [POPCOUNT_double_add _ _ (by split <;> omega), POPCOUNT_maskOf vs]

theorem maskOf_mod : ∀ (vs : List Nat) (k : Nat), maskOf vs % 2 ^ k = maskOf (vs.take k)
  | [], k => by simp [maskOf]
  | v :: vs, 0 => by simp [maskOf, Nat.mod_one]
  | v :: vs, k + 1 => by
    have ih := maskOf_mod vs k
    simp only [maskOf, List.take_succ_cons]
    rw [← ih, pow_succ]
    have hb : (if v ≠ 0 then 1 else 0) < 2 := by split <;> omega
    generalize (if v ≠ 0 then 1 else 0) = b at hb
    generalize maskOf vs = m
    have hpos : 0 < 2 ^ k := Nat.pow_pos (by norm_num)
    have h1 := Nat.div_add_mod m (2 ^ k)
    have h2 := Nat.mod_lt m hpos
    generalize m / 2 ^ k = q at h1
    generalize m % 2 ^ k = r at h1 h2
    generalize 2 ^ k = p at *
    subst h1
    have : b + 2 * (p * q + r) = (b + 2 * r) + p * 2 * q := by ring
    rw [this, Nat.add_mul_mod_self_left, Nat.mod_eq_of_lt (by omega)]

/-- The shift-and-popcount of `GetDebugInfoOffset` counts the nonzero offsets at
positions `0..i` of the block. -/
theorem rank_eq (w i : Nat) (vs : List Nat) (hw : 16 ≤ w) (hi : i < 16) :
    POPCOUNT ((maskOf vs <<< (w - 1 - i)) % 2 ^ w) = countNz (vs.take (i + 1)) := by
  have hw' : w = (i + 1) + (w - 1 - i) := by omega
  rw [Nat.shiftLeft_eq]
  conv_lhs => rw [hw', pow_add]
  have : (i + 1 + (w - 1 - i) - 1 - i) = w - 1 - i := by omega
  rw [this, Nat.mul_mod_mul_right, POPCOUNT_mul_two_pow, maskOf_mod, POPCOUNT_maskOf]

theorem and_one_shiftLeft_eq_zero (x i : Nat) :
    x &&& (1 <<< i) = 0 ↔ x.testBit i = false := by
  rw [Nat.shiftLeft_eq, Nat.one_mul]
  constructor
  · intro h
    have := congrArg (fun y => Nat.testBit y i) h
    simpa [Nat.testBit_two_pow_self] using this
  · intro h
    apply Nat.eq_of_testBit_eq
    intro j
    rw [Nat.testBit_and, Nat.testBit_two_pow, Nat.zero_testBit]
    by_cases hij : i = j
    · subst hij; simp [h]
    · simp [hij]

theorem testBit_maskOf : ∀ (vs : List Nat) (i : Nat),
    (maskOf vs).testBit i = true ↔ ∃ v, vs[i]? = some v ∧ v ≠ 0
  | [], i => by simp [maskOf]
  | v :: vs, 0 => by
    simp only [maskOf, Nat.testBit_zero, List.getElem?_cons_zero, Option.some.injEq,
      decide_eq_true_eq]
    constructor
    · intro h
      refine ⟨v, rfl, ?_⟩
      intro hv; simp [hv] at h
    · rintro ⟨v', rfl, hv⟩
      simp only [hv, ne_eq, not_false_eq_true, if_true]; omega
  | v :: vs, i + 1 => by
    have ih := testBit_maskOf vs i
    simp only [maskOf, Nat.testBit_succ, List.getElem?_cons_succ]
    have : ((if v ≠ 0 then 1 else 0) + 2 * maskOf vs) / 2 = maskOf vs := by split <;> omega
    rw [this, ih]

/-! ### Decoding the deltas of a block -/

theorem lastNz_of_countNz_zero : ∀ (vs : List Nat) (cur : Nat), countNz vs = 0 → lastNz cur vs = cur
  | [], _, _ => rfl
  | v :: vs, cur, h => by
    simp only [countNz] at h
    have hv : v = 0 := by
      by_contra hv
      simp [hv] at h
    simp only [lastNz, hv, ne_eq, not_true_eq_false, if_false]
    exact lastNz_of_countNz_zero vs cur (by simpa [hv] using h)

theorem uint32_sub_add (cur v : Nat) (hc : cur < 2 ^ 32) (hv : v < 2 ^ 32) :
    (cur + (v + 2 ^ 32 - cur) % 2 ^ 32) % 2 ^ 32 = v := by
  omega

theorem decode_loop_deltaBytes : ∀ (vs : List Nat) (cur : Nat) (pre post : List Nat),
    cur < 2 ^ 32 → (∀ v ∈ vs, v < 2 ^ 32) → 0 < countNz vs →
    GetDebugInfoOffset.loop (pre ++ deltaBytes cur vs ++ post) (countNz vs) pre.length cur
      = some (lastNz cur vs)
  | [], _, _, _, _, _, h => by simp [countNz] at h
  | v :: vs, cur, pre, post, hc, hvs, h => by
    have hv32 : v < 2 ^ 32 := hvs v (List.mem_cons_self _ _)
    have hvs' : ∀ x ∈ vs, x < 2 ^ 32 := fun x hx => hvs x (List.mem_cons_of_mem _ hx)
    by_cases hv : v = 0
    · have h' : 0 < countNz vs := by simpa [countNz, hv] using h
      have := decode_loop_deltaBytes vs cur pre post hc hvs' h'
      simpa [countNz, deltaBytes, lastNz, hv] using this
    · have hcnt : countNz (v :: vs) = countNz vs + 1 := by
        simp only [countNz, hv, ne_eq, not_false_eq_true, if_true]; omega
      have hdb : deltaBytes cur (v :: vs)
          = EncodeUnsignedLeb128 [] ((v + 2 ^ 32 - cur) % 2 ^ 32) ++ deltaBytes v vs := by
        simp only [deltaBytes, hv, ne_eq, not_false_eq_true, if_true]
      have hln : lastNz cur (v :: vs) = lastNz v vs := by
        simp only [lastNz, hv, ne_eq, not_false_eq_true, if_true]
      rw [hcnt, hdb, hln, GetDebugInfoOffset.loop]
      have hdec := Decode_Encode ((v + 2 ^ 32 - cur) % 2 ^ 32) (Nat.mod_lt _ (by norm_num)) pre
        (deltaBytes v vs ++ post)
      simp only [List.append_assoc] at hdec ⊢
      rw [hdec]
      simp only [uint32_sub_add cur v hc hv32]
      by_cases hc0 : countNz vs = 0
      · simp [hc0, lastNz_of_countNz_zero vs v hc0]
      · have hpos : 0 < countNz vs := Nat.pos_of_ne_zero hc0
        rw [if_pos hpos]
        have := decode_loop_deltaBytes vs v
          (pre ++ EncodeUnsignedLeb128 [] ((v + 2 ^ 32 - cur) % 2 ^ 32)) post hv32 hvs' hpos
        simpa [List.append_assoc] using this

theorem decodeCursor_deltaBytes : ∀ (vs : List Nat) (cur : Nat) (pre post : List Nat),
    decodeCursor (pre ++ deltaBytes cur vs ++ post) (countNz vs) pre.length
      = some (pre.length + (deltaBytes cur vs).length)
  | [], _, _, _ => by simp [countNz, deltaBytes, decodeCursor]
  | v :: vs, cur, pre, post => by
    by_cases hv : v = 0
    · have := decodeCursor_deltaBytes vs cur pre post
      simpa [countNz, deltaBytes, hv] using this
    · have hcnt : countNz (v :: vs) = countNz vs + 1 := by
        simp only [countNz, hv, ne_eq, not_false_eq_true, if_true]; omega
      have hdb : deltaBytes cur (v :: vs)
          = EncodeUnsignedLeb128 [] ((v + 2 ^ 32 - cur) % 2 ^ 32) ++ deltaBytes v vs := by
        simp only [deltaBytes, hv, ne_eq, not_false_eq_true, if_true]
      rw [hcnt, hdb, decodeCursor]
      have hdec := Decode_Encode ((v + 2 ^ 32 - cur) % 2 ^ 32) (Nat.mod_lt _ (by norm_num)) pre
        (deltaBytes v vs ++ post)
      simp only [List.append_assoc] at hdec ⊢
      rw [hdec]
      have := decodeCursor_deltaBytes vs v
        (pre ++ EncodeUnsignedLeb128 [] ((v + 2 ^ 32 - cur) % 2 ^ 32)) post
      simp only [List.append_assoc, List.length_append] at this ⊢
      rw [this]
      congr 1
      omega

theorem deltaBytes_split : ∀ (vs : List Nat) (cur k : Nat),
    deltaBytes cur vs = deltaBytes cur (vs.take k) ++ deltaBytes (lastNz cur (vs.take k)) (vs.drop k)
  | [], _, _ => by simp [deltaBytes, lastNz]
  | v :: vs, cur, 0 => by simp [deltaBytes, lastNz]
  | v :: vs, cur, k + 1 => by
    by_cases hv : v = 0
    · simpa [deltaBytes, lastNz, hv] using deltaBytes_split vs cur k
    · simpa [deltaBytes, lastNz, hv] using deltaBytes_split vs v k

theorem lastNz_take : ∀ (vs : List Nat) (cur i v : Nat), vs[i]? = some v → v ≠ 0 →
    lastNz cur (vs.take (i + 1)) = v
  | [], _, _, _, h, _ => by simp at h
  | a :: vs, cur, 0, v, h, hv => by
    simp only [List.getElem?_cons_zero, Option.some.injEq] at h
    subst h
    simp [lastNz, hv]
  | a :: vs, cur, i + 1, v, h, hv => by
    simp only [List.getElem?_cons_succ] at h
    simp only [List.take_succ_cons, lastNz]
    split
    · exact lastNz_take vs a i v h hv
    · exact lastNz_take vs cur i v h hv

theorem countNz_take_pos : ∀ (vs : List Nat) (i v : Nat), vs[i]? = some v → v ≠ 0 →
    0 < countNz (vs.take (i + 1))
  | [], _, _, h, _ => by simp at h
  | a :: vs, 0, v, h, hv => by
    simp only [List.getElem?_cons_zero, Option.some.injEq] at h
    subst h
    simp [countNz, hv]
  | a :: vs, i + 1, v, h, hv => by
    simp only [List.getElem?_cons_succ] at h
    have := countNz_take_pos vs i v h hv
    simp only [List.take_succ_cons, countNz]
    omega

/-! ### Reading the indirection table and locating a record -/

theorem getElem?_append_mid (pre l post : List Nat) (k : Nat) (hk : k < l.length) :
    (pre ++ l ++ post)[pre.length + k]? = l[k]? := by
  rw [List.append_assoc, List.getElem?_append_right (Nat.le_add_right _ _),
    Nat.add_sub_cancel_left, List.getElem?_append_left hk]

theorem loadUint32_uint32Bytes (pre post : List Nat) (v : Nat) :
    loadUint32 (pre ++ uint32Bytes v ++ post) pre.length = some (v % 2 ^ 32) := by
  have h0 := getElem?_append_mid pre (uint32Bytes v) post 0 (by simp [uint32Bytes])
  have h1 := getElem?_append_mid pre (uint32Bytes v) post 1 (by simp [uint32Bytes])
  have h2 := getElem?_append_mid pre (uint32Bytes v) post 2 (by simp [uint32Bytes])
  have h3 := getElem?_append_mid pre (uint32Bytes v) post 3 (by simp [uint32Bytes])
  rw [Nat.add_zero] at h0
  unfold loadUint32
  rw [h0, h1, h2, h3]
  simp only [uint32Bytes, List.getElem?_cons_zero, List.getElem?_cons_succ, Option.some.injEq]
  omega

theorem loadUint32_table : ∀ (es : List Nat) (j e : Nat) (pre post : List Nat),
    es[j]? = some e →
    loadUint32 (pre ++ (es.map uint32Bytes).flatten ++ post) (pre.length + 4 * j)
      = some (e % 2 ^ 32)
  | [], _, _, _, _, h => by simp at h
  | a :: es, 0, e, pre, post, h => by
    simp only [List.getElem?_cons_zero, Option.some.injEq] at h
    subst h
    have := loadUint32_uint32Bytes pre ((es.map uint32Bytes).flatten ++ post) a
    simpa [List.append_assoc] using this
  | a :: es, j + 1, e, pre, post, h => by
    simp only [List.getElem?_cons_succ] at h
    have := loadUint32_table es j e (pre ++ uint32Bytes a) post h
    have hl : (pre ++ uint32Bytes a).length + 4 * j = pre.length + 4 * (j + 1) := by
      simp [uint32Bytes]; omega
    rw [hl] at this
    simpa [List.append_assoc] using this

theorem length_blockStarts : ∀ (recs : List (List Nat)) (s : Nat),
    (blockStarts s recs).length = recs.length
  | [], _ => rfl
  | r :: rs, s => by simp [blockStarts, length_blockStarts rs]

theorem getElem?_blockStarts : ∀ (recs : List (List Nat)) (s j : Nat), j < recs.length →
    (blockStarts s recs)[j]? = some (s + (recs.take j).flatten.length)
  | [], _, _, h => by simp at h
  | r :: rs, s, 0, _ => by simp [blockStarts]
  | r :: rs, s, j + 1, h => by
    have := getElem?_blockStarts rs (s + r.length) j (by simpa using h)
    simp only [blockStarts, List.getElem?_cons_succ, this, List.take_succ_cons,
      List.flatten_cons, List.length_append, Nat.add_assoc]

theorem length_recordsFrom (base : Nat) (seq : List Nat) (b k : Nat) :
    (recordsFrom base seq b k).length = k := by
  simp [recordsFrom]

theorem recordsFrom_add (base : Nat) (seq : List Nat) (b k m : Nat) :
    recordsFrom base seq b (k + m)
      = recordsFrom base seq b k ++ recordsFrom base seq (b + k) m := by
  unfold recordsFrom
  rw [← List.map_append]
  congr 1
  have := List.range'_append b k m 1
  simp only [Nat.one_mul] at this
  rw [Nat.add_comm k m]
  exact this.symm

theorem take_recordsFrom (base : Nat) (seq : List Nat) (b n : Nat) (h : b ≤ n) :
    (recordsFrom base seq 0 n).take b = recordsFrom base seq 0 b := by
  obtain ⟨m, rfl⟩ : ∃ m, n = b + m := ⟨n - b, by omega⟩
  rw [recordsFrom_add, List.take_left' (length_recordsFrom _ _ _ _)]

theorem dataSection_split (seq : List Nat) (b : Nat) (hb : b < numBlocks seq.length) :
    dataSection seq
      = (recordsFrom (Build.minOffset seq) seq 0 b).flatten
        ++ blockRecord (Build.minOffset seq) (blockVals seq b)
        ++ (recordsFrom (Build.minOffset seq) seq (b + 1) (numBlocks seq.length - (b + 1))).flatten := by
  unfold dataSection
  have h : numBlocks seq.length = b + ((numBlocks seq.length - (b + 1)) + 1) := by omega
  conv_lhs => rw [h, recordsFrom_add, recordsFrom_succ]
  simp [List.append_assoc]

theorem getElem?_tableEntries (seq : List Nat) (b : Nat) (hb : b < numBlocks seq.length) :
    (tableEntries seq)[b]? = some (blockStart seq b % 2 ^ 32) := by
  unfold tableEntries blockStart
  rw [List.getElem?_map, getElem?_blockStarts _ _ _ (by rw [length_recordsFrom]; exact hb),
    take_recordsFrom _ _ _ _ (le_of_lt hb)]
  simp

theorem length_tableEntries (seq : List Nat) :
    (tableEntries seq).length = numBlocks seq.length := by
  simp [tableEntries, length_blockStarts, length_recordsFrom]

theorem length_uint32_table (es : List Nat) :
    ((es.map uint32Bytes).flatten).length = 4 * es.length := by
  induction es with
  | nil => rfl
  | cons e es ih => simp [uint32Bytes, ih]; omega

theorem mask_bytes (m : Nat) (hm : m < 2 ^ 16) :
    (((m / 256 % 256) <<< 8) ||| (m % 256)) % 2 ^ 16 = m := by
  have h := Nat.mul_add_lt_is_or (i := 8) (b := m % 256) (Nat.mod_lt _ (by norm_num)) (m / 256 % 256)
  rw [Nat.shiftLeft_eq, Nat.mul_comm, ← h]
  omega

/-! ### The accessor on a block record -/

/-- If the table entry for `key` points at a block record, the accessor returns the
offset at position `key % 16` of that block, 0 when the block has no such position. -/
theorem GetDebugInfoOffset_record (w : Nat) (hw : 16 ≤ w) (data : List Nat)
    (tbl base key : Nat) (pre rest vals : List Nat)
    (hload : loadUint32 data (tbl + 4 * (key / 16)) = some pre.length)
    (hdata : data = pre ++ blockRecord base vals ++ rest)
    (hlen : vals.length ≤ 16) (hbase : base < 2 ^ 32) (hvals : ∀ v ∈ vals, v < 2 ^ 32) :
    GetDebugInfoOffset w (Accessor.ctor data base tbl) key
      = some (vals[key % 16]?.getD 0) := by
  have hi16 : key % 16 < 16 := Nat.mod_lt _ (by norm_num)
  have hm : maskOf vals < 2 ^ 16 :=
    lt_of_lt_of_le (maskOf_lt vals) (Nat.pow_le_pow_right (by norm_num) hlen)
  have hhi : data[pre.length]? = some (maskOf vals / 256 % 256) := by
    rw [hdata]
    have := getElem?_append_mid pre (blockRecord base vals) rest 0 (by simp [blockRecord])
    rw [Nat.add_zero] at this
    rw [this]
    rfl
  have hlo : data[pre.length + 1]? = some (maskOf vals % 256) := by
    rw [hdata]
    have := getElem?_append_mid pre (blockRecord base vals) rest 1 (by simp [blockRecord])
    simpa [blockRecord] using this
  unfold GetDebugInfoOffset
  simp only [Accessor.ctor, kElementsPerIndex, kBitsPerByte, hload, hhi, hlo]
  rw [mask_bytes _ hm]
  by_cases hbit : (maskOf vals).testBit (key % 16) = true
  · have hne : ¬ (maskOf vals &&& 1 <<< (key % 16) = 0) := by
      rw [and_one_shiftLeft_eq_zero]; simp [hbit]
    rw [if_neg hne, rank_eq w _ vals hw hi16]
    obtain ⟨v, hv, hv0⟩ := (testBit_maskOf vals (key % 16)).mp hbit
    have hpos := countNz_take_pos vals _ v hv hv0
    rw [if_pos hpos]
    have hsplit := deltaBytes_split vals base (key % 16 + 1)
    have hd : data = (pre ++ [maskOf vals / 256 % 256, maskOf vals % 256])
        ++ deltaBytes base (vals.take (key % 16 + 1))
        ++ (deltaBytes (lastNz base (vals.take (key % 16 + 1))) (vals.drop (key % 16 + 1))
            ++ rest) := by
      rw [hdata, blockRecord, hsplit]
      simp only [List.append_assoc]
    have hloop := decode_loop_deltaBytes (vals.take (key % 16 + 1)) base
      (pre ++ [maskOf vals / 256 % 256, maskOf vals % 256])
      (deltaBytes (lastNz base (vals.take (key % 16 + 1))) (vals.drop (key % 16 + 1)) ++ rest)
      hbase (fun x hx => hvals x (List.mem_of_mem_take hx)) hpos
    rw [← hd] at hloop
    simp only [List.length_append, List.length_cons, List.length_nil] at hloop
    rw [hloop, lastNz_take vals base _ v hv hv0, hv]
    rfl
  · have hbit' : (maskOf vals).testBit (key % 16) = false := by simpa using hbit
    have hz : maskOf vals &&& 1 <<< (key % 16) = 0 := (and_one_shiftLeft_eq_zero _ _).mpr hbit'
    rw [if_pos hz]
    have hnone : ¬ ∃ v, vals[key % 16]? = some v ∧ v ≠ 0 :=
      fun h => hbit ((testBit_maskOf vals (key % 16)).mpr h)
    cases hget : vals[key % 16]? with
    | none => rfl
    | some v =>
      have : v = 0 := by
        by_contra hv
        exact hnone ⟨v, hget, hv⟩
      simp [this]

/-! ### The accessor on the output of `Build` -/

theorem minOffset_foldl_le : ∀ (seq : List Nat) (init : Nat),
    seq.foldl (fun out_min_offset offset =>
      if offset ≠ 0 then min out_min_offset offset else out_min_offset) init ≤ init
  | [], _ => le_refl _
  | v :: vs, init => by
    rw [List.foldl_cons]
    refine le_trans (minOffset_foldl_le vs _) ?_
    split
    · exact Nat.min_le_left _ _
    · exact le_refl _

theorem minOffset_lt (seq : List Nat) : Build.minOffset seq < 2 ^ 32 :=
  Nat.lt_succ_of_le (minOffset_foldl_le seq 0xFFFFFFFF)

theorem getElem?_blockVals (seq : List Nat) (b i : Nat) (hi : i < 16) :
    (blockVals seq b)[i]? = seq[16 * b + i]? := by
  unfold blockVals
  rw [List.getElem?_take_of_lt hi, List.getElem?_drop]

theorem length_blockVals (seq : List Nat) (b : Nat) : (blockVals seq b).length ≤ 16 := by
  unfold blockVals
  exact List.length_take_le _ _

theorem mem_blockVals (seq : List Nat) (b v : Nat) (h : v ∈ blockVals seq b) : v ∈ seq :=
  List.mem_of_mem_drop (List.mem_of_mem_take h)

theorem blockStart_le (seq : List Nat) (b : Nat) (hb : b < numBlocks seq.length) :
    blockStart seq b + (blockRecord (Build.minOffset seq) (blockVals seq b)).length
      ≤ (dataSection seq).length := by
  rw [dataSection_split seq b hb]
  simp only [List.length_append, blockStart]
  omega

theorem layout_length (seq : List Nat) :
    (layout seq).out_data.length
      = (dataSection seq).length + (4 - (dataSection seq).length % 4) % 4
        + 4 * numBlocks seq.length := by
  simp only [layout, padding, List.length_append, List.length_replicate, length_uint32_table,
    length_tableEntries]

theorem layout_block (seq : List Nat) (b : Nat) (hb : b < numBlocks seq.length) :
    ∃ pre rest, (layout seq).out_data
        = pre ++ blockRecord (Build.minOffset seq) (blockVals seq b) ++ rest
      ∧ pre.length = blockStart seq b := by
  refine ⟨(recordsFrom (Build.minOffset seq) seq 0 b).flatten,
    (recordsFrom (Build.minOffset seq) seq (b + 1) (numBlocks seq.length - (b + 1))).flatten
      ++ padding (dataSection seq).length ++ ((tableEntries seq).map uint32Bytes).flatten, ?_, rfl⟩
  simp only [layout]
  rw [dataSection_split seq b hb]
  simp only [List.append_assoc]

/-- The table entry of block `b`, read at the untruncated start of the table. -/
theorem layout_load_raw (seq : List Nat) (b : Nat) (hb : b < numBlocks seq.length) :
    loadUint32 (layout seq).out_data
        ((dataSection seq).length + (4 - (dataSection seq).length % 4) % 4 + 4 * b)
      = some (blockStart seq b % 2 ^ 32) := by
  have h := loadUint32_table (tableEntries seq) b _
    (dataSection seq ++ padding (dataSection seq).length) [] (getElem?_tableEntries seq b hb)
  simp only [List.append_nil, List.length_append, padding, List.length_replicate,
    Nat.mod_mod] at h
  exact h

theorem layout_load (seq : List Nat) (b : Nat) (hb : b < numBlocks seq.length)
    (hsize : (layout seq).out_data.length < 2 ^ 32) :
    loadUint32 (layout seq).out_data ((layout seq).out_table_offset + 4 * b)
      = some (blockStart seq b) := by
  have hlen := layout_length seq
  have hle := blockStart_le seq b hb
  have h := layout_load_raw seq b hb
  have h1 : (layout seq).out_table_offset
      = (dataSection seq).length + (4 - (dataSection seq).length % 4) % 4 := by
    simp only [layout]
    exact Nat.mod_eq_of_lt (by omega)
  rw [h1, h, Nat.mod_eq_of_lt (by omega)]

/-- Round trip on the closed form of the output, when it is shorter than 2 ^ 32 bytes:
every key inside a block decodes to the input value, keys past the input to 0. -/
theorem GetDebugInfoOffset_layout (w : Nat) (hw : 16 ≤ w) (seq : List Nat)
    (hseq : ∀ x ∈ seq, x < 2 ^ 32) (hsize : (layout seq).out_data.length < 2 ^ 32)
    (key : Nat) (hkey : key < 16 * numBlocks seq.length) :
    GetDebugInfoOffset w
        (Accessor.ctor (layout seq).out_data (layout seq).out_min_offset
          (layout seq).out_table_offset) key
      = some (seq[key]?.getD 0) := by
  have hb : key / 16 < numBlocks seq.length := by omega
  obtain ⟨pre, rest, hdata, hpre⟩ := layout_block seq (key / 16) hb
  have hload := layout_load seq (key / 16) hb hsize
  rw [← hpre] at hload
  have h := GetDebugInfoOffset_record w hw (layout seq).out_data (layout seq).out_table_offset
    (Build.minOffset seq) key pre rest (blockVals seq (key / 16)) hload hdata
    (length_blockVals _ _) (minOffset_lt seq)
    (fun v hv => hseq v (mem_blockVals _ _ _ hv))
  rw [getElem?_blockVals seq _ _ (Nat.mod_lt _ (by norm_num)), Nat.div_add_mod] at h
  exact h

/-! ### The input of `16 * k` ones, and `2 ^ 32` ones in particular

Its data section is `18 * k` bytes long. For `k = 2 ^ 28` that is more than a `uint32_t`
holds, and the table entries and `out_table_offset` are truncated. The lemmas are stated
for every `k`; only closed arithmetic is evaluated at `k = 2 ^ 28`. -/

theorem minOffset_foldl_ones : ∀ (n : Nat),
    (List.replicate n 1).foldl (fun out_min_offset offset =>
      if offset ≠ 0 then min out_min_offset offset else out_min_offset) 1 = 1
  | 0 => rfl
  | n + 1 => by
    rw [List.replicate_succ, List.foldl_cons]
    simpa using minOffset_foldl_ones n

theorem minOffset_onesInput (k : Nat) (hk : 0 < k) : Build.minOffset (onesInput k) = 1 := by
  obtain ⟨n, hn⟩ : ∃ n, 16 * k = n + 1 := ⟨16 * k - 1, by omega⟩
  unfold Build.minOffset onesInput
  rw [hn, List.replicate_succ, List.foldl_cons]
  simpa using minOffset_foldl_ones n

theorem length_onesInput (k : Nat) : (onesInput k).length = 16 * k := by
  simp [onesInput]

theorem numBlocks_onesInput (k : Nat) : numBlocks (onesInput k).length = k := by
  rw [length_onesInput]; unfold numBlocks; omega

theorem blockVals_onesInput (k b : Nat) (hb : b < k) :
    blockVals (onesInput k) b = List.replicate 16 1 := by
  unfold blockVals onesInput
  rw [List.drop_replicate, List.take_replicate]
  congr 1
  omega

theorem blockRecord_ones : blockRecord 1 (List.replicate 16 1) = onesRecord := by
  decide

theorem recordsFrom_onesInput (k : Nat) (hk : 0 < k) : ∀ (m b : Nat), b + m ≤ k →
    recordsFrom (Build.minOffset (onesInput k)) (onesInput k) b m
      = List.replicate m onesRecord
  | 0, _, _ => by simp [recordsFrom]
  | m + 1, b, h => by
    rw [recordsFrom_succ, recordsFrom_onesInput k hk m (b + 1) (by omega),
      blockVals_onesInput k b (by omega), minOffset_onesInput k hk, blockRecord_ones,
      List.replicate_succ]

theorem getElem?_flatten_replicate (l : List Nat) : ∀ (k q j : Nat), q < k → j < l.length →
    (List.replicate k l).flatten[q * l.length + j]? = l[j]?
  | 0, _, _, h, _ => by omega
  | k + 1, 0, j, _, hj => by
    rw [List.replicate_succ, List.flatten_cons, Nat.zero_mul, Nat.zero_add,
      List.getElem?_append_left hj]
  | k + 1, q + 1, j, h, hj => by
    have ih := getElem?_flatten_replicate l k q j (by omega) hj
    rw [List.replicate_succ, List.flatten_cons,
      List.getElem?_append_right (by rw [Nat.succ_mul]; omega)]
    have : (q + 1) * l.length + j - l.length = q * l.length + j := by
      rw [Nat.succ_mul]; omega
    rw [this, ih]

theorem length_flatten_replicate (l : List Nat) (k : Nat) :
    (List.replicate k l).flatten.length = k * l.length := by
  induction k with
  | zero => simp
  | succ k ih => rw [List.replicate_succ, List.flatten_cons, List.length_append, ih]; ring

theorem dataSection_onesInput (k : Nat) (hk : 0 < k) :
    dataSection (onesInput k) = (List.replicate k onesRecord).flatten := by
  unfold dataSection
  rw [numBlocks_onesInput, recordsFrom_onesInput k hk k 0 (by omega)]

theorem length_dataSection_onesInput (k : Nat) (hk : 0 < k) :
    (dataSection (onesInput k)).length = 18 * k := by
  rw [dataSection_onesInput k hk, length_flatten_replicate]
  simp [onesRecord]; omega

/-- Byte `18 * q + j` of the output for `onesInput k` is byte `j` of `onesRecord`. -/
theorem layout_onesInput_getElem? (k q j : Nat) (hq : q < k) (hj : j < 18) :
    (layout (onesInput k)).out_data[18 * q + j]? = onesRecord[j]? := by
  have hk : 0 < k := by omega
  have hlen : onesRecord.length = 18 := rfl
  have h := getElem?_flatten_replicate onesRecord k q j hq (by rw [hlen]; exact hj)
  rw [hlen, Nat.mul_comm] at h
  simp only [layout]
  rw [List.append_assoc, List.getElem?_append_left, dataSection_onesInput k hk, h]
  rw [length_dataSection_onesInput k hk]
  omega

theorem layout_onesInput_table_offset (k : Nat) (hk : 0 < k) :
    (layout (onesInput k)).out_table_offset = (18 * k + (4 - 18 * k % 4) % 4) % 2 ^ 32 := by
  simp only [layout]
  rw [length_dataSection_onesInput k hk]

theorem layout_onesInput_length (k : Nat) (hk : 0 < k) :
    (layout (onesInput k)).out_data.length = 18 * k + (4 - 18 * k % 4) % 4 + 4 * k := by
  rw [layout_length, length_dataSection_onesInput k hk, numBlocks_onesInput]

theorem layout_onesInput_min (k : Nat) (hk : 0 < k) :
    (layout (onesInput k)).out_min_offset = 1 :=
  minOffset_onesInput k hk

theorem layout_onesInput_load (k q j : Nat) (hq : q < k) (hj : j + 3 < 18) :
    loadUint32 (layout (onesInput k)).out_data (18 * q + j) = loadUint32 onesRecord j := by
  have h0 := layout_onesInput_getElem? k q j hq (by omega)
  have h1 := layout_onesInput_getElem? k q (j + 1) hq (by omega)
  have h2 := layout_onesInput_getElem? k q (j + 2) hq (by omega)
  have h3 := layout_onesInput_getElem? k q (j + 3) hq (by omega)
  simp only [← Nat.add_assoc] at h1 h2 h3
  unfold loadUint32
  rw [h0, h1, h2, h3]

theorem layout_onesInput_decodeCursor (k : Nat) (hk : 0 < k) :
    decodeCursor (layout (onesInput k)).out_data 16 2 = some 18 := by
  obtain ⟨pre, rest, hdata, hpre⟩ := layout_block (onesInput k) 0
    (by rw [numBlocks_onesInput]; exact hk)
  have hnil : pre = [] := List.eq_nil_of_length_eq_zero (by rw [hpre]; rfl)
  subst hnil
  rw [minOffset_onesInput k hk, blockVals_onesInput k 0 hk] at hdata
  have h := decodeCursor_deltaBytes (List.replicate 16 1) 1 [255, 255] rest
  have hrec : ([] : List Nat) ++ blockRecord 1 (List.replicate 16 1) ++ rest
      = [255, 255] ++ deltaBytes 1 (List.replicate 16 1) ++ rest := rfl
  rw [hdata, hrec]
  exact h

theorem deltaLoop_onesInput (k : Nat) (hk : 0 < k) :
    Build.deltaLoop (onesInput k) 0 16 0 [] 1 = some (List.replicate 16 0) := by
  rw [deltaLoop_eq (onesInput k) 0 16 0 [] 1 (by rw [length_onesInput]; omega)]
  have h := blockVals_onesInput k 0 hk
  unfold blockVals at h
  simp only [Nat.mul_zero, Nat.add_zero] at h ⊢
  rw [h]
  rfl

theorem blockStart_onesInput (k b : Nat) (hk : 0 < k) (hb : b ≤ k) :
    blockStart (onesInput k) b = 18 * b := by
  unfold blockStart
  rw [recordsFrom_onesInput k hk b 0 (by omega), length_flatten_replicate]
  simp [onesRecord]; omega

/-- The table entry of block `b`, read where the table really starts. -/
theorem layout_onesInput_load_raw (k b : Nat) (hb : b < k) :
    loadUint32 (layout (onesInput k)).out_data (18 * k + (4 - 18 * k % 4) % 4 + 4 * b)
      = some (18 * b % 2 ^ 32) := by
  have hk : 0 < k := by omega
  have h := layout_load_raw (onesInput k) b (by rw [numBlocks_onesInput]; exact hb)
  rw [length_dataSection_onesInput k hk, blockStart_onesInput k b hk (le_of_lt hb)] at h
  exact h

/-- Decoding the 16 deltas of block `q` from just after its mask ends at the start of
the next record. -/
theorem layout_onesInput_decodeCursor_at (k q : Nat) (hq : q < k) :
    decodeCursor (layout (onesInput k)).out_data 16 (18 * q + 2) = some (18 * q + 18) := by
  have hk : 0 < k := by omega
  obtain ⟨pre, rest, hdata, hpre⟩ := layout_block (onesInput k) q
    (by rw [numBlocks_onesInput]; exact hq)
  rw [blockStart_onesInput k q hk (le_of_lt hq)] at hpre
  rw [minOffset_onesInput k hk, blockVals_onesInput k q hq] at hdata
  have h := decodeCursor_deltaBytes (List.replicate 16 1) 1 (pre ++ [255, 255]) rest
  have hrec : pre ++ blockRecord 1 (List.replicate 16 1) ++ rest
      = (pre ++ [255, 255]) ++ deltaBytes 1 (List.replicate 16 1) ++ rest := by
    rw [blockRecord_ones]
    have : deltaBytes 1 (List.replicate 16 1) = List.replicate 16 0 := by decide
    rw [this]
    simp [onesRecord]
  rw [hdata, hrec]
  have hc : countNz (List.replicate 16 1) = 16 := by decide
  have hl : (deltaBytes 1 (List.replicate 16 1)).length = 16 := by decide
  rw [hc, hl] at h
  simp only [List.length_append, List.length_cons, List.length_nil, hpre] at h
  rw [h]

theorem deltaLoop_onesInput_at (k q : Nat) (hq : q < k) :
    Build.deltaLoop (onesInput k) (16 * q) 16 0 [] (layout (onesInput k)).out_min_offset
      = some (List.replicate 16 0) := by
  have hk : 0 < k := by omega
  rw [layout_onesInput_min k hk,
    deltaLoop_eq (onesInput k) (16 * q) 16 0 [] 1 (by rw [length_onesInput]; omega)]
  have h := blockVals_onesInput k q hq
  unfold blockVals at h
  simp only [Nat.add_zero] at h ⊢
  rw [h]
  rfl

theorem onesRecord_load_0 : loadUint32 onesRecord 0 = some 65535 := by decide

theorem onesRecord_load_14 : loadUint32 onesRecord 14 = some 0 := by decide

theorem huge_table_offset :
    (layout (onesInput (2 ^ 28))).out_table_offset = 536870912 := by
  rw [layout_onesInput_table_offset _ (by norm_num)]
  norm_num

theorem huge_length : (layout (onesInput (2 ^ 28))).out_data.length = 5905580032 := by
  rw [layout_onesInput_length _ (by norm_num)]
  norm_num

theorem huge_load_zero :
    loadUint32 (layout (onesInput (2 ^ 28))).out_data
      ((layout (onesInput (2 ^ 28))).out_table_offset + 4 * 0) = some 0 := by
  rw [huge_table_offset, show 536870912 + 4 * 0 = 18 * 29826161 + 14 from by norm_num,
    layout_onesInput_load _ _ _ (by norm_num) (by norm_num)]
  exact onesRecord_load_14

theorem huge_load_one :
    loadUint32 (layout (onesInput (2 ^ 28))).out_data
      ((layout (onesInput (2 ^ 28))).out_table_offset + 4 * 1) = some 65535 := by
  rw [huge_table_offset, show 536870912 + 4 * 1 = 18 * 29826162 + 0 from by norm_num,
    layout_onesInput_load _ _ _ (by norm_num) (by norm_num)]
  exact onesRecord_load_0

theorem huge_byte_65535 : (layout (onesInput (2 ^ 28))).out_data[65535]? = some 0 := by
  rw [show 65535 = 18 * 3640 + 15 from by norm_num,
    layout_onesInput_getElem? _ _ _ (by norm_num) (by norm_num)]
  rfl

theorem huge_byte_65536 : (layout (onesInput (2 ^ 28))).out_data[65536]? = some 0 := by
  rw [show 65536 = 18 * 3640 + 16 from by norm_num,
    layout_onesInput_getElem? _ _ _ (by norm_num) (by norm_num)]
  rfl

theorem huge_byte_0 : (layout (onesInput (2 ^ 28))).out_data[0]? = some 255 := by
  rw [show 0 = 18 * 0 + 0 from by norm_num,
    layout_onesInput_getElem? _ _ _ (by norm_num) (by norm_num)]
  rfl

theorem huge_byte_1 : (layout (onesInput (2 ^ 28))).out_data[1]? = some 255 := by
  rw [show 1 = 18 * 0 + 1 from by norm_num,
    layout_onesInput_getElem? _ _ _ (by norm_num) (by norm_num)]
  rfl

theorem huge_getElem?_16 : (onesInput (2 ^ 28))[16]? = some 1 := by
  unfold onesInput
  rw [List.getElem?_replicate_of_lt (by norm_num)]

theorem huge_raw_entry_last_fitting :
    loadUint32 (layout (onesInput (2 ^ 28))).out_data (4831838208 + 4 * 238609294)
      = some 4294967292 := by
  rw [show 4831838208 + 4 * 238609294
      = 18 * 2 ^ 28 + (4 - 18 * 2 ^ 28 % 4) % 4 + 4 * 238609294 from by norm_num,
    layout_onesInput_load_raw _ _ (by norm_num)]
  norm_num

theorem huge_raw_entry_first_wrapped :
    loadUint32 (layout (onesInput (2 ^ 28))).out_data (4831838208 + 4 * 238609295)
      = some 14 := by
  rw [show 4831838208 + 4 * 238609295
      = 18 * 2 ^ 28 + (4 - 18 * 2 ^ 28 % 4) % 4 + 4 * 238609295 from by norm_num,
    layout_onesInput_load_raw _ _ (by norm_num)]
  norm_num

theorem huge_byte_14 : (layout (onesInput (2 ^ 28))).out_data[14]? = some 0 := by
  rw [show 14 = 18 * 0 + 14 from by norm_num,
    layout_onesInput_getElem? _ _ _ (by norm_num) (by norm_num)]
  rfl

theorem huge_byte_15 : (layout (onesInput (2 ^ 28))).out_data[14 + 1]? = some 0 := by
  rw [show 14 + 1 = 18 * 0 + 15 from by norm_num,
    layout_onesInput_getElem? _ _ _ (by norm_num) (by norm_num)]
  rfl

theorem huge_mask_hi_last_fitting :
    (layout (onesInput (2 ^ 28))).out_data[4294967292]? = some 255 := by
  rw [show 4294967292 = 18 * 238609294 + 0 from by norm_num,
    layout_onesInput_getElem? _ _ _ (by norm_num) (by norm_num)]
  rfl

theorem huge_mask_lo_last_fitting :
    (layout (onesInput (2 ^ 28))).out_data[4294967292 + 1]? = some 255 := by
  rw [show 4294967292 + 1 = 18 * 238609294 + 1 from by norm_num,
    layout_onesInput_getElem? _ _ _ (by norm_num) (by norm_num)]
  rfl

theorem huge_decodeCursor_last_fitting :
    decodeCursor (layout (onesInput (2 ^ 28))).out_data 16 (4294967292 + 2)
      = some 4294967310 := by
  rw [show 4294967292 + 2 = 18 * 238609294 + 2 from by norm_num,
    layout_onesInput_decodeCursor_at _ _ (by norm_num)]

theorem huge_getElem?_wrapped :
    (onesInput (2 ^ 28))[16 * 238609295 + 0]? = some 1 := by
  unfold onesInput
  rw [List.getElem?_replicate_of_lt (by norm_num)]

/-- The fast-reject path of the accessor. -/
theorem GetDebugInfoOffset_bit_clear (w : Nat) (data : List Nat) (base tbl key offset hi lo : Nat)
    (hload : loadUint32 data (tbl + 4 * (key / 16)) = some offset)
    (hhi : data[offset]? = some hi) (hlo : data[offset + 1]? = some lo)
    (hbit : ((hi <<< 8 ||| lo) % 2 ^ 16) &&& (1 <<< (key % 16)) = 0) :
    GetDebugInfoOffset w (Accessor.ctor data base tbl) key = some 0 := by
  unfold GetDebugInfoOffset
  simp only [Accessor.ctor, kElementsPerIndex, kBitsPerByte, hload, hhi, hlo]
  rw [if_pos hbit]

theorem huge_load_key16 :
    loadUint32 (layout (onesInput (2 ^ 28))).out_data
      ((layout (onesInput (2 ^ 28))).out_table_offset + 4 * (16 / 16)) = some 65535 := by
  rw [huge_table_offset, show 536870912 + 4 * (16 / 16) = 18 * 29826162 + 0 from by norm_num,
    layout_onesInput_load _ _ _ (by norm_num) (by norm_num)]
  exact onesRecord_load_0

/-! ### The base offset -/

theorem minOffset_foldl_spec : ∀ (seq : List Nat) (init : Nat),
    let r := seq.foldl (fun out_min_offset offset =>
      if offset ≠ 0 then min out_min_offset offset else out_min_offset) init
    (∀ x ∈ seq, x ≠ 0 → r ≤ x) ∧ (r = init ∨ (r ∈ seq ∧ r ≠ 0))
  | [], init => by simp
  | v :: vs, init => by
    intro r
    by_cases hv : v = 0
    · have ih := minOffset_foldl_spec vs init
      have hr : r = vs.foldl (fun out_min_offset offset =>
          if offset ≠ 0 then min out_min_offset offset else out_min_offset) init := by
        simp only [r, List.foldl_cons, hv, ne_eq, not_true_eq_false, if_false]
      rw [hr]
      refine ⟨?_, ?_⟩
      · intro x hx hx0
        rcases List.mem_cons.mp hx with h | h
        · exact absurd (h.trans hv) hx0
        · exact ih.1 x h hx0
      · rcases ih.2 with h | ⟨h1, h2⟩
        · exact Or.inl h
        · exact Or.inr ⟨List.mem_cons_of_mem _ h1, h2⟩
    · have ih := minOffset_foldl_spec vs (min init v)
      have hle := minOffset_foldl_le vs (min init v)
      have hr : r = vs.foldl (fun out_min_offset offset =>
          if offset ≠ 0 then min out_min_offset offset else out_min_offset) (min init v) := by
        simp only [r, List.foldl_cons, hv, ne_eq, not_false_eq_true, if_true]
      rw [hr]
      refine ⟨?_, ?_⟩
      · intro x hx hx0
        rcases List.mem_cons.mp hx with h | h
        · rw [h]; exact le_trans hle (Nat.min_le_right _ _)
        · exact ih.1 x h hx0
      · rcases ih.2 with h | ⟨h1, h2⟩
        · rcases Nat.le_total init v with hiv | hiv
          · left; rw [h, Nat.min_eq_left hiv]
          · right
            rw [h, Nat.min_eq_right hiv]
            exact ⟨List.mem_cons_self _ _, hv⟩
        · exact Or.inr ⟨List.mem_cons_of_mem _ h1, h2⟩

theorem minOffset_le_of_mem (seq : List Nat) (x : Nat) (hx : x ∈ seq) (hx0 : x ≠ 0) :
    Build.minOffset seq ≤ x :=
  (minOffset_foldl_spec seq 0xFFFFFFFF).1 x hx hx0

theorem minOffset_mem (seq : List Nat) (hseq : ∀ x ∈ seq, x < 2 ^ 32)
    (hex : ∃ x ∈ seq, x ≠ 0) :
    Build.minOffset seq ∈ seq ∧ Build.minOffset seq ≠ 0 := by
  obtain ⟨x, hx, hx0⟩ := hex
  rcases (minOffset_foldl_spec seq 0xFFFFFFFF).2 with h | h
  · have h1 := minOffset_le_of_mem seq x hx hx0
    have h2 := hseq x hx
    have h3 : Build.minOffset seq = 0xFFFFFFFF := h
    have hx' : x = Build.minOffset seq := by omega
    rw [← hx']
    exact ⟨hx, hx0⟩
  · exact h

theorem minOffset_all_zero : ∀ (seq : List Nat) (init : Nat), (∀ x ∈ seq, x = 0) →
    seq.foldl (fun out_min_offset offset =>
      if offset ≠ 0 then min out_min_offset offset else out_min_offset) init = init
  | [], _, _ => rfl
  | v :: vs, init, h => by
    have hv : v = 0 := h v (List.mem_cons_self _ _)
    rw [List.foldl_cons, hv]
    exact minOffset_all_zero vs init (fun x hx => h x (List.mem_cons_of_mem _ hx))

/-! ### The all-zero input -/

theorem maskOf_all_zero : ∀ (vs : List Nat), (∀ x ∈ vs, x = 0) → maskOf vs = 0
  | [], _ => rfl
  | v :: vs, h => by
    have hv : v = 0 := h v (List.mem_cons_self _ _)
    have ih := maskOf_all_zero vs (fun x hx => h x (List.mem_cons_of_mem _ hx))
    simp [maskOf, hv, ih]

theorem deltaBytes_all_zero : ∀ (vs : List Nat) (cur : Nat), (∀ x ∈ vs, x = 0) →
    deltaBytes cur vs = []
  | [], _, _ => rfl
  | v :: vs, cur, h => by
    have hv : v = 0 := h v (List.mem_cons_self _ _)
    have ih := deltaBytes_all_zero vs cur (fun x hx => h x (List.mem_cons_of_mem _ hx))
    simp [deltaBytes, hv, ih]

theorem blockRecord_all_zero (seq : List Nat) (hz : ∀ x ∈ seq, x = 0) (base b : Nat) :
    blockRecord base (blockVals seq b) = [0, 0] := by
  have h : ∀ x ∈ blockVals seq b, x = 0 := fun x hx => hz x (mem_blockVals seq b x hx)
  simp [blockRecord, maskOf_all_zero _ h, deltaBytes_all_zero _ _ h]

theorem recordsFrom_all_zero (seq : List Nat) (hz : ∀ x ∈ seq, x = 0) (base : Nat) :
    ∀ (m b : Nat), recordsFrom base seq b m = List.replicate m [0, 0]
  | 0, _ => by simp [recordsFrom]
  | m + 1, b => by
    rw [recordsFrom_succ, recordsFrom_all_zero seq hz base m (b + 1),
      blockRecord_all_zero seq hz, List.replicate_succ]

theorem blockStart_all_zero (seq : List Nat) (hz : ∀ x ∈ seq, x = 0) (b : Nat) :
    blockStart seq b = 2 * b := by
  unfold blockStart
  rw [recordsFrom_all_zero seq hz, length_flatten_replicate]
  simp; omega

theorem length_dataSection_all_zero (seq : List Nat) (hz : ∀ x ∈ seq, x = 0) :
    (dataSection seq).length = 2 * numBlocks seq.length :=
  blockStart_all_zero seq hz (numBlocks seq.length)

theorem mem_flatten_replicate_zero (k : Nat) (x : Nat)
    (hx : x ∈ (List.replicate k [0, 0]).flatten) : x = 0 := by
  rw [List.mem_flatten] at hx
  obtain ⟨l, hl, hxl⟩ := hx
  rw [List.eq_of_mem_replicate hl] at hxl
  simpa using hxl

/-- Every byte of the output before the indirection table is zero when all offsets are. -/
theorem layout_all_zero_getElem? (seq : List Nat) (hz : ∀ x ∈ seq, x = 0) (i : Nat)
    (hi : i < (dataSection seq).length + (4 - (dataSection seq).length % 4) % 4) :
    (layout seq).out_data[i]? = some 0 := by
  have hlen : i < (dataSection seq ++ padding (dataSection seq).length).length := by
    simp only [List.length_append, padding, List.length_replicate]; exact hi
  simp only [layout]
  rw [List.getElem?_append_left hlen, List.getElem?_eq_getElem hlen]
  congr 1
  have hall : ∀ x ∈ dataSection seq ++ padding (dataSection seq).length, x = 0 := by
    intro x hx
    rcases List.mem_append.mp hx with h | h
    · unfold dataSection at h
      rw [recordsFrom_all_zero seq hz] at h
      exact mem_flatten_replicate_zero _ _ h
    · exact List.eq_of_mem_replicate h
  exact hall _ (List.getElem_mem hlen)

theorem loadUint32_zero (data : List Nat) (p : Nat)
    (h : ∀ i, i < 4 → data[p + i]? = some 0) : loadUint32 data p = some 0 := by
  have h0 := h 0 (by norm_num)
  have h1 := h 1 (by norm_num)
  have h2 := h 2 (by norm_num)
  have h3 := h 3 (by norm_num)
  rw [Nat.add_zero] at h0
  unfold loadUint32
  rw [h0, h1, h2, h3]
  rfl

/-- For an all-zero input the bit mask the accessor finds for every block is zero,
whatever the size of the output. -/
theorem layout_all_zero_mask (seq : List Nat) (hz : ∀ x ∈ seq, x = 0) (b : Nat)
    (hb : b < numBlocks seq.length) :
    ∃ T, loadUint32 (layout seq).out_data ((layout seq).out_table_offset + 4 * b) = some T
      ∧ (layout seq).out_data[T]? = some 0 ∧ (layout seq).out_data[T + 1]? = some 0 := by
  have hD := length_dataSection_all_zero seq hz
  have hoff : (layout seq).out_table_offset
      = ((dataSection seq).length + (4 - (dataSection seq).length % 4) % 4) % 2 ^ 32 := rfl
  by_cases hcase : (layout seq).out_table_offset + 4 * b + 3
      < (dataSection seq).length + (4 - (dataSection seq).length % 4) % 4
  · refine ⟨0, loadUint32_zero _ _ (fun i hi => ?_), ?_, ?_⟩
    · exact layout_all_zero_getElem? seq hz _ (by omega)
    · exact layout_all_zero_getElem? seq hz _ (by omega)
    · exact layout_all_zero_getElem? seq hz _ (by omega)
  · obtain ⟨j, hj⟩ : ∃ j, (layout seq).out_table_offset + 4 * b
        = (dataSection seq).length + (4 - (dataSection seq).length % 4) % 4 + 4 * j :=
      ⟨((layout seq).out_table_offset + 4 * b
        - ((dataSection seq).length + (4 - (dataSection seq).length % 4) % 4)) / 4, by omega⟩
    have hjb : j < numBlocks seq.length := by omega
    have hload := layout_load_raw seq j hjb
    rw [← hj, blockStart_all_zero seq hz] at hload
    refine ⟨_, hload, ?_, ?_⟩
    · exact layout_all_zero_getElem? seq hz _ (by omega)
    · exact layout_all_zero_getElem? seq hz _ (by omega)

/-! ### The view of one block used by the claims -/

theorem blockStart_succ (seq : List Nat) (b : Nat) :
    blockStart seq (b + 1)
      = blockStart seq b + (blockRecord (Build.minOffset seq) (blockVals seq b)).length := by
  unfold blockStart
  rw [recordsFrom_add, List.flatten_append, List.length_append, recordsFrom_succ]
  simp [recordsFrom]

theorem mask_bytes_value (m : Nat) (hm : m < 2 ^ 16) : m / 256 % 256 * 256 + m % 256 = m := by
  omega

/-- What the accessor finds for block `b` in the output of `Build` when the output is
shorter than 2 ^ 32 bytes: the table entry is the start of the block's record, and the
record is the big-endian mask followed by the delta bytes. -/
theorem layout_block_view (seq : List Nat) (hsize : (layout seq).out_data.length < 2 ^ 32)
    (b : Nat) (hb : b < numBlocks seq.length) :
    ∃ pre rest,
      loadUint32 (layout seq).out_data ((layout seq).out_table_offset + 4 * b)
        = some (blockStart seq b)
      ∧ pre.length = blockStart seq b
      ∧ (layout seq).out_data
        = (pre ++ [maskOf (blockVals seq b) / 256 % 256, maskOf (blockVals seq b) % 256])
          ++ deltaBytes (Build.minOffset seq) (blockVals seq b) ++ rest
      ∧ (layout seq).out_data[blockStart seq b]? = some (maskOf (blockVals seq b) / 256 % 256)
      ∧ (layout seq).out_data[blockStart seq b + 1]? = some (maskOf (blockVals seq b) % 256) := by
  obtain ⟨pre, rest, hdata, hpre⟩ := layout_block seq b hb
  refine ⟨pre, rest, layout_load seq b hb hsize, hpre, ?_, ?_, ?_⟩
  · rw [hdata, blockRecord]; simp only [List.append_assoc]
  · have := getElem?_append_mid pre (blockRecord (Build.minOffset seq) (blockVals seq b)) rest 0
      (by simp [blockRecord])
    rw [Nat.add_zero, hpre, ← hdata] at this
    rw [this]; rfl
  · have := getElem?_append_mid pre (blockRecord (Build.minOffset seq) (blockVals seq b)) rest 1
      (by simp [blockRecord])
    rw [hpre, ← hdata] at this
    rw [this]; simp [blockRecord]

theorem maskOf_blockVals_lt (seq : List Nat) (b : Nat) : maskOf (blockVals seq b) < 2 ^ 16 :=
  lt_of_lt_of_le (maskOf_lt _) (Nat.pow_le_pow_right (by norm_num) (length_blockVals seq b))

theorem deltaLoop_block (seq : List Nat) (b : Nat) (hb : b < numBlocks seq.length) (cur : Nat) :
    Build.deltaLoop seq (16 * b) (min (seq.length - 16 * b) 16) 0 [] cur
      = some (deltaBytes cur (blockVals seq b)) := by
  have h16 : 16 * b < seq.length := by unfold numBlocks at hb; omega
  rw [deltaLoop_eq seq (16 * b) _ 0 [] cur (by omega)]
  have htake : (seq.drop (16 * b)).take (min (seq.length - 16 * b) 16) = blockVals seq b := by
    have := take_min_length (seq.drop (16 * b)) 16
    rw [List.length_drop] at this
    exact this
  simp only [Nat.add_zero, htake, List.nil_append]

theorem bitMaskLoop_block (seq : List Nat) (b : Nat) (hb : b < numBlocks seq.length) :
    Build.bitMaskLoop seq (16 * b) (min (seq.length - 16 * b) 16) 0 0
      = some (maskOf (blockVals seq b)) := by
  have h16 : 16 * b < seq.length := by unfold numBlocks at hb; omega
  rw [bitMaskLoop_eq seq (16 * b) _ 0 0 (by norm_num) (by omega) (by omega)]
  have htake : (seq.drop (16 * b)).take (min (seq.length - 16 * b) 16) = blockVals seq b := by
    have := take_min_length (seq.drop (16 * b)) 16
    rw [List.length_drop] at this
    exact this
  simp only [Nat.add_zero, htake, pow_zero, Nat.one_mul, Nat.zero_add]

theorem layout_eq_of_Build (seq : List Nat) (r : BuildResult) (h : Build seq [] = some r) :
    layout seq = r := by
  rw [Build_eq] at h
  exact Option.some.inj h

/-! ### Evaluations on the concrete inputs -/

theorem Build_scenarioInput :
    Build scenarioInput [] = some ⟨[0x00, 0x12, 0x00, 0x02, 0, 0, 0, 0], 5, 4⟩ := by
  decide

theorem Build_sampleInput :
    Build sampleInput [] = some
      ⟨[0, 18, 4, 2, 0, 123, 254, 255, 255, 255, 15, 2, 171, 2, 255, 255, 255, 255, 15, 197,
        160, 4, 149, 221, 251, 255, 15, 0, 0, 0, 0, 0, 4, 0, 0, 0], 1, 28⟩ := by
  decide

theorem onesInput_lt (k x : Nat) (hx : x ∈ onesInput k) : x < 2 ^ 32 := by
  rw [List.eq_of_mem_replicate hx]
  norm_num

theorem deltaLoop_onesInput_min (k : Nat) (hk : 0 < k) :
    Build.deltaLoop (onesInput k) 0 16 0 [] (layout (onesInput k)).out_min_offset
      = some (List.replicate 16 0) := by
  rw [layout_onesInput_min k hk]
  exact deltaLoop_onesInput k hk

theorem blockStart_zero (seq : List Nat) : blockStart seq 0 = 0 := rfl

theorem bit_clear_of_testBit (hi lo i : Nat) (hhi : hi < 256) (hlo : lo < 256)
    (hbit : (hi * 256 + lo).testBit i = false) :
    ((hi <<< 8 ||| lo) % 2 ^ 16) &&& (1 <<< i) = 0 := by
  have h := Nat.mul_add_lt_is_or (i := 8) (b := lo) hlo hi
  have hval : (hi <<< 8 ||| lo) % 2 ^ 16 = hi * 256 + lo := by
    rw [Nat.shiftLeft_eq, Nat.mul_comm, ← h]
    omega
  rw [hval, and_one_shiftLeft_eq_zero]
  exact hbit

/-! ### Failure of `Build` -/

theorem Build_nonempty (seq out_data : List Nat) (h : out_data ≠ []) :
    Build seq out_data = none := by
  unfold Build Build.compiled
  rw [if_pos ⟨rfl, h⟩]

/-- On an empty `out_data` the `DCHECK` of `Build` passes: the function is the same with
the checks enabled and with the checks compiled out. -/
theorem Build_compiled_nil (kEnableDChecks : Bool) (seq : List Nat) :
    Build.compiled kEnableDChecks seq [] = Build seq [] := by
  unfold Build Build.compiled
  rw [if_neg (by simp), if_neg (by simp)]

theorem blockLoop_run_from (seq out : List Nat) :
    Build.blockLoop seq (Build.minOffset seq) seq.length 0 out []
      = some (out ++ dataSection seq,
          (blockStarts out.length
            (recordsFrom (Build.minOffset seq) seq 0 (numBlocks seq.length))).map
              (· % 2 ^ 32)) := by
  have h := blockLoop_eq seq (Build.minOffset seq) seq.length 0 out []
    (Nat.zero_le _) (by unfold numBlocks; omega)
  simpa [dataSection] using h

/-- With the checks compiled out `Build` returns a result for every `out_data`, and the
returned vector starts with what `out_data` held on entry. -/
theorem Build_compiled_false (seq out_data : List Nat) :
    ∃ r post, Build.compiled false seq out_data = some r ∧ r.out_data = out_data ++ post := by
  unfold Build.compiled
  rw [if_neg (by simp)]
  simp only [blockLoop_run_from, AlignmentPadVector_eq]
  exact ⟨_, dataSection seq ++ (padding (out_data ++ dataSection seq).length
    ++ (((blockStarts out_data.length
      (recordsFrom (Build.minOffset seq) seq 0 (numBlocks seq.length))).map
        (· % 2 ^ 32)).map uint32Bytes).flatten), rfl, by simp only [List.append_assoc]⟩

/-! ### Population count as a count of set bits -/

theorem POPCOUNT_eq_count : ∀ (n x : Nat), x < 2 ^ n →
    POPCOUNT x = ((List.range n).filter fun j => x.testBit j).length := by
  intro n
  induction n with
  | zero =>
    intro x hx
    have hx0 : x = 0 := by simpa using hx
    subst hx0
    rfl
  | succ n ih =>
    intro x hx
    have hhalf : x / 2 < 2 ^ n := by
      rw [Nat.div_lt_iff_lt_mul (by norm_num)]
      rw [pow_succ] at hx
      exact hx
    have hrec : POPCOUNT x = x % 2 + POPCOUNT (x / 2) := by
      by_cases hx0 : x = 0
      · subst hx0; rfl
      · exact POPCOUNT_eq x hx0
    have htail : ((List.map (· + 1) (List.range n)).filter fun j => x.testBit j).length
        = ((List.range n).filter fun j => (x / 2).testBit j).length := by
      rw [List.filter_map, List.length_map]
      congr 1
      apply List.filter_congr
      intro j _
      simp [Nat.testBit_succ]
    rw [hrec, ih (x / 2) hhalf, List.range_succ_eq_map, List.filter_cons]
    by_cases hbit : x % 2 = 1
    · have h0 : x.testBit 0 = true := by simp [Nat.testBit_zero, hbit]
      rw [if_pos h0, List.length_cons, htail, hbit]
      omega
    · have h0 : ¬ x.testBit 0 = true := by simp [Nat.testBit_zero, hbit]
      rw [if_neg h0, htail]
      omega

theorem shift_mod_eq (w i m : Nat) (hw : 16 ≤ w) (hi : i < 16) :
    (m <<< (w - 1 - i)) % 2 ^ w = m % 2 ^ (i + 1) * 2 ^ (w - 1 - i) := by
  have hw' : w = (i + 1) + (w - 1 - i) := by omega
  rw [Nat.shiftLeft_eq]
  conv_lhs => rw [hw', pow_add]
  have : (i + 1 + (w - 1 - i) - 1 - i) = w - 1 - i := by omega
  rw [this, Nat.mul_mod_mul_right]

theorem and_low_mask (m i : Nat) : m &&& ((1 <<< (i + 1)) - 1) = m % 2 ^ (i + 1) := by
  rw [Nat.shiftLeft_eq, Nat.one_mul, Nat.and_pow_two_sub_one_eq_mod]

theorem count_low_bits (m i : Nat) :
    POPCOUNT (m % 2 ^ (i + 1)) = ((List.range (i + 1)).filter fun j => m.testBit j).length := by
  rw [POPCOUNT_eq_count (i + 1) _ (Nat.mod_lt _ (Nat.pow_pos (by norm_num)))]
  congr 1
  apply List.filter_congr
  intro j hj
  rw [Nat.testBit_mod_two_pow]
  simp [List.mem_range.mp hj]

/-! ### The decode loop and its trace -/

theorem loopTrace_length (data : List Nat) : ∀ (count block cur : Nat) (t : List Nat),
    GetDebugInfoOffset.loopTrace data count block cur = some t → t.length = count := by
  intro count
  induction count with
  | zero => intro block cur t h; simp [GetDebugInfoOffset.loopTrace] at h
  | succ count ih =>
    intro block cur t h
    rw [GetDebugInfoOffset.loopTrace] at h
    cases hd : DecodeUnsignedLeb128 data block with
    | none => rw [hd] at h; simp at h
    | some p =>
      obtain ⟨delta, block'⟩ := p
      rw [hd] at h
      simp only at h
      by_cases hc : count > 0
      · rw [if_pos hc] at h
        cases ht : GetDebugInfoOffset.loopTrace data count block' ((cur + delta) % 2 ^ 32) with
        | none => rw [ht] at h; simp at h
        | some rest =>
          rw [ht] at h
          simp only [Option.some.injEq] at h
          rw [← h, List.length_cons, ih _ _ _ ht]
      · rw [if_neg hc] at h
        simp only [Option.some.injEq] at h
        rw [← h]
        simp only [List.length_singleton]
        omega

/-- The value the loop returns is the last entry of its trace. -/
theorem loop_eq_loopTrace (data : List Nat) : ∀ (count block cur : Nat),
    GetDebugInfoOffset.loop data count block cur
      = (GetDebugInfoOffset.loopTrace data count block cur).bind List.getLast? := by
  intro count
  induction count with
  | zero => intro block cur; rfl
  | succ count ih =>
    intro block cur
    rw [GetDebugInfoOffset.loop, GetDebugInfoOffset.loopTrace]
    cases hd : DecodeUnsignedLeb128 data block with
    | none => rfl
    | some p =>
      obtain ⟨delta, block'⟩ := p
      simp only
      by_cases hc : count > 0
      · rw [if_pos hc, if_pos hc, ih]
        cases ht : GetDebugInfoOffset.loopTrace data count block' ((cur + delta) % 2 ^ 32) with
        | none => rfl
        | some rest =>
          have hlen := loopTrace_length data _ _ _ _ ht
          have hne : rest ≠ [] := by
            intro h0
            rw [h0] at hlen
            simp at hlen
            omega
          simp only [Option.some_bind]
          obtain ⟨x, xs, rfl⟩ := List.exists_cons_of_ne_nil hne
          rw [List.getLast?_cons_cons]
      · rw [if_neg hc, if_neg hc]
        rfl

/-- The loop returns a value exactly when `count` values can be decoded in a row. -/
theorem loopTrace_isSome (data : List Nat) : ∀ (count block cur : Nat), 0 < count →
    (GetDebugInfoOffset.loopTrace data count block cur).isSome
      = (decodeCursor data count block).isSome := by
  intro count
  induction count with
  | zero => intro block cur h; omega
  | succ count ih =>
    intro block cur _
    rw [GetDebugInfoOffset.loopTrace, decodeCursor]
    cases hd : DecodeUnsignedLeb128 data block with
    | none => rfl
    | some p =>
      obtain ⟨delta, block'⟩ := p
      simp only
      by_cases hc : count > 0
      · rw [if_pos hc, ← ih block' ((cur + delta) % 2 ^ 32) hc]
        cases GetDebugInfoOffset.loopTrace data count block' ((cur + delta) % 2 ^ 32) <;> rfl
      · have hc0 : count = 0 := by omega
        subst hc0
        rfl

theorem mask_value (hi lo : Nat) (hhi : hi < 256) (hlo : lo < 256) :
    (hi <<< 8 ||| lo) % 2 ^ 16 = hi * 256 + lo := by
  have h := Nat.mul_add_lt_is_or (i := 8) (b := lo) hlo hi
  rw [Nat.shiftLeft_eq, Nat.mul_comm, ← h]
  omega

theorem count_low_bits_le (m i : Nat) :
    ((List.range (i + 1)).filter fun j => m.testBit j).length ≤ i + 1 := by
  have := List.length_filter_le (fun j => m.testBit j) (List.range (i + 1))
  simpa using this

theorem count_low_bits_pos (m i : Nat) (h : m.testBit i = true) :
    0 < ((List.range (i + 1)).filter fun j => m.testBit j).length := by
  apply List.length_pos_of_mem (a := i)
  rw [List.mem_filter]
  exact ⟨List.mem_range.mpr (Nat.lt_succ_self i), h⟩

/-! ### The chain of offsets of a block -/

theorem countNz_eq_length : ∀ (vs : List Nat), countNz vs = (nonzeroOffsets vs).length
  | [] => rfl
  | v :: vs => by
    have ih := countNz_eq_length vs
    unfold nonzeroOffsets at ih ⊢
    by_cases hv : v = 0
    · simp [countNz, hv, ih]
    · simp [countNz, hv, ih]; omega

theorem nonzeroOffsets_cons_zero (vs : List Nat) : nonzeroOffsets (0 :: vs) = nonzeroOffsets vs := by
  simp [nonzeroOffsets]

theorem nonzeroOffsets_cons_ne (v : Nat) (vs : List Nat) (hv : v ≠ 0) :
    nonzeroOffsets (v :: vs) = v :: nonzeroOffsets vs := by
  simp [nonzeroOffsets, hv]

theorem mem_nonzeroOffsets (vs : List Nat) (v : Nat) :
    v ∈ nonzeroOffsets vs ↔ v ∈ vs ∧ v ≠ 0 := by
  simp [nonzeroOffsets]

/-- The trace of the decode loop over the delta bytes of a block is the list of the
block's nonzero offsets. -/
theorem loopTrace_deltaBytes : ∀ (vs : List Nat) (cur : Nat) (pre post : List Nat),
    cur < 2 ^ 32 → (∀ v ∈ vs, v < 2 ^ 32) → 0 < countNz vs →
    GetDebugInfoOffset.loopTrace (pre ++ deltaBytes cur vs ++ post) (countNz vs) pre.length cur
      = some (nonzeroOffsets vs)
  | [], _, _, _, _, _, h => by simp [countNz] at h
  | v :: vs, cur, pre, post, hc, hvs, h => by
    have hv32 : v < 2 ^ 32 := hvs v (List.mem_cons_self _ _)
    have hvs' : ∀ x ∈ vs, x < 2 ^ 32 := fun x hx => hvs x (List.mem_cons_of_mem _ hx)
    by_cases hv : v = 0
    · have h' : 0 < countNz vs := by simpa [countNz, hv] using h
      have := loopTrace_deltaBytes vs cur pre post hc hvs' h'
      subst hv
      rw [nonzeroOffsets_cons_zero]
      simpa [countNz, deltaBytes] using this
    · have hcnt : countNz (v :: vs) = countNz vs + 1 := by
        simp only [countNz, hv, ne_eq, not_false_eq_true, if_true]; omega
      have hdb : deltaBytes cur (v :: vs)
          = EncodeUnsignedLeb128 [] ((v + 2 ^ 32 - cur) % 2 ^ 32) ++ deltaBytes v vs := by
        simp only [deltaBytes, hv, ne_eq, not_false_eq_true, if_true]
      rw [hcnt, hdb, nonzeroOffsets_cons_ne v vs hv, GetDebugInfoOffset.loopTrace]
      have hdec := Decode_Encode ((v + 2 ^ 32 - cur) % 2 ^ 32) (Nat.mod_lt _ (by norm_num)) pre
        (deltaBytes v vs ++ post)
      simp only [List.append_assoc] at hdec ⊢
      rw [hdec]
      simp only [uint32_sub_add cur v hc hv32]
      by_cases hc0 : countNz vs = 0
      · have hnil : nonzeroOffsets vs = [] := by
          apply List.eq_nil_of_length_eq_zero
          rw [← countNz_eq_length, hc0]
        simp [hc0, hnil]
      · have hpos : 0 < countNz vs := Nat.pos_of_ne_zero hc0
        rw [if_pos hpos]
        have := loopTrace_deltaBytes vs v
          (pre ++ EncodeUnsignedLeb128 [] ((v + 2 ^ 32 - cur) % 2 ^ 32)) post hv32 hvs' hpos
        simp only [List.append_assoc, List.length_append] at this
        rw [this]

theorem minOffset_le_nonzeroOffsets (seq : List Nat) (b v : Nat)
    (hv : v ∈ nonzeroOffsets (blockVals seq b)) : Build.minOffset seq ≤ v := by
  rw [mem_nonzeroOffsets] at hv
  exact minOffset_le_of_mem seq v (mem_blockVals seq b v hv.1) hv.2

theorem chain_cons_iff (base : Nat) (l : List Nat) (h : ∀ v ∈ l, base ≤ v) :
    List.Chain' (· ≤ ·) (base :: l) ↔ List.Chain' (· ≤ ·) l := by
  rw [List.chain'_cons']
  constructor
  · exact fun hc => hc.2
  · intro hc
    refine ⟨fun y hy => ?_, hc⟩
    cases l with
    | nil => simp at hy
    | cons a l =>
      simp only [List.head?_cons, Option.mem_def, Option.some.injEq] at hy
      exact h y (by rw [← hy]; exact List.mem_cons_self _ _)

/-- The record of block `b` inside the output of `Build`, for outputs of any size. -/
theorem layout_record (seq : List Nat) (b : Nat) (hb : b < numBlocks seq.length) :
    ∃ pre post, pre.length = blockStart seq b ∧
      (layout seq).out_data
        = pre ++ [maskOf (blockVals seq b) / 256 % 256, maskOf (blockVals seq b) % 256]
          ++ deltaBytes (Build.minOffset seq) (blockVals seq b) ++ post := by
  obtain ⟨pre, rest, hdata, hpre⟩ := layout_block seq b hb
  refine ⟨pre, rest, hpre, ?_⟩
  rw [hdata, blockRecord]
  simp only [List.append_assoc]

/-! ### The final partial block -/

theorem bitMaskLoop_out_of_range (offs : List Nat) (bs : Nat) : ∀ (n i acc : Nat),
    bs + i ≤ offs.length → offs.length < bs + i + n →
    Build.bitMaskLoop offs bs n i acc = none := by
  intro n
  induction n with
  | zero => intro i acc h1 h2; omega
  | succ n ih =>
    intro i acc h1 h2
    rw [Build.bitMaskLoop]
    by_cases hlt : bs + i < offs.length
    · rw [List.getElem?_eq_getElem hlt]
      exact ih (i + 1) _ (by omega) (by omega)
    · rw [List.getElem?_eq_none (by omega)]

theorem numBlocks_partial (n : Nat) (h : n % 16 ≠ 0) : numBlocks n = n / 16 + 1 := by
  unfold numBlocks; omega

theorem blockVals_last (seq : List Nat) :
    blockVals seq (seq.length / 16) = seq.drop (16 * (seq.length / 16)) := by
  unfold blockVals
  apply List.take_of_length_le
  rw [List.length_drop]
  omega

theorem length_blockVals_last (seq : List Nat) :
    (blockVals seq (seq.length / 16)).length = seq.length % 16 := by
  rw [blockVals_last, List.length_drop]
  omega

theorem dataSection_last (seq : List Nat) (h : seq.length % 16 ≠ 0) :
    ∃ pre, pre.length = blockStart seq (seq.length / 16) ∧
      dataSection seq = pre
        ++ [maskOf (blockVals seq (seq.length / 16)) / 256 % 256,
            maskOf (blockVals seq (seq.length / 16)) % 256]
        ++ deltaBytes (Build.minOffset seq) (blockVals seq (seq.length / 16)) := by
  have hnb := numBlocks_partial seq.length h
  have hsplit := dataSection_split seq (seq.length / 16) (by omega)
  have hz : numBlocks seq.length - (seq.length / 16 + 1) = 0 := by omega
  rw [hz] at hsplit
  refine ⟨_, rfl, ?_⟩
  rw [hsplit]
  simp [recordsFrom, blockRecord]

/-! ### Block independence -/

theorem blockVals_congr (seq1 seq2 : List Nat) (b : Nat)
    (h : ∀ i, i < 16 → seq1[16 * b + i]? = seq2[16 * b + i]?) :
    blockVals seq1 b = blockVals seq2 b := by
  apply List.ext_getElem?
  intro i
  by_cases hi : i < 16
  · rw [getElem?_blockVals seq1 b i hi, getElem?_blockVals seq2 b i hi]
    exact h i hi
  · rw [List.getElem?_eq_none (by have := length_blockVals seq1 b; omega),
      List.getElem?_eq_none (by have := length_blockVals seq2 b; omega)]

theorem deltaBytes_first : ∀ (vs : List Nat) (cur v : Nat) (rest : List Nat),
    nonzeroOffsets vs = v :: rest →
    ∃ tail, deltaBytes cur vs = EncodeUnsignedLeb128 [] ((v + 2 ^ 32 - cur) % 2 ^ 32) ++ tail
  | [], _, _, _, h => by simp [nonzeroOffsets] at h
  | x :: xs, cur, v, rest, h => by
    by_cases hx : x = 0
    · subst hx
      rw [nonzeroOffsets_cons_zero] at h
      obtain ⟨tail, ht⟩ := deltaBytes_first xs cur v rest h
      exact ⟨tail, by simpa [deltaBytes] using ht⟩
    · rw [nonzeroOffsets_cons_ne x xs hx] at h
      have hxv : x = v := (List.cons.inj h).1
      subst hxv
      exact ⟨deltaBytes x xs, by simp [deltaBytes, hx]⟩

/-! ### Delta arithmetic -/

theorem deltasOf_nil (cur : Nat) : deltasOf cur [] = [] := by
  simp [deltasOf, nonzeroOffsets]

theorem deltasOf_cons_zero (cur : Nat) (vs : List Nat) :
    deltasOf cur (0 :: vs) = deltasOf cur vs := by
  simp only [deltasOf, nonzeroOffsets_cons_zero]

theorem deltasOf_cons_ne (cur v : Nat) (vs : List Nat) (hv : v ≠ 0) :
    deltasOf cur (v :: vs) = (v + 2 ^ 32 - cur) % 2 ^ 32 :: deltasOf v vs := by
  simp only [deltasOf, nonzeroOffsets_cons_ne v vs hv, List.zipWith_cons_cons]

theorem deltaValues_eq (offs : List Nat) (bs : Nat) : ∀ (n i cur : Nat),
    bs + i + n ≤ offs.length →
    Build.deltaValues offs bs n i cur = some (deltasOf cur ((offs.drop (bs + i)).take n)) := by
  intro n
  induction n with
  | zero => intro i cur _; simp [Build.deltaValues, deltasOf_nil]
  | succ n ih =>
    intro i cur hlen
    have hlt : bs + i < offs.length := by omega
    rw [Build.deltaValues, List.getElem?_eq_getElem hlt, take_succ_drop _ _ _ hlt]
    by_cases hv : offs[bs + i] = 0
    · simp only [hv, ne_eq, not_true_eq_false, if_false]
      rw [ih (i + 1) cur (by omega), deltasOf_cons_zero]
      simp only [Nat.add_assoc]
    · simp only [hv, ne_eq, not_false_eq_true, if_true]
      rw [ih (i + 1) _ (by omega), deltasOf_cons_ne _ _ _ hv]
      simp only [Nat.add_assoc]

theorem deltaValues_block (seq : List Nat) (b : Nat) (hb : b < numBlocks seq.length) (cur : Nat) :
    Build.deltaValues seq (16 * b) (min (seq.length - 16 * b) 16) 0 cur
      = some (deltasOf cur (blockVals seq b)) := by
  have h16 : 16 * b < seq.length := by unfold numBlocks at hb; omega
  rw [deltaValues_eq seq (16 * b) _ 0 cur (by omega)]
  have htake : (seq.drop (16 * b)).take (min (seq.length - 16 * b) 16) = blockVals seq b := by
    have := take_min_length (seq.drop (16 * b)) 16
    rw [List.length_drop] at this
    exact this
  rw [Nat.add_zero, htake]

theorem deltaBytes_eq_deltasOf : ∀ (vs : List Nat) (cur : Nat),
    deltaBytes cur vs = ((deltasOf cur vs).map (EncodeUnsignedLeb128 [])).flatten
  | [], cur => by simp [deltaBytes, deltasOf_nil]
  | v :: vs, cur => by
    by_cases hv : v = 0
    · subst hv
      rw [deltasOf_cons_zero, ← deltaBytes_eq_deltasOf vs cur]
      simp [deltaBytes]
    · rw [deltasOf_cons_ne _ _ _ hv, List.map_cons, List.flatten_cons,
        ← deltaBytes_eq_deltasOf vs v]
      simp [deltaBytes, hv]

theorem zipWith_delta_int : ∀ (nz : List Nat) (cur : Nat),
    cur < 2 ^ 32 → (∀ v ∈ nz, v < 2 ^ 32) →
    (List.zipWith (fun o c => (o + 2 ^ 32 - c) % 2 ^ 32) nz (cur :: nz)).map (fun (d : Nat) => (d : Int))
      = List.zipWith (fun (o c : Nat) => ((o : Int) - (c : Int)) % 2 ^ 32) nz (cur :: nz)
  | [], _, _, _ => by simp
  | v :: rest, cur, hc, h => by
    have hv : v < 2 ^ 32 := h v (List.mem_cons_self _ _)
    have ih := zipWith_delta_int rest v hv (fun x hx => h x (List.mem_cons_of_mem _ hx))
    rw [List.zipWith_cons_cons, List.map_cons, ih, List.zipWith_cons_cons]
    congr 1
    omega

theorem zipWith_delta_exact : ∀ (nz : List Nat) (cur : Nat),
    cur < 2 ^ 32 → (∀ v ∈ nz, v < 2 ^ 32) → List.Chain' (· ≤ ·) (cur :: nz) →
    (List.zipWith (fun o c => (o + 2 ^ 32 - c) % 2 ^ 32) nz (cur :: nz)).map (fun (d : Nat) => (d : Int))
        = List.zipWith (fun (o c : Nat) => (o : Int) - (c : Int)) nz (cur :: nz) ∧
      cur + (List.zipWith (fun o c => (o + 2 ^ 32 - c) % 2 ^ 32) nz (cur :: nz)).sum
        = nz.getLast?.getD cur
  | [], _, _, _, _ => by simp
  | v :: rest, cur, hc, h, hch => by
    have hv : v < 2 ^ 32 := h v (List.mem_cons_self _ _)
    rw [List.chain'_cons] at hch
    obtain ⟨ih1, ih2⟩ := zipWith_delta_exact rest v hv
      (fun x hx => h x (List.mem_cons_of_mem _ hx)) hch.2
    have hle : cur ≤ v := hch.1
    constructor
    · rw [List.zipWith_cons_cons, List.map_cons, ih1, List.zipWith_cons_cons]
      congr 1
      omega
    · rw [List.zipWith_cons_cons, List.sum_cons, List.getLast?_cons, Option.getD_some, ← ih2]
      omega

/-! ### Padding -/

theorem layout_getElem?_data (seq : List Nat) (i : Nat) (hi : i < (dataSection seq).length) :
    (layout seq).out_data[i]? = (dataSection seq)[i]? := by
  simp only [layout]
  rw [List.append_assoc, List.getElem?_append_left hi]

theorem layout_getElem?_padding (seq : List Nat) (i : Nat) (h1 : (dataSection seq).length ≤ i)
    (h2 : i < (dataSection seq).length + (4 - (dataSection seq).length % 4) % 4) :
    (layout seq).out_data[i]? = some 0 := by
  simp only [layout]
  rw [List.append_assoc, List.getElem?_append_right h1, List.getElem?_append_left
    (by simp only [padding, List.length_replicate]; omega)]
  simp only [padding]
  rw [List.getElem?_replicate, if_pos (by omega)]

/-! ### Inputs whose offsets after the first are all 1

The first block is `x` followed by fifteen ones, then come `m` full blocks of ones and a
last block of `t` ones. The lemmas are stated for every `m`; only closed arithmetic is
evaluated at the sizes that make the data section reach 2 ^ 32 bytes. -/

theorem spikeInput_lt (x n : Nat) (hx : x < 2 ^ 32) : ∀ v ∈ spikeInput x n, v < 2 ^ 32 := by
  intro v hv
  unfold spikeInput at hv
  rcases List.mem_append.mp hv with h | h
  · rcases List.mem_cons.mp h with h | h
    · rw [h]; exact hx
    · rw [(List.mem_replicate.mp h).2]; norm_num
  · rw [(List.mem_replicate.mp h).2]; norm_num

theorem length_spikeInput (x n : Nat) : (spikeInput x n).length = 16 + n := by
  simp [spikeInput]; omega

theorem getElem?_spikeInput_zero (x n : Nat) : (spikeInput x n)[0]? = some x := rfl

theorem minOffset_eq_one (seq : List Nat) (hseq : ∀ x ∈ seq, x < 2 ^ 32) (h1 : 1 ∈ seq) :
    Build.minOffset seq = 1 := by
  have hle := minOffset_le_of_mem seq 1 h1 (by norm_num)
  have hne := (minOffset_mem seq hseq ⟨1, h1, by norm_num⟩).2
  omega

theorem minOffset_spikeInput (x n : Nat) (hx : x < 2 ^ 32) :
    Build.minOffset (spikeInput x n) = 1 := by
  apply minOffset_eq_one _ (spikeInput_lt x n hx)
  unfold spikeInput
  simp

theorem blockVals_spikeInput_zero (x n : Nat) :
    blockVals (spikeInput x n) 0 = x :: List.replicate 15 1 := by
  unfold blockVals spikeInput
  rw [Nat.mul_zero, List.drop_zero, List.take_left' (by simp)]

theorem drop_spikeInput (x n j : Nat) :
    (spikeInput x n).drop (16 * (j + 1)) = List.replicate (n - 16 * j) 1 := by
  unfold spikeInput
  have h : 16 * (j + 1) = (x :: List.replicate 15 1).length + 16 * j := by
    simp; omega
  rw [h, List.drop_append, List.drop_replicate]

theorem blockVals_spikeInput_succ (x n j : Nat) (h : 16 * (j + 1) ≤ n) :
    blockVals (spikeInput x n) (j + 1) = List.replicate 16 1 := by
  unfold blockVals
  rw [drop_spikeInput, List.take_replicate]
  congr 1
  omega

theorem blockVals_spikeInput_last (x n m t : Nat) (hn : n = 16 * m + t) (ht : t < 16) :
    blockVals (spikeInput x n) (m + 1) = List.replicate t 1 := by
  unfold blockVals
  rw [drop_spikeInput, List.take_replicate]
  congr 1
  omega

theorem recordsFrom_spikeInput (x n : Nat) : ∀ (k b : Nat), 16 * (b + k) ≤ n →
    recordsFrom 1 (spikeInput x n) (b + 1) k = List.replicate k onesRecord
  | 0, _, _ => by simp [recordsFrom]
  | k + 1, b, h => by
    rw [recordsFrom_succ, recordsFrom_spikeInput x n k (b + 1) (by omega),
      blockVals_spikeInput_succ x n b (by omega), blockRecord_ones, List.replicate_succ]

theorem numBlocks_spikeInput (x n m t : Nat) (hn : n = 16 * m + t) (ht0 : 0 < t)
    (ht : t < 16) : numBlocks (spikeInput x n).length = 1 + (m + 1) := by
  rw [length_spikeInput]; unfold numBlocks; omega

theorem dataSection_spikeInput (x n m t : Nat) (hx : x < 2 ^ 32) (hn : n = 16 * m + t)
    (ht0 : 0 < t) (ht : t < 16) :
    dataSection (spikeInput x n)
      = blockRecord 1 (x :: List.replicate 15 1) ++ (List.replicate m onesRecord).flatten
        ++ blockRecord 1 (List.replicate t 1) := by
  unfold dataSection
  rw [numBlocks_spikeInput x n m t hn ht0 ht, minOffset_spikeInput x n hx, recordsFrom_add,
    recordsFrom_add, Nat.zero_add, recordsFrom_spikeInput x n m 0 (by omega)]
  have h0 : recordsFrom 1 (spikeInput x n) 0 1 = [blockRecord 1 (x :: List.replicate 15 1)] := by
    rw [recordsFrom_succ, blockVals_spikeInput_zero]
    simp [recordsFrom]
  have h1 : recordsFrom 1 (spikeInput x n) (1 + m) 1 = [blockRecord 1 (List.replicate t 1)] := by
    rw [recordsFrom_succ, Nat.add_comm 1 m, blockVals_spikeInput_last x n m t hn ht]
    simp [recordsFrom]
  rw [h0, h1]
  simp

theorem length_dataSection_spikeInput (x n m t L K : Nat) (hx : x < 2 ^ 32)
    (hn : n = 16 * m + t) (ht0 : 0 < t) (ht : t < 16)
    (hL : (blockRecord 1 (x :: List.replicate 15 1)).length = L)
    (hK : (blockRecord 1 (List.replicate t 1)).length = K) :
    (dataSection (spikeInput x n)).length = L + 18 * m + K := by
  rw [dataSection_spikeInput x n m t hx hn ht0 ht, List.length_append, List.length_append,
    length_flatten_replicate, hL, hK]
  simp [onesRecord]; omega

theorem spike_getElem?_first (x n m t i : Nat) (hx : x < 2 ^ 32)
    (hn : n = 16 * m + t) (ht0 : 0 < t) (ht : t < 16)
    (hi : i < (blockRecord 1 (x :: List.replicate 15 1)).length) :
    (layout (spikeInput x n)).out_data[i]? = (blockRecord 1 (x :: List.replicate 15 1))[i]? := by
  have hlen := length_dataSection_spikeInput x n m t _ _ hx hn ht0 ht rfl rfl
  rw [layout_getElem?_data _ _ (by omega), dataSection_spikeInput x n m t hx hn ht0 ht,
    List.append_assoc, List.getElem?_append_left hi]

theorem spike_getElem?_mid (x n m t L q j : Nat) (hx : x < 2 ^ 32)
    (hn : n = 16 * m + t) (ht0 : 0 < t) (ht : t < 16)
    (hL : (blockRecord 1 (x :: List.replicate 15 1)).length = L) (hq : q < m) (hj : j < 18) :
    (layout (spikeInput x n)).out_data[L + (18 * q + j)]? = onesRecord[j]? := by
  have hlen := length_dataSection_spikeInput x n m t L _ hx hn ht0 ht hL rfl
  have hrl : onesRecord.length = 18 := rfl
  have h := getElem?_flatten_replicate onesRecord m q j hq (by rw [hrl]; exact hj)
  rw [hrl, Nat.mul_comm] at h
  have hmid := getElem?_append_mid (blockRecord 1 (x :: List.replicate 15 1))
    (List.replicate m onesRecord).flatten (blockRecord 1 (List.replicate t 1)) (18 * q + j)
    (by rw [length_flatten_replicate, hrl]; omega)
  rw [hL] at hmid
  rw [layout_getElem?_data _ _ (by omega), dataSection_spikeInput x n m t hx hn ht0 ht, hmid, h]

theorem spike_getElem?_last (x n m t L j : Nat) (hx : x < 2 ^ 32)
    (hn : n = 16 * m + t) (ht0 : 0 < t) (ht : t < 16)
    (hL : (blockRecord 1 (x :: List.replicate 15 1)).length = L)
    (hj : j < (blockRecord 1 (List.replicate t 1)).length) :
    (layout (spikeInput x n)).out_data[L + 18 * m + j]?
      = (blockRecord 1 (List.replicate t 1))[j]? := by
  have hlen := length_dataSection_spikeInput x n m t L _ hx hn ht0 ht hL rfl
  have hpre : (blockRecord 1 (x :: List.replicate 15 1)
      ++ (List.replicate m onesRecord).flatten).length = L + 18 * m := by
    rw [List.length_append, length_flatten_replicate, hL]
    simp [onesRecord]; omega
  rw [layout_getElem?_data _ _ (by omega), dataSection_spikeInput x n m t hx hn ht0 ht,
    List.getElem?_append_right (by omega), hpre, Nat.add_sub_cancel_left]

theorem layout_table_first_byte (seq : List Nat) (h : 0 < numBlocks seq.length) :
    (layout seq).out_data[(dataSection seq).length + (4 - (dataSection seq).length % 4) % 4]?
      = some 0 := by
  have hload := layout_load_raw seq 0 h
  rw [blockStart_zero, Nat.mul_zero, Nat.add_zero] at hload
  unfold loadUint32 at hload
  split at hload
  · rename_i b0 b1 b2 b3 h0 _ _ _
    rw [h0]
    have := Option.some.inj hload
    congr 1
    simp only [Nat.zero_mod] at this
    omega
  · exact absurd hload (by simp)

theorem spike_table_offset (x n m t L K : Nat) (hx : x < 2 ^ 32)
    (hn : n = 16 * m + t) (ht0 : 0 < t) (ht : t < 16)
    (hL : (blockRecord 1 (x :: List.replicate 15 1)).length = L)
    (hK : (blockRecord 1 (List.replicate t 1)).length = K) :
    (layout (spikeInput x n)).out_table_offset
      = (L + 18 * m + K + (4 - (L + 18 * m + K) % 4) % 4) % 2 ^ 32 := by
  simp only [layout]
  rw [length_dataSection_spikeInput x n m t L K hx hn ht0 ht hL hK]

theorem spike_table_first_byte (x n m t L K : Nat) (hx : x < 2 ^ 32)
    (hn : n = 16 * m + t) (ht0 : 0 < t) (ht : t < 16)
    (hL : (blockRecord 1 (x :: List.replicate 15 1)).length = L)
    (hK : (blockRecord 1 (List.replicate t 1)).length = K) :
    (layout (spikeInput x n)).out_data[L + 18 * m + K + (4 - (L + 18 * m + K) % 4) % 4]?
      = some 0 := by
  have h := layout_table_first_byte (spikeInput x n)
    (by rw [numBlocks_spikeInput x n m t hn ht0 ht]; omega)
  rw [length_dataSection_spikeInput x n m t L K hx hn ht0 ht hL hK] at h
  exact h

theorem spike_length (x n m t L K : Nat) (hx : x < 2 ^ 32)
    (hn : n = 16 * m + t) (ht0 : 0 < t) (ht : t < 16)
    (hL : (blockRecord 1 (x :: List.replicate 15 1)).length = L)
    (hK : (blockRecord 1 (List.replicate t 1)).length = K) :
    (layout (spikeInput x n)).out_data.length
      = L + 18 * m + K + (4 - (L + 18 * m + K) % 4) % 4 + 4 * (1 + (m + 1)) := by
  rw [layout_length, length_dataSection_spikeInput x n m t L K hx hn ht0 ht hL hK,
    numBlocks_spikeInput x n m t hn ht0 ht]

theorem spike_load_first (x n m t j : Nat) (hx : x < 2 ^ 32)
    (hn : n = 16 * m + t) (ht0 : 0 < t) (ht : t < 16)
    (hj : j + 3 < (blockRecord 1 (x :: List.replicate 15 1)).length) :
    loadUint32 (layout (spikeInput x n)).out_data j
      = loadUint32 (blockRecord 1 (x :: List.replicate 15 1)) j := by
  unfold loadUint32
  rw [spike_getElem?_first x n m t j hx hn ht0 ht (by omega),
    spike_getElem?_first x n m t (j + 1) hx hn ht0 ht (by omega),
    spike_getElem?_first x n m t (j + 2) hx hn ht0 ht (by omega),
    spike_getElem?_first x n m t (j + 3) hx hn ht0 ht (by omega)]

theorem spike_load_mid (x n m t L q j : Nat) (hx : x < 2 ^ 32)
    (hn : n = 16 * m + t) (ht0 : 0 < t) (ht : t < 16)
    (hL : (blockRecord 1 (x :: List.replicate 15 1)).length = L) (hq : q < m)
    (hj : j + 3 < 18) :
    loadUint32 (layout (spikeInput x n)).out_data (L + (18 * q + j)) = loadUint32 onesRecord j := by
  have h0 := spike_getElem?_mid x n m t L q j hx hn ht0 ht hL hq (by omega)
  have h1 := spike_getElem?_mid x n m t L q (j + 1) hx hn ht0 ht hL hq (by omega)
  have h2 := spike_getElem?_mid x n m t L q (j + 2) hx hn ht0 ht hL hq (by omega)
  have h3 := spike_getElem?_mid x n m t L q (j + 3) hx hn ht0 ht hL hq (by omega)
  simp only [← Nat.add_assoc] at h0 h1 h2 h3
  unfold loadUint32
  simp only [← Nat.add_assoc]
  rw [h0, h1, h2, h3]

/-- The accessor on the output for `spikeInput x n`, reading a table entry equal to 0:
it decodes in the first block. -/
theorem spike_decode_first (w : Nat) (hw : 16 ≤ w) (x n tbl key : Nat) (hx : x < 2 ^ 32)
    (hload : loadUint32 (layout (spikeInput x n)).out_data (tbl + 4 * (key / 16)) = some 0) :
    GetDebugInfoOffset w (Accessor.ctor (layout (spikeInput x n)).out_data 1 tbl) key
      = some ((x :: List.replicate 15 1)[key % 16]?.getD 0) := by
  obtain ⟨pre, rest, hdata, hpre⟩ := layout_block (spikeInput x n) 0
    (by rw [length_spikeInput]; unfold numBlocks; omega)
  have hnil : pre = [] := List.eq_nil_of_length_eq_zero (by rw [hpre]; rfl)
  subst hnil
  rw [minOffset_spikeInput x n hx, blockVals_spikeInput_zero] at hdata
  exact GetDebugInfoOffset_record w hw _ tbl 1 key [] rest (x :: List.replicate 15 1) hload
    hdata (by simp) (by norm_num) (by
      intro v hv
      rcases List.mem_cons.mp hv with h | h
      · rw [h]; exact hx
      · rw [(List.mem_replicate.mp h).2]; norm_num)

theorem spike_min (x n : Nat) (hx : x < 2 ^ 32) :
    (layout (spikeInput x n)).out_min_offset = 1 := by
  simp only [layout]
  exact minOffset_spikeInput x n hx

/-! ### Reads of the accessor stay inside the data section -/

/-- Decoding the entry at position `i` of a block record inside `data`: the population
count of the accessor is the number of nonzero offsets up to position `i`, the cursor
stays inside `data`, and the accumulated offset is the entry. -/
theorem record_decode (w : Nat) (hw : 16 ≤ w) (data pre rest vals : List Nat) (base i v : Nat)
    (hdata : data = pre ++ blockRecord base vals ++ rest)
    (hlen : vals.length ≤ 16) (hbase : base < 2 ^ 32) (hvals : ∀ x ∈ vals, x < 2 ^ 32)
    (hi : i < 16) (hv : vals[i]? = some v) (hv0 : v ≠ 0) :
    POPCOUNT ((((((maskOf vals / 256 % 256) <<< 8) ||| (maskOf vals % 256)) % 2 ^ 16)
        <<< (w - 1 - i)) % 2 ^ w) = countNz (vals.take (i + 1)) ∧
      (∃ e, decodeCursor data (countNz (vals.take (i + 1))) (pre.length + 2) = some e ∧
        e ≤ data.length) ∧
      GetDebugInfoOffset.loop data (countNz (vals.take (i + 1))) (pre.length + 2) base
        = some v := by
  have hm : maskOf vals < 2 ^ 16 :=
    lt_of_lt_of_le (maskOf_lt vals) (Nat.pow_le_pow_right (by norm_num) hlen)
  have hpos := countNz_take_pos vals _ v hv hv0
  have hsplit := deltaBytes_split vals base (i + 1)
  have hd : data = (pre ++ [maskOf vals / 256 % 256, maskOf vals % 256])
      ++ deltaBytes base (vals.take (i + 1))
      ++ (deltaBytes (lastNz base (vals.take (i + 1))) (vals.drop (i + 1)) ++ rest) := by
    rw [hdata, blockRecord, hsplit]
    simp only [List.append_assoc]
  have hloop := decode_loop_deltaBytes (vals.take (i + 1)) base
    (pre ++ [maskOf vals / 256 % 256, maskOf vals % 256])
    (deltaBytes (lastNz base (vals.take (i + 1))) (vals.drop (i + 1)) ++ rest)
    hbase (fun x hx => hvals x (List.mem_of_mem_take hx)) hpos
  have hcur := decodeCursor_deltaBytes (vals.take (i + 1)) base
    (pre ++ [maskOf vals / 256 % 256, maskOf vals % 256])
    (deltaBytes (lastNz base (vals.take (i + 1))) (vals.drop (i + 1)) ++ rest)
  have hlen' : (pre ++ [maskOf vals / 256 % 256, maskOf vals % 256]).length
      + (deltaBytes base (vals.take (i + 1))).length ≤ data.length := by
    conv_rhs => rw [hd]
    simp only [List.length_append]
    omega
  rw [← hd] at hloop hcur
  simp only [List.length_append, List.length_cons, List.length_nil] at hloop hcur hlen'
  have h2 : pre.length + (0 + 1 + 1) = pre.length + 2 := rfl
  rw [h2] at hloop hcur hlen'
  refine ⟨?_, ⟨_, hcur, hlen'⟩, ?_⟩
  · rw [mask_bytes _ hm, rank_eq w i vals hw hi]
  · rw [hloop, lastNz_take vals base _ v hv hv0]

theorem dataSection_record (seq : List Nat) (b : Nat) (hb : b < numBlocks seq.length) :
    ∃ pre rest, pre.length = blockStart seq b ∧
      dataSection seq = pre ++ blockRecord (Build.minOffset seq) (blockVals seq b) ++ rest :=
  ⟨_, _, rfl, dataSection_split seq b hb⟩

/-! ## The claims of the specification -/

/-- C1 (amended). Round trip: for every sequence of unsigned 32-bit offsets, `Build` on an
empty `out_data` returns a result, and whenever the returned byte vector is shorter than
2 ^ 32 bytes, an accessor constructed from the three outputs decodes every key below the
length of the input to the input value at that key (so a key whose value is 0 decodes
to 0). The width of `uintptr_t` is any `kBitsPerIntPtrT` of at least 16 bits. -/
theorem C1_round_trip (kBitsPerIntPtrT : Nat) (hw : 16 ≤ kBitsPerIntPtrT) (seq : List Nat)
    (hseq : ∀ x ∈ seq, x < 2 ^ 32) :
    ∃ r, Build seq [] = some r ∧
      (r.out_data.length < 2 ^ 32 →
        ∀ key, key < seq.length →
          GetDebugInfoOffset kBitsPerIntPtrT
            (Accessor.ctor r.out_data r.out_min_offset r.out_table_offset) key = seq[key]?) := by
  refine ⟨layout seq, Build_eq seq, fun hsize key hkey => ?_⟩
  rw [GetDebugInfoOffset_layout kBitsPerIntPtrT hw seq hseq hsize key
    (by unfold numBlocks; omega), List.getElem?_eq_getElem hkey]
  rfl

/-- C1, witness: the round trip on the unsorted 23-element `sampleInput` with a 64-bit
`uintptr_t`; keys 16 and 20 hold 4294967295 and 299, key 18 holds 0. -/
theorem C1_round_trip_witness :
    16 ≤ 64 ∧ (∀ x ∈ sampleInput, x < 2 ^ 32) ∧
      ∃ r, Build sampleInput [] = some r ∧ r.out_data.length < 2 ^ 32 ∧
        GetDebugInfoOffset 64 (Accessor.ctor r.out_data r.out_min_offset r.out_table_offset) 16
          = some 4294967295 ∧
        GetDebugInfoOffset 64 (Accessor.ctor r.out_data r.out_min_offset r.out_table_offset) 20
          = some 299 ∧
        GetDebugInfoOffset 64 (Accessor.ctor r.out_data r.out_min_offset r.out_table_offset) 18
          = some 0 := by
  refine ⟨by decide, by decide, ?_⟩
  obtain ⟨r, hr, h⟩ := C1_round_trip 64 (by decide) sampleInput (by decide)
  have hlen : r.out_data.length < 2 ^ 32 := by
    have := hr
    rw [Build_sampleInput] at this
    rw [← Option.some.inj this]
    decide
  exact ⟨r, hr, hlen, h hlen 16 (by decide), h hlen 20 (by decide), h hlen 18 (by decide)⟩

/-- C1, counterexample: for the input of 2 ^ 32 offsets all equal to 1 the data section is
18 * 2 ^ 28 bytes long, more than a `uint32_t` holds, so `out_table_offset` and the table
entries are truncated; key 16 has input value 1 but decodes to 0. -/
theorem C1_round_trip_counterexample :
    ∃ r, Build (onesInput (2 ^ 28)) [] = some r ∧
      (onesInput (2 ^ 28)).length = 2 ^ 32 ∧
      (∀ x ∈ onesInput (2 ^ 28), x < 2 ^ 32) ∧
      r.out_data.length = 5905580032 ∧
      (onesInput (2 ^ 28))[16]? = some 1 ∧
      GetDebugInfoOffset 64 (Accessor.ctor r.out_data r.out_min_offset r.out_table_offset) 16
        = some 0 := by
  refine ⟨_, Build_eq _, ?_, onesInput_lt _, huge_length, huge_getElem?_16, ?_⟩
  · rw [length_onesInput]; norm_num
  exact GetDebugInfoOffset_bit_clear 64 _ _ _ 16 65535 0 0 huge_load_key16 huge_byte_65535
    huge_byte_65536 (by decide)

/-- C2. Scenario: for the 16-element input with 5 at key 1 and 7 at key 4, `Build`
returns the base offset 5 and an `out_data` that starts with the bytes 0x00, 0x12 (the
mask 0b0000000000010010, high byte first) and 0x00, 0x02 (the LEB128 encodings of the
deltas 5 - 5 and 7 - 5); the accessor on that output returns 5 for key 1, 7 for key 4 and
0 for key 0. -/
theorem C2_scenario (kBitsPerIntPtrT : Nat) (hw : 16 ≤ kBitsPerIntPtrT) :
    ∃ r, Build scenarioInput [] = some r ∧
      r.out_min_offset = 5 ∧
      r.out_data.take 4 = [0x00, 0x12, 0x00, 0x02] ∧
      0x00 * 256 + 0x12 = 0b0000000000010010 ∧
      EncodeUnsignedLeb128 [] (5 - 5) = [0x00] ∧
      EncodeUnsignedLeb128 [] (7 - 5) = [0x02] ∧
      GetDebugInfoOffset kBitsPerIntPtrT
        (Accessor.ctor r.out_data r.out_min_offset r.out_table_offset) 1 = some 5 ∧
      GetDebugInfoOffset kBitsPerIntPtrT
        (Accessor.ctor r.out_data r.out_min_offset r.out_table_offset) 4 = some 7 ∧
      GetDebugInfoOffset kBitsPerIntPtrT
        (Accessor.ctor r.out_data r.out_min_offset r.out_table_offset) 0 = some 0 := by
  have hl : layout scenarioInput = ⟨[0x00, 0x12, 0x00, 0x02, 0, 0, 0, 0], 5, 4⟩ :=
    layout_eq_of_Build _ _ Build_scenarioInput
  have hsize : (layout scenarioInput).out_data.length < 2 ^ 32 := by rw [hl]; decide
  have hdec := fun key hkey => GetDebugInfoOffset_layout kBitsPerIntPtrT hw scenarioInput
    (by decide) hsize key hkey
  rw [hl] at hdec
  exact ⟨_, Build_scenarioInput, rfl, rfl, rfl, rfl, rfl, hdec 1 (by decide), hdec 4 (by decide),
    hdec 0 (by decide)⟩

/-- C2, witness: the scenario with a 64-bit `uintptr_t`. -/
theorem C2_scenario_witness :
    16 ≤ 64 ∧ ∃ r, Build scenarioInput [] = some r ∧
      r.out_min_offset = 5 ∧
      r.out_data.take 4 = [0x00, 0x12, 0x00, 0x02] ∧
      GetDebugInfoOffset 64
        (Accessor.ctor r.out_data r.out_min_offset r.out_table_offset) 1 = some 5 ∧
      GetDebugInfoOffset 64
        (Accessor.ctor r.out_data r.out_min_offset r.out_table_offset) 4 = some 7 ∧
      GetDebugInfoOffset 64
        (Accessor.ctor r.out_data r.out_min_offset r.out_table_offset) 0 = some 0 := by
  obtain ⟨r, h1, h2, h3, _, _, _, h7, h8, h9⟩ := C2_scenario 64 (by decide)
  exact ⟨by decide, r, h1, h2, h3, h7, h8, h9⟩

/-- C3. The base offset returned by `Build` is the minimum of the nonzero input values
when there is one (it is an element of the input, nonzero, and at most every nonzero
element); when no input value is nonzero it is 0xFFFFFFFF and the bit mask the accessor
finds for every block (the two bytes at the block's table entry) is zero. -/
theorem C3_min_offset (seq : List Nat) (hseq : ∀ x ∈ seq, x < 2 ^ 32) :
    ∃ r, Build seq [] = some r ∧
      ((∃ x ∈ seq, x ≠ 0) →
        r.out_min_offset ∈ seq ∧ r.out_min_offset ≠ 0 ∧
          ∀ x ∈ seq, x ≠ 0 → r.out_min_offset ≤ x) ∧
      ((∀ x ∈ seq, x = 0) →
        r.out_min_offset = 0xFFFFFFFF ∧
          ∀ b, b < (seq.length + 15) / 16 →
            ∃ T, loadUint32 r.out_data (r.out_table_offset + 4 * b) = some T ∧
              r.out_data[T]? = some 0 ∧ r.out_data[T + 1]? = some 0) := by
  refine ⟨layout seq, Build_eq seq, fun hex => ?_, fun hz => ?_⟩
  · exact ⟨(minOffset_mem seq hseq hex).1, (minOffset_mem seq hseq hex).2,
      fun x hx hx0 => minOffset_le_of_mem seq x hx hx0⟩
  · exact ⟨minOffset_all_zero seq _ hz, fun b hb => layout_all_zero_mask seq hz b hb⟩

/-- C3, witness: on `sampleInput` the base offset is 1, the least nonzero value; on
the all-zero input of 17 offsets it is 0xFFFFFFFF and both blocks have a zero mask. -/
theorem C3_min_offset_witness :
    (∀ x ∈ sampleInput, x < 2 ^ 32) ∧ (∃ x ∈ sampleInput, x ≠ 0) ∧
      (∃ r, Build sampleInput [] = some r ∧ r.out_min_offset = 1 ∧
        r.out_min_offset ∈ sampleInput ∧ r.out_min_offset ≠ 0 ∧
        ∀ x ∈ sampleInput, x ≠ 0 → r.out_min_offset ≤ x) ∧
      (∀ x ∈ List.replicate 17 0, x < 2 ^ 32) ∧ (∀ x ∈ List.replicate 17 0, x = 0) ∧
      (∃ r, Build (List.replicate 17 0) [] = some r ∧ r.out_min_offset = 0xFFFFFFFF ∧
        ∀ b, b < ((List.replicate 17 0).length + 15) / 16 →
          ∃ T, loadUint32 r.out_data (r.out_table_offset + 4 * b) = some T ∧
            r.out_data[T]? = some 0 ∧ r.out_data[T + 1]? = some 0) := by
  have hex : ∃ x ∈ sampleInput, x ≠ 0 := ⟨5, by decide, by decide⟩
  obtain ⟨r, hr, h, _⟩ := C3_min_offset sampleInput (by decide)
  have hmin : r.out_min_offset = 1 := by
    have := hr
    rw [Build_sampleInput] at this
    rw [← Option.some.inj this]
  obtain ⟨r0, hr0, _, h0⟩ := C3_min_offset (List.replicate 17 0) (by decide)
  exact ⟨by decide, hex, ⟨r, hr, hmin, h hex⟩, by decide, by decide,
    ⟨r0, hr0, h0 (by decide)⟩⟩

/-- C4 (amended). Whenever the byte vector returned by `Build` is shorter than 2 ^ 32
bytes: for every block `b` below `ceil(N/16)` and every `i` below the block's size, with
`T` the `b`-th indirection-table entry, bit `i` of the 16-bit value
`out_data[T] * 256 + out_data[T + 1]` is set if and only if the input value at key
`16 * b + i` is nonzero. -/
theorem C4_bitmask (seq : List Nat) :
    ∃ r, Build seq [] = some r ∧
      (r.out_data.length < 2 ^ 32 →
        ∀ b i, b < (seq.length + 15) / 16 → i < min (seq.length - 16 * b) 16 →
          ∃ T hi lo v,
            loadUint32 r.out_data (r.out_table_offset + 4 * b) = some T ∧
            r.out_data[T]? = some hi ∧ r.out_data[T + 1]? = some lo ∧
            seq[16 * b + i]? = some v ∧
            ((hi * 256 + lo).testBit i = true ↔ v ≠ 0)) := by
  refine ⟨layout seq, Build_eq seq, fun hsize b i hb hi => ?_⟩
  obtain ⟨pre, rest, hload, _, _, hhi, hlo⟩ := layout_block_view seq hsize b hb
  have hlt : 16 * b + i < seq.length := by omega
  refine ⟨_, _, _, seq[16 * b + i], hload, hhi, hlo, List.getElem?_eq_getElem hlt, ?_⟩
  rw [mask_bytes_value _ (maskOf_blockVals_lt seq b), testBit_maskOf,
    getElem?_blockVals seq b i (by omega), List.getElem?_eq_getElem hlt]
  constructor
  · rintro ⟨v, hv, hv0⟩
    rw [← Option.some.inj hv] at hv0
    exact hv0
  · intro h
    exact ⟨_, rfl, h⟩

/-- C4, witness: the output for `sampleInput` is shorter than 2 ^ 32 bytes, so the
statement holds for its two blocks; block 1 has the table entry 4 and the mask bytes
0x00, 0x7B, where bit 0 is set (key 16 holds 4294967295) and bit 2 is clear (key 18
holds 0). -/
theorem C4_bitmask_witness :
    ∃ r, Build sampleInput [] = some r ∧ r.out_data.length < 2 ^ 32 ∧
      (∀ b i, b < (sampleInput.length + 15) / 16 → i < min (sampleInput.length - 16 * b) 16 →
        ∃ T hi lo v,
          loadUint32 r.out_data (r.out_table_offset + 4 * b) = some T ∧
          r.out_data[T]? = some hi ∧ r.out_data[T + 1]? = some lo ∧
          sampleInput[16 * b + i]? = some v ∧
          ((hi * 256 + lo).testBit i = true ↔ v ≠ 0)) ∧
      loadUint32 r.out_data (r.out_table_offset + 4 * 1) = some 4 ∧
      r.out_data[4]? = some 0x00 ∧ r.out_data[4 + 1]? = some 0x7B ∧
      (0x00 * 256 + 0x7B).testBit 0 = true ∧ (0x00 * 256 + 0x7B).testBit 2 = false := by
  obtain ⟨r, hr, h⟩ := C4_bitmask sampleInput
  have hr' := hr
  rw [Build_sampleInput] at hr'
  have hlen : r.out_data.length < 2 ^ 32 := by
    rw [← Option.some.inj hr']; decide
  refine ⟨r, hr, hlen, h hlen, ?_⟩
  rw [← Option.some.inj hr']
  decide

/-- C4, counterexample: for the input of 2 ^ 32 offsets all equal to 1 the output has
5905580032 bytes. Read as the accessor reads it, at `out_table_offset = 536870912`, the
entry of block 1 is 65535 and the two bytes found there are 0, so bit 0 of the mask is
clear although key 16 holds 1. Read where the table was written, from byte
4831838208 = 5905580032 - 4 * 2 ^ 28 on, the entry of block 238609295 is 14 (its record
starts at byte 2 ^ 32 + 14) and the two bytes found there are 0, although key
16 * 238609295 holds 1. -/
theorem C4_bitmask_counterexample :
    ∃ r, Build (onesInput (2 ^ 28)) [] = some r ∧
      r.out_data.length = 5905580032 ∧ r.out_table_offset = 536870912 ∧
      loadUint32 r.out_data (r.out_table_offset + 4 * 1) = some 65535 ∧
      r.out_data[65535]? = some 0 ∧ r.out_data[65535 + 1]? = some 0 ∧
      (onesInput (2 ^ 28))[16 * 1 + 0]? = some 1 ∧
      loadUint32 r.out_data (4831838208 + 4 * 238609295) = some 14 ∧
      r.out_data[14]? = some 0 ∧ r.out_data[14 + 1]? = some 0 ∧
      (onesInput (2 ^ 28))[16 * 238609295 + 0]? = some 1 ∧
      (0 * 256 + 0).testBit 0 = false :=
  ⟨_, Build_eq _, huge_length, huge_table_offset, huge_load_one, huge_byte_65535,
    huge_byte_65536, huge_getElem?_16, huge_raw_entry_first_wrapped, huge_byte_14,
    huge_byte_15, huge_getElem?_wrapped, by decide⟩

/-- C5 (amended). Bitmask/LEB128 count agreement, whenever the byte vector returned by
`Build` is shorter than 2 ^ 32 bytes: for every block `b`, decoding exactly
`POPCOUNT(mask)` LEB128 values one after the other, starting just after the two mask
bytes found at the block's table entry, leaves the cursor at the table entry of block
`b + 1`, or, for the last block, at the end of the data section (the length `out_data`
has when the block loop ends, before the alignment padding). -/
theorem C5_count_agreement (seq : List Nat) :
    ∃ r data table, Build seq [] = some r ∧
      Build.blockLoop seq (Build.minOffset seq) seq.length 0 [] [] = some (data, table) ∧
      (r.out_data.length < 2 ^ 32 →
        ∀ b, b < (seq.length + 15) / 16 →
          ∃ T hi lo cursor,
            loadUint32 r.out_data (r.out_table_offset + 4 * b) = some T ∧
            r.out_data[T]? = some hi ∧ r.out_data[T + 1]? = some lo ∧
            decodeCursor r.out_data (POPCOUNT (hi * 256 + lo)) (T + 2) = some cursor ∧
            (b + 1 < (seq.length + 15) / 16 →
              loadUint32 r.out_data (r.out_table_offset + 4 * (b + 1)) = some cursor) ∧
            (b + 1 = (seq.length + 15) / 16 → cursor = data.length)) := by
  refine ⟨layout seq, dataSection seq, tableEntries seq, Build_eq seq, blockLoop_run seq,
    fun hsize b hb => ?_⟩
  obtain ⟨pre, rest, hload, hpre, hdata, hhi, hlo⟩ := layout_block_view seq hsize b hb
  have hcur := decodeCursor_deltaBytes (blockVals seq b) (Build.minOffset seq)
    (pre ++ [maskOf (blockVals seq b) / 256 % 256, maskOf (blockVals seq b) % 256]) rest
  rw [← hdata] at hcur
  simp only [List.length_append, List.length_cons, List.length_nil, hpre] at hcur
  have hnext : blockStart seq b + (0 + 1 + 1)
      + (deltaBytes (Build.minOffset seq) (blockVals seq b)).length = blockStart seq (b + 1) := by
    rw [blockStart_succ]
    simp only [blockRecord, List.length_append, List.length_cons, List.length_nil]
    omega
  rw [hnext] at hcur
  refine ⟨_, _, _, blockStart seq (b + 1), hload, hhi, hlo, ?_, fun hb1 => ?_, fun hb1 => ?_⟩
  · rw [mask_bytes_value _ (maskOf_blockVals_lt seq b), POPCOUNT_maskOf]
    exact hcur
  · obtain ⟨_, _, hload1, _⟩ := layout_block_view seq hsize (b + 1) hb1
    exact hload1
  · have : b + 1 = numBlocks seq.length := hb1
    rw [this]
    rfl

/-- C5, witness: the output for `sampleInput` is shorter than 2 ^ 32 bytes, so the
statement holds for its two blocks. Block 0 has the mask 0x0012 with two set bits, and
two decodes from byte 2 end at 4, the table entry of block 1; block 1, the last, has the
mask 0x007B with six set bits, and six decodes from byte 6 end at 27, the length of the
data section. -/
theorem C5_count_agreement_witness :
    ∃ r data table, Build sampleInput [] = some r ∧
      Build.blockLoop sampleInput (Build.minOffset sampleInput) sampleInput.length 0 [] []
        = some (data, table) ∧
      r.out_data.length < 2 ^ 32 ∧
      (∀ b, b < (sampleInput.length + 15) / 16 →
        ∃ T hi lo cursor,
          loadUint32 r.out_data (r.out_table_offset + 4 * b) = some T ∧
          r.out_data[T]? = some hi ∧ r.out_data[T + 1]? = some lo ∧
          decodeCursor r.out_data (POPCOUNT (hi * 256 + lo)) (T + 2) = some cursor ∧
          (b + 1 < (sampleInput.length + 15) / 16 →
            loadUint32 r.out_data (r.out_table_offset + 4 * (b + 1)) = some cursor) ∧
          (b + 1 = (sampleInput.length + 15) / 16 → cursor = data.length)) ∧
      data.length = 27 ∧
      POPCOUNT (0x00 * 256 + 0x12) = 2 ∧ decodeCursor r.out_data 2 (0 + 2) = some 4 ∧
      loadUint32 r.out_data (r.out_table_offset + 4 * 1) = some 4 ∧
      POPCOUNT (0x00 * 256 + 0x7B) = 6 ∧ decodeCursor r.out_data 6 (4 + 2) = some 27 := by
  obtain ⟨r, data, table, hr, hloop, h⟩ := C5_count_agreement sampleInput
  have hr' := hr
  rw [Build_sampleInput] at hr'
  have hl : Build.blockLoop sampleInput (Build.minOffset sampleInput) sampleInput.length 0 [] []
      = some ([0, 18, 4, 2, 0, 123, 254, 255, 255, 255, 15, 2, 171, 2, 255, 255, 255, 255, 15,
        197, 160, 4, 149, 221, 251, 255, 15], [0, 4]) := by decide
  have hd : data.length = 27 := by
    rw [hl] at hloop
    rw [← (Prod.mk.inj (Option.some.inj hloop)).1]
    rfl
  have hlen : r.out_data.length < 2 ^ 32 := by
    rw [← Option.some.inj hr']; decide
  refine ⟨r, data, table, hr, hloop, hlen, h hlen, hd, ?_⟩
  rw [← Option.some.inj hr']
  decide

/-- C5, counterexample: for the input of 2 ^ 32 offsets all equal to 1 the output has
5905580032 bytes. Read as the accessor reads it, at `out_table_offset = 536870912`, block
0 has the entry 0 and the mask 0xFFFF; decoding its 16 values from byte 2 ends at byte 18,
but the entry read for block 1 is 65535. Read where the table was written, from byte
4831838208 on, block 238609294 has the entry 4294967292 and the mask 0xFFFF; decoding its
16 values ends at byte 4294967310, but the entry recorded for block 238609295 is 14. -/
theorem C5_count_agreement_counterexample :
    ∃ r, Build (onesInput (2 ^ 28)) [] = some r ∧
      r.out_data.length = 5905580032 ∧ r.out_table_offset = 536870912 ∧
      POPCOUNT (255 * 256 + 255) = 16 ∧
      loadUint32 r.out_data (r.out_table_offset + 4 * 0) = some 0 ∧
      r.out_data[0]? = some 255 ∧ r.out_data[1]? = some 255 ∧
      decodeCursor r.out_data 16 2 = some 18 ∧
      loadUint32 r.out_data (r.out_table_offset + 4 * 1) = some 65535 ∧
      loadUint32 r.out_data (4831838208 + 4 * 238609294) = some 4294967292 ∧
      r.out_data[4294967292]? = some 255 ∧ r.out_data[4294967292 + 1]? = some 255 ∧
      decodeCursor r.out_data 16 (4294967292 + 2) = some 4294967310 ∧
      loadUint32 r.out_data (4831838208 + 4 * 238609295) = some 14 :=
  ⟨_, Build_eq _, huge_length, huge_table_offset, by decide, huge_load_zero, huge_byte_0,
    huge_byte_1, layout_onesInput_decodeCursor _ (by norm_num), huge_load_one,
    huge_raw_entry_last_fitting, huge_mask_hi_last_fitting, huge_mask_lo_last_fitting,
    huge_decodeCursor_last_fitting, huge_raw_entry_first_wrapped⟩

/-- C6 (amended). The indirection table written by `Build` has exactly `ceil(N/16)`
entries: the final length of `out_data` is the length of the padded data section plus
`4 * ceil(N/16)`, and it equals `out_table_offset + 4 * ceil(N/16)` whenever the returned
byte vector is shorter than 2 ^ 32 bytes. -/
theorem C6_table_size (seq : List Nat) :
    ∃ r data table, Build seq [] = some r ∧
      Build.blockLoop seq (Build.minOffset seq) seq.length 0 [] [] = some (data, table) ∧
      table.length = (seq.length + 15) / 16 ∧
      r.out_data.length = (AlignmentPadVector data 4).length + 4 * ((seq.length + 15) / 16) ∧
      (r.out_data.length < 2 ^ 32 →
        r.out_data.length = r.out_table_offset + 4 * ((seq.length + 15) / 16)) := by
  have hlen := layout_length seq
  have hpad : (AlignmentPadVector (dataSection seq) 4).length
      = (dataSection seq).length + (4 - (dataSection seq).length % 4) % 4 := by
    rw [AlignmentPadVector_eq]
    simp only [List.length_append, padding, List.length_replicate]
  refine ⟨layout seq, dataSection seq, tableEntries seq, Build_eq seq, blockLoop_run seq,
    length_tableEntries seq, ?_, fun hsize => ?_⟩
  · rw [hpad, hlen]; rfl
  · have hoff : (layout seq).out_table_offset
        = ((dataSection seq).length + (4 - (dataSection seq).length % 4) % 4) % 2 ^ 32 := rfl
    have hnb : numBlocks seq.length = (seq.length + 15) / 16 := rfl
    rw [hnb] at hlen
    omega

/-- C6, witness: for `sampleInput` (23 offsets, two blocks) the output has 36 bytes, the
table starts at byte 28 and has two entries. -/
theorem C6_table_size_witness :
    ∃ r data table, Build sampleInput [] = some r ∧
      Build.blockLoop sampleInput (Build.minOffset sampleInput) sampleInput.length 0 [] []
        = some (data, table) ∧
      table.length = (sampleInput.length + 15) / 16 ∧
      r.out_data.length < 2 ^ 32 ∧
      r.out_data.length = r.out_table_offset + 4 * ((sampleInput.length + 15) / 16) ∧
      r.out_data.length = 36 ∧ r.out_table_offset = 28 ∧ (sampleInput.length + 15) / 16 = 2 := by
  obtain ⟨r, data, table, hr, hloop, ht, _, h⟩ := C6_table_size sampleInput
  have hr' := hr
  rw [Build_sampleInput] at hr'
  have hlen : r.out_data.length < 2 ^ 32 := by
    rw [← Option.some.inj hr']; decide
  refine ⟨r, data, table, hr, hloop, ht, hlen, h hlen, ?_⟩
  rw [← Option.some.inj hr']
  decide

/-- C6, counterexample: for the input of 2 ^ 32 offsets all equal to 1 (2 ^ 28 blocks)
the output has 5905580032 bytes while the returned `out_table_offset` is 536870912, so
the final length is not `out_table_offset + 4 * ceil(N/16)`. -/
theorem C6_table_size_counterexample :
    ∃ r, Build (onesInput (2 ^ 28)) [] = some r ∧
      r.out_data.length = 5905580032 ∧ r.out_table_offset = 536870912 ∧
      ((onesInput (2 ^ 28)).length + 15) / 16 = 268435456 ∧
      r.out_data.length ≠ r.out_table_offset + 4 * (((onesInput (2 ^ 28)).length + 15) / 16) := by
  refine ⟨_, Build_eq _, huge_length, huge_table_offset, ?_, ?_⟩
  · rw [length_onesInput]; norm_num
  · rw [layout_onesInput_length _ (by norm_num), huge_table_offset, length_onesInput]
    norm_num

/-- C7 (amended). Whenever the byte vector returned by `Build` is shorter than 2 ^ 32
bytes, the indirection-table entries are the block start offsets: the `uint32_t` read at
`out_table_offset + 4 * b` (host representation, little-endian) is 0 for `b = 0`, and the
entry of block `b + 1` is the entry of block `b` plus 2 plus the total byte length of the
LEB128 deltas the delta loop writes for block `b`. -/
theorem C7_table_entries (seq : List Nat) :
    ∃ r, Build seq [] = some r ∧
      (r.out_data.length < 2 ^ 32 →
        (0 < (seq.length + 15) / 16 →
          loadUint32 r.out_data (r.out_table_offset + 4 * 0) = some 0) ∧
        ∀ b, b + 1 < (seq.length + 15) / 16 →
          ∃ entry deltas,
            loadUint32 r.out_data (r.out_table_offset + 4 * b) = some entry ∧
            Build.deltaLoop seq (16 * b) (min (seq.length - 16 * b) 16) 0 []
              r.out_min_offset = some deltas ∧
            loadUint32 r.out_data (r.out_table_offset + 4 * (b + 1))
              = some (entry + 2 + deltas.length)) := by
  refine ⟨layout seq, Build_eq seq, fun hsize => ⟨fun h0 => ?_, fun b hb => ?_⟩⟩
  · have := layout_load seq 0 h0 hsize
    rw [blockStart_zero] at this
    exact this
  · have hb0 : b < numBlocks seq.length := Nat.lt_of_succ_lt hb
    refine ⟨blockStart seq b, deltaBytes (Build.minOffset seq) (blockVals seq b),
      layout_load seq b hb0 hsize, deltaLoop_block seq b hb0 _, ?_⟩
    have := layout_load seq (b + 1) hb hsize
    rw [blockStart_succ] at this
    rw [this]
    simp only [blockRecord, List.length_append, List.length_cons, List.length_nil]
    congr 1
    omega

/-- C7, witness: the output for `sampleInput` is shorter than 2 ^ 32 bytes; its table
entries are 0 and 4 = 0 + 2 + 2, block 0 holding two one-byte deltas. -/
theorem C7_table_entries_witness :
    ∃ r, Build sampleInput [] = some r ∧ r.out_data.length < 2 ^ 32 ∧
      ((0 < (sampleInput.length + 15) / 16 →
          loadUint32 r.out_data (r.out_table_offset + 4 * 0) = some 0) ∧
        ∀ b, b + 1 < (sampleInput.length + 15) / 16 →
          ∃ entry deltas,
            loadUint32 r.out_data (r.out_table_offset + 4 * b) = some entry ∧
            Build.deltaLoop sampleInput (16 * b) (min (sampleInput.length - 16 * b) 16) 0 []
              r.out_min_offset = some deltas ∧
            loadUint32 r.out_data (r.out_table_offset + 4 * (b + 1))
              = some (entry + 2 + deltas.length)) ∧
      loadUint32 r.out_data (r.out_table_offset + 4 * 0) = some 0 ∧
      Build.deltaLoop sampleInput 0 16 0 [] r.out_min_offset = some [4, 2] ∧
      loadUint32 r.out_data (r.out_table_offset + 4 * 1) = some 4 := by
  obtain ⟨r, hr, h⟩ := C7_table_entries sampleInput
  have hr' := hr
  rw [Build_sampleInput] at hr'
  have hlen : r.out_data.length < 2 ^ 32 := by
    rw [← Option.some.inj hr']; decide
  refine ⟨r, hr, hlen, h hlen, ?_⟩
  rw [← Option.some.inj hr']
  decide

/-- C7, counterexample: for the input of 2 ^ 32 offsets all equal to 1 the output has
5905580032 bytes and `out_table_offset` is 536870912. The entry read at
`out_table_offset` for block 0 is 0 and block 0 holds 16 delta bytes, but the entry read
for block 1 is 65535, not 0 + 2 + 16. Also where the table was written, from byte
4831838208 on, the entry of block 238609294 is 4294967292 and that block holds 16 delta
bytes, but the entry of block 238609295 is 14, not 4294967292 + 2 + 16. -/
theorem C7_table_entries_counterexample :
    ∃ r, Build (onesInput (2 ^ 28)) [] = some r ∧
      r.out_data.length = 5905580032 ∧ r.out_table_offset = 536870912 ∧
      (List.replicate 16 0).length = 16 ∧
      loadUint32 r.out_data (r.out_table_offset + 4 * 0) = some 0 ∧
      Build.deltaLoop (onesInput (2 ^ 28)) 0 16 0 [] r.out_min_offset
        = some (List.replicate 16 0) ∧
      loadUint32 r.out_data (r.out_table_offset + 4 * 1) = some 65535 ∧
      loadUint32 r.out_data (4831838208 + 4 * 238609294) = some 4294967292 ∧
      Build.deltaLoop (onesInput (2 ^ 28)) (16 * 238609294) 16 0 [] r.out_min_offset
        = some (List.replicate 16 0) ∧
      loadUint32 r.out_data (4831838208 + 4 * 238609295) = some 14 :=
  ⟨_, Build_eq _, huge_length, huge_table_offset, by decide, huge_load_zero,
    deltaLoop_onesInput_min _ (by norm_num), huge_load_one, huge_raw_entry_last_fitting,
    deltaLoop_onesInput_at _ _ (by norm_num), huge_raw_entry_first_wrapped⟩

/-- C8. For every input sequence the `out_table_offset` returned by `Build` is a
multiple of 4. -/
theorem C8_table_offset_aligned (seq : List Nat) :
    ∃ r, Build seq [] = some r ∧ r.out_table_offset % 4 = 0 := by
  refine ⟨layout seq, Build_eq seq, ?_⟩
  have hoff : (layout seq).out_table_offset
      = ((dataSection seq).length + (4 - (dataSection seq).length % 4) % 4) % 2 ^ 32 := rfl
  omega

/-- C9. For the empty input, `Build` on an empty `out_data` returns
`out_table_offset = 0` and leaves `out_data` empty: no mask, delta, padding or table byte
is written. -/
theorem C9_empty_input :
    ∃ r, Build [] [] = some r ∧ r.out_table_offset = 0 ∧ r.out_data = [] :=
  ⟨⟨[], 0xFFFFFFFF, 0⟩, by decide, rfl, rfl⟩

/-- C10. Fast reject, for every memory content, base and table offset: if bit
`method_idx % 16` of the big-endian 16-bit mask found at the block offset given by table
entry `method_idx / 16` is clear, then `GetDebugInfoOffset(method_idx)` returns 0. The
hypotheses constrain only the table entry and the two mask bytes, so the result does not
depend on the base or on the bytes after the mask. -/
theorem C10_fast_reject (kBitsPerIntPtrT : Nat) (data : List Nat)
    (base table_offset method_idx offset hi lo : Nat)
    (hentry : loadUint32 data (table_offset + 4 * (method_idx / 16)) = some offset)
    (hhi : data[offset]? = some hi) (hlo : data[offset + 1]? = some lo)
    (hhi8 : hi < 256) (hlo8 : lo < 256)
    (hbit : (hi * 256 + lo).testBit (method_idx % 16) = false) :
    GetDebugInfoOffset kBitsPerIntPtrT (Accessor.ctor data base table_offset) method_idx
      = some 0 :=
  GetDebugInfoOffset_bit_clear kBitsPerIntPtrT data base table_offset method_idx offset hi lo
    hentry hhi hlo (bit_clear_of_testBit hi lo _ hhi8 hlo8 hbit)

/-- C10, witness: a six-byte memory holding the table entry 4 and the mask bytes 0x00,
0x12 and nothing after them; bit 0 is clear, key 0 resolves to 0, and no LEB128 value
could have been decoded since no byte follows the mask. -/
theorem C10_fast_reject_witness :
    loadUint32 [4, 0, 0, 0, 0x00, 0x12] (0 + 4 * (0 / 16)) = some 4 ∧
      [4, 0, 0, 0, 0x00, 0x12][4]? = some 0x00 ∧ [4, 0, 0, 0, 0x00, 0x12][4 + 1]? = some 0x12 ∧
      (0x00 * 256 + 0x12).testBit (0 % 16) = false ∧
      DecodeUnsignedLeb128 [4, 0, 0, 0, 0x00, 0x12] (4 + 2) = none ∧
      GetDebugInfoOffset 64 (Accessor.ctor [4, 0, 0, 0, 0x00, 0x12] 5 0) 0 = some 0 :=
  ⟨by decide, by decide, by decide, by decide, by decide,
    C10_fast_reject 64 [4, 0, 0, 0, 0x00, 0x12] 5 0 0 4 0x00 0x12 (by decide) (by decide)
      (by decide) (by decide) (by decide) (by decide)⟩

/-- C11. Block-boundary correctness: when the length `N` of the input is not a multiple
of 16, `Build` succeeds, so no lookup of the input is out of range (one more iteration of
the bit-mask loop in the final block would be). The final block is processed with block
size `N mod 16`; its mask has every bit at a position of at least `N mod 16` clear; its
record, the last bytes of the data section, is the two mask bytes followed by the deltas,
and decoding exactly as many LEB128 values as there are nonzero offsets among the last
`N mod 16` input values, which is the population count of the mask, ends exactly at the
end of the data section. -/
theorem C11_partial_block (seq : List Nat) (hN : seq.length % 16 ≠ 0) :
    ∃ r data table bit_mask deltas pre,
      Build seq [] = some r ∧
      Build.blockLoop seq (Build.minOffset seq) seq.length 0 [] [] = some (data, table) ∧
      (∃ post, r.out_data = data ++ post) ∧
      min (seq.length - 16 * (seq.length / 16)) 16 = seq.length % 16 ∧
      Build.bitMaskLoop seq (16 * (seq.length / 16)) (seq.length % 16) 0 0 = some bit_mask ∧
      Build.deltaLoop seq (16 * (seq.length / 16)) (seq.length % 16) 0 [] (Build.minOffset seq)
        = some deltas ∧
      Build.bitMaskLoop seq (16 * (seq.length / 16)) (seq.length % 16 + 1) 0 0 = none ∧
      (∀ i, seq.length % 16 ≤ i → bit_mask.testBit i = false) ∧
      data = pre ++ [(bit_mask >>> 8) % 256, bit_mask % 256] ++ deltas ∧
      POPCOUNT bit_mask = (nonzeroOffsets (seq.drop (16 * (seq.length / 16)))).length ∧
      decodeCursor data (nonzeroOffsets (seq.drop (16 * (seq.length / 16)))).length
        (pre.length + 2) = some data.length := by
  have hnb := numBlocks_partial seq.length hN
  have hb : seq.length / 16 < numBlocks seq.length := by omega
  have hmin : min (seq.length - 16 * (seq.length / 16)) 16 = seq.length % 16 := by omega
  have hmask := bitMaskLoop_block seq (seq.length / 16) hb
  have hdelta := deltaLoop_block seq (seq.length / 16) hb (Build.minOffset seq)
  rw [hmin] at hmask hdelta
  obtain ⟨pre, _, hdata⟩ := dataSection_last seq hN
  have hcur := decodeCursor_deltaBytes (blockVals seq (seq.length / 16)) (Build.minOffset seq)
    (pre ++ [maskOf (blockVals seq (seq.length / 16)) / 256 % 256,
      maskOf (blockVals seq (seq.length / 16)) % 256]) []
  rw [List.append_nil, ← hdata] at hcur
  refine ⟨layout seq, dataSection seq, tableEntries seq, _, _, pre, Build_eq seq,
    blockLoop_run seq,
    ⟨padding (dataSection seq).length ++ ((tableEntries seq).map uint32Bytes).flatten,
      by simp only [layout, List.append_assoc]⟩, hmin, hmask, hdelta,
    bitMaskLoop_out_of_range seq _ _ 0 0 (by omega) (by omega), fun i hi => ?_, ?_, ?_, ?_⟩
  · cases hbit : (maskOf (blockVals seq (seq.length / 16))).testBit i with
    | false => rfl
    | true =>
      obtain ⟨v, hv, _⟩ := (testBit_maskOf _ i).mp hbit
      rw [List.getElem?_eq_none (by rw [length_blockVals_last]; exact hi)] at hv
      exact absurd hv (by simp)
  · rw [hdata, Nat.shiftRight_eq_div_pow]
  · rw [POPCOUNT_maskOf, countNz_eq_length, blockVals_last]
  · have hlen : (dataSection seq).length = (pre ++
        [maskOf (blockVals seq (seq.length / 16)) / 256 % 256,
          maskOf (blockVals seq (seq.length / 16)) % 256]).length +
        (deltaBytes (Build.minOffset seq) (blockVals seq (seq.length / 16))).length := by
      rw [← List.length_append, ← hdata]
    rw [← hlen] at hcur
    rw [← blockVals_last, ← countNz_eq_length, ← hcur]
    simp only [List.length_append, List.length_cons, List.length_nil]

/-- C11, witness: `sampleInput` has 23 offsets; its final block holds the last 7, six of
them nonzero; the mask is 0x007B, and six decodes from just after the mask end at the end
of the 27-byte data section. -/
theorem C11_partial_block_witness :
    sampleInput.length % 16 ≠ 0 ∧
      ∃ r data table bit_mask deltas pre,
        Build sampleInput [] = some r ∧
        Build.blockLoop sampleInput (Build.minOffset sampleInput) sampleInput.length 0 [] []
          = some (data, table) ∧
        Build.bitMaskLoop sampleInput (16 * (sampleInput.length / 16))
          (sampleInput.length % 16) 0 0 = some bit_mask ∧
        bit_mask = 0x7B ∧ sampleInput.length % 16 = 7 ∧
        (∀ i, sampleInput.length % 16 ≤ i → bit_mask.testBit i = false) ∧
        data = pre ++ [(bit_mask >>> 8) % 256, bit_mask % 256] ++ deltas ∧
        data.length = 27 ∧
        (nonzeroOffsets (sampleInput.drop (16 * (sampleInput.length / 16)))).length = 6 ∧
        decodeCursor data (nonzeroOffsets (sampleInput.drop (16 * (sampleInput.length / 16)))).length
          (pre.length + 2) = some data.length := by
  obtain ⟨r, data, table, bit_mask, deltas, pre, hr, hloop, _, _, hmask, _, _, hclear, hdata,
    _, hcur⟩ := C11_partial_block sampleInput (by decide)
  have hm : bit_mask = 0x7B := by
    have h : Build.bitMaskLoop sampleInput (16 * (sampleInput.length / 16))
        (sampleInput.length % 16) 0 0 = some 0x7B := by decide
    rw [h] at hmask
    exact (Option.some.inj hmask).symm
  have hl : Build.blockLoop sampleInput (Build.minOffset sampleInput) sampleInput.length 0 [] []
      = some ([0, 18, 4, 2, 0, 123, 254, 255, 255, 255, 15, 2, 171, 2, 255, 255, 255, 255, 15,
        197, 160, 4, 149, 221, 251, 255, 15], [0, 4]) := by decide
  have hd : data.length = 27 := by
    rw [hl] at hloop
    rw [← (Prod.mk.inj (Option.some.inj hloop)).1]
    rfl
  exact ⟨by decide, r, data, table, bit_mask, deltas, pre, hr, hloop, hmask, hm, by decide,
    hclear, hdata, hd, by decide, hcur⟩

/-- C12 (amended). For every sequence of unsigned 32-bit offsets and every block of the
output of `Build`, the successive values of `current_offset` obtained while accumulating
the block's decoded deltas, starting from the base offset, are the block's nonzero offsets
in key order. None of them is below the base, and the chain that starts with the base is
non-decreasing exactly when the block's nonzero offsets are in non-decreasing key order.
The block's record is the two mask bytes followed by the bytes the delta loop writes, and
it starts at the block's table entry when the output is shorter than 2 ^ 32 bytes. -/
theorem C12_chain (seq : List Nat) (hseq : ∀ x ∈ seq, x < 2 ^ 32) (b : Nat)
    (hb : b < (seq.length + 15) / 16) :
    ∃ r pre hi lo deltas post,
      Build seq [] = some r ∧
      Build.deltaLoop seq (16 * b) (min (seq.length - 16 * b) 16) 0 [] r.out_min_offset
        = some deltas ∧
      r.out_data = pre ++ [hi, lo] ++ deltas ++ post ∧
      (r.out_data.length < 2 ^ 32 →
        loadUint32 r.out_data (r.out_table_offset + 4 * b) = some pre.length) ∧
      (0 < (nonzeroOffsets ((seq.drop (16 * b)).take 16)).length →
        GetDebugInfoOffset.loopTrace r.out_data
            (nonzeroOffsets ((seq.drop (16 * b)).take 16)).length (pre.length + 2)
            r.out_min_offset
          = some (nonzeroOffsets ((seq.drop (16 * b)).take 16))) ∧
      (∀ v ∈ nonzeroOffsets ((seq.drop (16 * b)).take 16), r.out_min_offset ≤ v) ∧
      (List.Chain' (· ≤ ·) (r.out_min_offset :: nonzeroOffsets ((seq.drop (16 * b)).take 16))
        ↔ List.Chain' (· ≤ ·) (nonzeroOffsets ((seq.drop (16 * b)).take 16))) := by
  have hb' : b < numBlocks seq.length := hb
  obtain ⟨pre, post, hpre, hdata⟩ := layout_record seq b hb'
  have hle : ∀ v ∈ nonzeroOffsets (blockVals seq b), Build.minOffset seq ≤ v :=
    fun v hv => minOffset_le_nonzeroOffsets seq b v hv
  refine ⟨layout seq, pre, _, _, _, post, Build_eq seq, deltaLoop_block seq b hb' _, hdata,
    fun hsize => ?_, fun hpos => ?_, hle, chain_cons_iff _ _ hle⟩
  · rw [hpre]; exact layout_load seq b hb' hsize
  · have hpos' : 0 < countNz (blockVals seq b) := by rw [countNz_eq_length]; exact hpos
    have h := loopTrace_deltaBytes (blockVals seq b) (Build.minOffset seq)
      (pre ++ [maskOf (blockVals seq b) / 256 % 256, maskOf (blockVals seq b) % 256]) post
      (minOffset_lt seq) (fun v hv => hseq v (mem_blockVals seq b v hv)) hpos'
    rw [← hdata, countNz_eq_length] at h
    simp only [List.length_append, List.length_cons, List.length_nil] at h
    exact h

/-- C12, witness: block 0 of `sampleInput` holds the nonzero offsets 5 and 7 in
increasing order; from the base 1 the chain is 1, 5, 7. -/
theorem C12_chain_witness :
    (∀ x ∈ sampleInput, x < 2 ^ 32) ∧ 0 < (sampleInput.length + 15) / 16 ∧
      nonzeroOffsets ((sampleInput.drop (16 * 0)).take 16) = [5, 7] ∧
      ∃ r pre hi lo deltas post,
        Build sampleInput [] = some r ∧ r.out_min_offset = 1 ∧
        Build.deltaLoop sampleInput (16 * 0) (min (sampleInput.length - 16 * 0) 16) 0 []
          r.out_min_offset = some deltas ∧
        r.out_data = pre ++ [hi, lo] ++ deltas ++ post ∧
        GetDebugInfoOffset.loopTrace r.out_data
            (nonzeroOffsets ((sampleInput.drop (16 * 0)).take 16)).length (pre.length + 2)
            r.out_min_offset
          = some (nonzeroOffsets ((sampleInput.drop (16 * 0)).take 16)) ∧
        List.Chain' (· ≤ ·)
          (r.out_min_offset :: nonzeroOffsets ((sampleInput.drop (16 * 0)).take 16)) := by
  obtain ⟨r, pre, hi, lo, deltas, post, hr, hd, hdata, _, htrace, _, hchain⟩ :=
    C12_chain sampleInput (by decide) 0 (by decide)
  have hmin : r.out_min_offset = 1 := by
    have := hr
    rw [Build_sampleInput] at this
    rw [← Option.some.inj this]
  refine ⟨by decide, by decide, by decide, r, pre, hi, lo, deltas, post, hr, hmin, hd, hdata,
    htrace (by decide), hchain.mpr ?_⟩
  rw [show nonzeroOffsets ((sampleInput.drop (16 * 0)).take 16) = [5, 7] from by decide]
  simp

/-- C12, counterexample: for the input 5, 3 the base is 3 and the block's deltas are 2
and 2 ^ 32 - 2; the accessor accumulates 3, 5, 3 (key 1 decodes to 3), which is not
non-decreasing. -/
theorem C12_chain_counterexample :
    ∃ r, Build [5, 3] [] = some r ∧ (∀ x ∈ [5, 3], x < 2 ^ 32) ∧
      r.out_min_offset = 3 ∧
      r.out_data = [0x00, 0x03, 0x02, 0xFE, 0xFF, 0xFF, 0xFF, 0x0F, 0, 0, 0, 0] ∧
      loadUint32 r.out_data (r.out_table_offset + 4 * 0) = some 0 ∧
      GetDebugInfoOffset.loopTrace r.out_data 2 (0 + 2) r.out_min_offset = some [5, 3] ∧
      GetDebugInfoOffset 64 (Accessor.ctor r.out_data r.out_min_offset r.out_table_offset) 1
        = some 3 ∧
      ¬ List.Chain' (· ≤ ·) (r.out_min_offset :: [5, 3]) :=
  ⟨⟨[0x00, 0x03, 0x02, 0xFE, 0xFF, 0xFF, 0xFF, 0x0F, 0, 0, 0, 0], 3, 8⟩, by decide, by decide,
    rfl, rfl, by decide, by decide, by decide, by simp⟩

/-- C13 (amended). With the `DCHECK`s enabled, `Build` fails if and only if `out_data` is
non-empty on entry: a non-empty `out_data` is rejected by `DCHECK(out_data->empty())` and
no result is produced. Whether the checks are enabled or not, on an empty `out_data`
`Build` returns a result for every input sequence, the empty and the all-zero ones
included. With the checks compiled out `Build` rejects nothing: it returns a result for
every `out_data`, and the returned vector starts with what `out_data` held on entry. -/
theorem C13_precondition (seq out_data : List Nat) :
    (Build.compiled true seq out_data = none ↔ out_data ≠ []) ∧
      (∀ kEnableDChecks, out_data = [] →
        ∃ r, Build.compiled kEnableDChecks seq out_data = some r) ∧
      (∀ kEnableDChecks, ∃ r, Build.compiled kEnableDChecks [] [] = some r) ∧
      (∀ kEnableDChecks n,
        ∃ r, Build.compiled kEnableDChecks (List.replicate n 0) [] = some r) ∧
      (∃ r post, Build.compiled false seq out_data = some r ∧
        r.out_data = out_data ++ post) ∧
      Build seq out_data = Build.compiled true seq out_data := by
  refine ⟨⟨fun h hne => ?_, Build_nonempty seq out_data⟩, fun k h => ?_,
    fun k => ⟨_, (Build_compiled_nil k []).trans (Build_eq [])⟩,
    fun k n => ⟨_, (Build_compiled_nil k _).trans (Build_eq _)⟩,
    Build_compiled_false seq out_data, rfl⟩
  · rw [hne] at h
    have h2 := Build_eq seq
    unfold Build at h2
    rw [h] at h2
    exact absurd h2 (by simp)
  · rw [h]; exact ⟨_, (Build_compiled_nil k seq).trans (Build_eq seq)⟩

/-- C13, counterexample: with the checks compiled out, `Build` on the offsets 5, 3 and an
`out_data` that holds the byte 0xAA does not fail. It appends the record of the block
(mask 0x0003, deltas 2 and 2 ^ 32 - 2), three padding bytes and the table entry 1, and
returns a vector of 16 bytes with `out_table_offset` 12. -/
theorem C13_precondition_counterexample :
    ∃ r, [0xAA] ≠ [] ∧ Build.compiled false [5, 3] [0xAA] = some r ∧
      r.out_data = [0xAA, 0x00, 0x03, 0x02, 0xFE, 0xFF, 0xFF, 0xFF, 0x0F, 0, 0, 0, 1, 0, 0, 0] ∧
      r.out_data.length = 16 ∧ r.out_min_offset = 3 ∧ r.out_table_offset = 12 :=
  ⟨⟨[0xAA, 0x00, 0x03, 0x02, 0xFE, 0xFF, 0xFF, 0xFF, 0x0F, 0, 0, 0, 1, 0, 0, 0], 3, 12⟩,
    by decide, by decide, rfl, rfl, rfl, rfl⟩

/-- C14. Per-block base re-initialisation: for two input sequences with the same minimum
nonzero value and the same values at the keys of block `b`, the bit-mask loop and the delta
loop of `Build` produce the same mask and the same delta bytes for block `b`, and both
outputs contain the same record (two mask bytes, then the deltas), at the position the
block's table entry names when the output is shorter than 2 ^ 32 bytes. The first delta
of the block encodes the exact difference between the block's first nonzero offset and
the minimum nonzero offset. -/
theorem C14_block_independence (seq1 seq2 : List Nat) (b : Nat)
    (hseq1 : ∀ x ∈ seq1, x < 2 ^ 32)
    (hb : 16 * b < seq1.length)
    (hmin : Build.minOffset seq1 = Build.minOffset seq2)
    (hvals : ∀ i, i < 16 → seq1[16 * b + i]? = seq2[16 * b + i]?) :
    ∃ r1 r2 bit_mask deltas pre1 post1 pre2 post2,
      Build seq1 [] = some r1 ∧ Build seq2 [] = some r2 ∧
      Build.bitMaskLoop seq1 (16 * b) (min (seq1.length - 16 * b) 16) 0 0 = some bit_mask ∧
      Build.bitMaskLoop seq2 (16 * b) (min (seq2.length - 16 * b) 16) 0 0 = some bit_mask ∧
      Build.deltaLoop seq1 (16 * b) (min (seq1.length - 16 * b) 16) 0 [] r1.out_min_offset
        = some deltas ∧
      Build.deltaLoop seq2 (16 * b) (min (seq2.length - 16 * b) 16) 0 [] r2.out_min_offset
        = some deltas ∧
      r1.out_data = pre1 ++ [(bit_mask >>> 8) % 256, bit_mask % 256] ++ deltas ++ post1 ∧
      r2.out_data = pre2 ++ [(bit_mask >>> 8) % 256, bit_mask % 256] ++ deltas ++ post2 ∧
      (r1.out_data.length < 2 ^ 32 →
        loadUint32 r1.out_data (r1.out_table_offset + 4 * b) = some pre1.length) ∧
      (r2.out_data.length < 2 ^ 32 →
        loadUint32 r2.out_data (r2.out_table_offset + 4 * b) = some pre2.length) ∧
      (∀ v rest, nonzeroOffsets ((seq1.drop (16 * b)).take 16) = v :: rest →
        r1.out_min_offset ≤ v ∧
        ∃ tail, deltas = EncodeUnsignedLeb128 [] (v - r1.out_min_offset) ++ tail) := by
  have hb1 : b < numBlocks seq1.length := by unfold numBlocks; omega
  have hb2 : b < numBlocks seq2.length := by
    have h0 := hvals 0 (by norm_num)
    rw [Nat.add_zero, List.getElem?_eq_getElem hb] at h0
    have hlt : 16 * b < seq2.length := by
      by_contra hge
      rw [List.getElem?_eq_none (by omega)] at h0
      exact absurd h0 (by simp)
    unfold numBlocks; omega
  have hbv := blockVals_congr seq1 seq2 b hvals
  obtain ⟨pre1, post1, hpre1, hdata1⟩ := layout_record seq1 b hb1
  obtain ⟨pre2, post2, hpre2, hdata2⟩ := layout_record seq2 b hb2
  have hm2 := bitMaskLoop_block seq2 b hb2
  have hd2 := deltaLoop_block seq2 b hb2 (Build.minOffset seq2)
  rw [← hbv] at hm2 hd2 hdata2
  refine ⟨layout seq1, layout seq2, maskOf (blockVals seq1 b),
    deltaBytes (Build.minOffset seq1) (blockVals seq1 b), pre1, post1, pre2, post2,
    Build_eq seq1, Build_eq seq2, bitMaskLoop_block seq1 b hb1, hm2,
    deltaLoop_block seq1 b hb1 _, ?_, ?_, ?_, fun hsize => ?_, fun hsize => ?_,
    fun v rest hnz => ?_⟩
  · show Build.deltaLoop seq2 (16 * b) (min (seq2.length - 16 * b) 16) 0 []
      (Build.minOffset seq2) = some (deltaBytes (Build.minOffset seq1) (blockVals seq1 b))
    rw [hmin]; exact hd2
  · rw [hdata1, Nat.shiftRight_eq_div_pow]
  · rw [hmin, hdata2, Nat.shiftRight_eq_div_pow]
  · rw [hpre1]; exact layout_load seq1 b hb1 hsize
  · rw [hpre2]; exact layout_load seq2 b hb2 hsize
  · have hmem : v ∈ nonzeroOffsets (blockVals seq1 b) := by
      show v ∈ nonzeroOffsets ((seq1.drop (16 * b)).take 16)
      rw [hnz]; exact List.mem_cons_self _ _
    have hle : Build.minOffset seq1 ≤ v := minOffset_le_nonzeroOffsets seq1 b v hmem
    have hlt : v < 2 ^ 32 :=
      hseq1 v (mem_blockVals seq1 b v ((mem_nonzeroOffsets _ _).mp hmem).1)
    obtain ⟨tail, ht⟩ := deltaBytes_first (blockVals seq1 b) (Build.minOffset seq1) v rest hnz
    refine ⟨hle, tail, ?_⟩
    rw [ht]
    have : (v + 2 ^ 32 - Build.minOffset seq1) % 2 ^ 32 = v - Build.minOffset seq1 := by omega
    show EncodeUnsignedLeb128 [] _ ++ tail = EncodeUnsignedLeb128 [] (v - Build.minOffset seq1) ++ tail
    rw [this]

/-- C14, witness: `sampleInput` and a sequence with a different first block, the same
minimum 1 and the same second block. Both outputs hold the record of block 1, mask 0x007B
and 21 delta bytes; its first delta is 4294967295 - 1, encoded FE FF FF FF 0F, whatever
the first block ends with. -/
theorem C14_block_independence_witness :
    (∀ x ∈ sampleInput, x < 2 ^ 32) ∧ 16 * 1 < sampleInput.length ∧
      Build.minOffset sampleInput
        = Build.minOffset ([9, 9, 9, 9, 9, 9, 9, 9, 1, 0, 0, 0, 0, 0, 0, 4000000000]
            ++ sampleInput.drop 16) ∧
      ∃ r1 r2 bit_mask deltas pre1 post1 pre2 post2,
        Build sampleInput [] = some r1 ∧
        Build ([9, 9, 9, 9, 9, 9, 9, 9, 1, 0, 0, 0, 0, 0, 0, 4000000000]
          ++ sampleInput.drop 16) [] = some r2 ∧
        bit_mask = 0x7B ∧
        deltas = [254, 255, 255, 255, 15, 2, 171, 2, 255, 255, 255, 255, 15, 197, 160, 4, 149,
          221, 251, 255, 15] ∧
        r1.out_data = pre1 ++ [(bit_mask >>> 8) % 256, bit_mask % 256] ++ deltas ++ post1 ∧
        r2.out_data = pre2 ++ [(bit_mask >>> 8) % 256, bit_mask % 256] ++ deltas ++ post2 ∧
        ∃ tail, deltas = EncodeUnsignedLeb128 [] (4294967295 - r1.out_min_offset) ++ tail := by
  obtain ⟨r1, r2, bit_mask, deltas, pre1, post1, pre2, post2, hr1, hr2, hm, _, hd, _, hd1, hd2,
    _, _, hfirst⟩ := C14_block_independence sampleInput
      ([9, 9, 9, 9, 9, 9, 9, 9, 1, 0, 0, 0, 0, 0, 0, 4000000000] ++ sampleInput.drop 16) 1
      (by decide) (by decide) (by decide) (by decide)
  have hmin : r1.out_min_offset = 1 := by
    have := hr1
    rw [Build_sampleInput] at this
    rw [← Option.some.inj this]
  have hmask : bit_mask = 0x7B := by
    have h : Build.bitMaskLoop sampleInput (16 * 1) (min (sampleInput.length - 16 * 1) 16) 0 0
        = some 0x7B := by decide
    rw [h] at hm
    exact (Option.some.inj hm).symm
  have hdel : deltas = [254, 255, 255, 255, 15, 2, 171, 2, 255, 255, 255, 255, 15, 197, 160, 4,
      149, 221, 251, 255, 15] := by
    rw [hmin] at hd
    have h : Build.deltaLoop sampleInput (16 * 1) (min (sampleInput.length - 16 * 1) 16) 0 [] 1
        = some [254, 255, 255, 255, 15, 2, 171, 2, 255, 255, 255, 255, 15, 197, 160, 4,
          149, 221, 251, 255, 15] := by decide
    rw [h] at hd
    exact (Option.some.inj hd).symm
  exact ⟨by decide, by decide, by decide, r1, r2, bit_mask, deltas, pre1, post1, pre2, post2,
    hr1, hr2, hmask, hdel, hd1, hd2,
    (hfirst 4294967295 [1, 300, 299, 70000, 5] (by decide)).2⟩

/-- C15. Rank computation: for every mask `m` (in particular every 16-bit one) and every
`bit_index` below 16, the count `GetDebugInfoOffset` computes (line 48), the population
count of `m` shifted left by `kBitsPerIntPtrT - 1 - bit_index` and truncated to
`kBitsPerIntPtrT` bits, equals the population count of `m & ((1 << (bit_index + 1)) - 1)`,
which is the number of set bits of `m` at positions `0..bit_index`. -/
theorem C15_rank (kBitsPerIntPtrT m bit_index : Nat) (hw : 16 ≤ kBitsPerIntPtrT)
    (hi : bit_index < 16) :
    POPCOUNT ((m <<< (kBitsPerIntPtrT - 1 - bit_index)) % 2 ^ kBitsPerIntPtrT)
        = POPCOUNT (m &&& ((1 <<< (bit_index + 1)) - 1)) ∧
      POPCOUNT (m &&& ((1 <<< (bit_index + 1)) - 1))
        = ((List.range (bit_index + 1)).filter fun j => m.testBit j).length := by
  rw [shift_mod_eq kBitsPerIntPtrT bit_index m hw hi, POPCOUNT_mul_two_pow, and_low_mask]
  exact ⟨rfl, count_low_bits m bit_index⟩

/-- C15, witness: with a 64-bit `uintptr_t`, the mask 0x007B and `bit_index` 4, both
sides count the four set bits 0, 1, 3 and 4. -/
theorem C15_rank_witness :
    16 ≤ 64 ∧ 4 < 16 ∧
      POPCOUNT ((0x7B <<< (64 - 1 - 4)) % 2 ^ 64) = POPCOUNT (0x7B &&& ((1 <<< (4 + 1)) - 1)) ∧
      POPCOUNT (0x7B &&& ((1 <<< (4 + 1)) - 1)) = 4 ∧
      ((List.range (4 + 1)).filter fun j => (0x7B).testBit j) = [0, 1, 3, 4] := by
  have h := C15_rank 64 0x7B 4 (by decide) (by decide)
  exact ⟨by decide, by decide, h.1, by decide, by decide⟩

/-- C16. For every memory content and every `method_idx` whose bit `method_idx % 16` is
set in the mask found for its block, the number `k` of LEB128 values `GetDebugInfoOffset`
decodes satisfies `1 <= k <= method_idx % 16 + 1 <= 16`; so `DCHECK_GT(count, 0u)` holds,
the result is that of the do/while loop entered with `count = k`, and whenever the loop
returns it has decoded exactly `k` values (its trace has `k` entries), which it does
exactly when `k` values can be decoded one after the other from the byte after the mask. -/
theorem C16_decode_count (kBitsPerIntPtrT : Nat) (data : List Nat)
    (base table_offset method_idx offset hi lo : Nat)
    (hw : 16 ≤ kBitsPerIntPtrT)
    (hentry : loadUint32 data (table_offset + 4 * (method_idx / 16)) = some offset)
    (hhi : data[offset]? = some hi) (hlo : data[offset + 1]? = some lo)
    (hhi8 : hi < 256) (hlo8 : lo < 256)
    (hbit : (hi * 256 + lo).testBit (method_idx % 16) = true) :
    ∃ k, k = POPCOUNT (((hi * 256 + lo) <<< (kBitsPerIntPtrT - 1 - method_idx % 16))
          % 2 ^ kBitsPerIntPtrT) ∧
      1 ≤ k ∧ k ≤ method_idx % 16 + 1 ∧ method_idx % 16 + 1 ≤ 16 ∧
      GetDebugInfoOffset kBitsPerIntPtrT (Accessor.ctor data base table_offset) method_idx
        = GetDebugInfoOffset.loop data k (offset + 2) base ∧
      GetDebugInfoOffset.loop data k (offset + 2) base
        = (GetDebugInfoOffset.loopTrace data k (offset + 2) base).bind List.getLast? ∧
      (∀ t, GetDebugInfoOffset.loopTrace data k (offset + 2) base = some t → t.length = k) ∧
      (GetDebugInfoOffset.loopTrace data k (offset + 2) base).isSome
        = (decodeCursor data k (offset + 2)).isSome := by
  have hi16 : method_idx % 16 < 16 := Nat.mod_lt _ (by norm_num)
  have hk : POPCOUNT (((hi * 256 + lo) <<< (kBitsPerIntPtrT - 1 - method_idx % 16))
      % 2 ^ kBitsPerIntPtrT)
      = ((List.range (method_idx % 16 + 1)).filter fun j => (hi * 256 + lo).testBit j).length := by
    rw [shift_mod_eq kBitsPerIntPtrT _ _ hw hi16, POPCOUNT_mul_two_pow, count_low_bits]
  have hpos := count_low_bits_pos (hi * 256 + lo) (method_idx % 16) hbit
  have hle := count_low_bits_le (hi * 256 + lo) (method_idx % 16)
  rw [← hk] at hpos hle
  refine ⟨_, rfl, hpos, hle, hi16, ?_, loop_eq_loopTrace _ _ _ _,
    fun t ht => loopTrace_length _ _ _ _ _ ht, loopTrace_isSome _ _ _ _ hpos⟩
  unfold GetDebugInfoOffset
  simp only [Accessor.ctor, kElementsPerIndex, kBitsPerByte, hentry, hhi, hlo]
  rw [mask_value hi lo hhi8 hlo8]
  have hne : ¬ ((hi * 256 + lo) &&& 1 <<< (method_idx % 16) = 0) := by
    rw [and_one_shiftLeft_eq_zero]; simp [hbit]
  rw [if_neg hne, if_pos hpos]

/-- C16, witness: on the output of `Build` for `sampleInput` (table at byte 28), key 20
lies in block 1 (entry 4, mask bytes 0x00, 0x7B) at bit 4; four values are decoded, the
trace of `current_offset` is 4294967295, 1, 300, 299 and the result is 299. -/
theorem C16_decode_count_witness :
    ∃ r, Build sampleInput [] = some r ∧
      16 ≤ 64 ∧ loadUint32 r.out_data (r.out_table_offset + 4 * (20 / 16)) = some 4 ∧
      r.out_data[4]? = some 0x00 ∧ r.out_data[4 + 1]? = some 0x7B ∧
      (0x00 * 256 + 0x7B).testBit (20 % 16) = true ∧
      (∃ k, k = POPCOUNT (((0x00 * 256 + 0x7B) <<< (64 - 1 - 20 % 16)) % 2 ^ 64) ∧
        1 ≤ k ∧ k ≤ 20 % 16 + 1 ∧ 20 % 16 + 1 ≤ 16 ∧
        GetDebugInfoOffset 64 (Accessor.ctor r.out_data r.out_min_offset r.out_table_offset) 20
          = GetDebugInfoOffset.loop r.out_data k (4 + 2) r.out_min_offset ∧
        GetDebugInfoOffset.loop r.out_data k (4 + 2) r.out_min_offset
          = (GetDebugInfoOffset.loopTrace r.out_data k (4 + 2) r.out_min_offset).bind
              List.getLast? ∧
        (∀ t, GetDebugInfoOffset.loopTrace r.out_data k (4 + 2) r.out_min_offset = some t →
          t.length = k) ∧
        (GetDebugInfoOffset.loopTrace r.out_data k (4 + 2) r.out_min_offset).isSome
          = (decodeCursor r.out_data k (4 + 2)).isSome) ∧
      POPCOUNT (((0x00 * 256 + 0x7B) <<< (64 - 1 - 20 % 16)) % 2 ^ 64) = 4 ∧
      GetDebugInfoOffset.loopTrace r.out_data 4 (4 + 2) r.out_min_offset
        = some [4294967295, 1, 300, 299] := by
  refine ⟨_, Build_sampleInput, by decide, by decide, by decide, by decide, by decide, ?_,
    by decide, by decide⟩
  exact C16_decode_count 64 _ _ _ 20 4 0x00 0x7B (by decide) (by decide) (by decide)
    (by decide) (by decide) (by decide) (by decide)

/-- C17 (amended). Padding: with `data` the content of `out_data` after the last block
record, the padded vector has the smallest length that is a multiple of 4 and at least
the length `D` of `data`, fewer than 4 bytes are added, the bytes of the output at the
indices from `D` up to the padded length are 0, and the bytes below `D` are those of
`data`. The returned `out_table_offset` is the padded length converted to 32 bits; it is
the padded length itself whenever the output is shorter than 2 ^ 32 bytes. -/
theorem C17_padding (seq : List Nat) :
    ∃ r data table,
      Build seq [] = some r ∧
      Build.blockLoop seq (Build.minOffset seq) seq.length 0 [] [] = some (data, table) ∧
      r.out_data = AlignmentPadVector data 4 ++ (table.map uint32Bytes).flatten ∧
      (AlignmentPadVector data 4).length % 4 = 0 ∧
      data.length ≤ (AlignmentPadVector data 4).length ∧
      (AlignmentPadVector data 4).length < data.length + 4 ∧
      (∀ m, m % 4 = 0 → data.length ≤ m → (AlignmentPadVector data 4).length ≤ m) ∧
      r.out_table_offset = (AlignmentPadVector data 4).length % 2 ^ 32 ∧
      (r.out_data.length < 2 ^ 32 →
        r.out_table_offset = (AlignmentPadVector data 4).length) ∧
      (∀ i, data.length ≤ i → i < (AlignmentPadVector data 4).length →
        r.out_data[i]? = some 0) ∧
      (∀ i, i < data.length → r.out_data[i]? = data[i]?) := by
  have hpad : (AlignmentPadVector (dataSection seq) 4).length
      = (dataSection seq).length + (4 - (dataSection seq).length % 4) % 4 := by
    rw [AlignmentPadVector_eq]
    simp only [List.length_append, padding, List.length_replicate]
  have hoff : (layout seq).out_table_offset
      = ((dataSection seq).length + (4 - (dataSection seq).length % 4) % 4) % 2 ^ 32 := rfl
  have hlen := layout_length seq
  refine ⟨layout seq, dataSection seq, tableEntries seq, Build_eq seq, blockLoop_run seq,
    ?_, ?_, ?_, ?_, fun m hm hle => ?_, ?_, fun hsize => ?_, fun i h1 h2 => ?_,
    fun i hi => layout_getElem?_data seq i hi⟩
  · rw [AlignmentPadVector_eq]; rfl
  · rw [hpad]; omega
  · rw [hpad]; omega
  · rw [hpad]; omega
  · rw [hpad]; omega
  · rw [hpad]; exact hoff
  · rw [hpad, hoff]; omega
  · rw [hpad] at h2
    exact layout_getElem?_padding seq i h1 h2

/-- C17, counterexample: for the input of 2 ^ 32 offsets all equal to 1 the data section
has 4831838208 bytes (already a multiple of 4), while the returned `out_table_offset` is
536870912, which is below the length of the data section. -/
theorem C17_padding_counterexample :
    ∃ r data table,
      Build (onesInput (2 ^ 28)) [] = some r ∧
      Build.blockLoop (onesInput (2 ^ 28)) (Build.minOffset (onesInput (2 ^ 28)))
        (onesInput (2 ^ 28)).length 0 [] [] = some (data, table) ∧
      data.length = 4831838208 ∧ r.out_table_offset = 536870912 ∧
      r.out_table_offset < data.length := by
  refine ⟨_, _, _, Build_eq _, blockLoop_run _, ?_, huge_table_offset, ?_⟩
  · rw [length_dataSection_onesInput _ (by norm_num)]; norm_num
  · rw [huge_table_offset, length_dataSection_onesInput _ (by norm_num)]; norm_num

/-- C18 (amended). In-bounds reads: for every sequence of unsigned 32-bit offsets of
length `N` and every key below `N`, whenever the byte vector returned by `Build` is
shorter than 2 ^ 32 bytes, `GetDebugInfoOffset` reads only inside it. The four bytes of
the table entry lie between `out_table_offset` and the end of the vector; the two mask
bytes lie in the data section `data`, the content of `out_data` before the padding; and
when the bit of the key is set, decoding the LEB128 values on `data` alone succeeds, ends
inside `data`, and accumulates the offset of the key. The accessor returns the offset of
the key, so no read is out of range. -/
theorem C18_in_bounds (kBitsPerIntPtrT : Nat) (hw : 16 ≤ kBitsPerIntPtrT) (seq : List Nat)
    (hseq : ∀ x ∈ seq, x < 2 ^ 32) (key : Nat) (hkey : key < seq.length) :
    ∃ r data table,
      Build seq [] = some r ∧
      Build.blockLoop seq (Build.minOffset seq) seq.length 0 [] [] = some (data, table) ∧
      (∀ i, i < data.length → r.out_data[i]? = data[i]?) ∧
      (r.out_data.length < 2 ^ 32 →
        r.out_table_offset + 4 * (key / 16) + 4 ≤ r.out_data.length ∧
        ∃ entry hi lo,
          loadUint32 r.out_data (r.out_table_offset + 4 * (key / 16)) = some entry ∧
          entry + 1 < data.length ∧
          data[entry]? = some hi ∧ data[entry + 1]? = some lo ∧
          (((hi <<< 8 ||| lo) % 2 ^ 16) &&& (1 <<< (key % 16)) ≠ 0 →
            (∃ e, decodeCursor data
                (POPCOUNT ((((hi <<< 8 ||| lo) % 2 ^ 16) <<< (kBitsPerIntPtrT - 1 - key % 16))
                  % 2 ^ kBitsPerIntPtrT)) (entry + 2) = some e ∧ e ≤ data.length) ∧
            GetDebugInfoOffset.loop data
                (POPCOUNT ((((hi <<< 8 ||| lo) % 2 ^ 16) <<< (kBitsPerIntPtrT - 1 - key % 16))
                  % 2 ^ kBitsPerIntPtrT)) (entry + 2) r.out_min_offset = seq[key]?) ∧
          GetDebugInfoOffset kBitsPerIntPtrT
            (Accessor.ctor r.out_data r.out_min_offset r.out_table_offset) key = seq[key]?) := by
  have hb : key / 16 < numBlocks seq.length := by unfold numBlocks; omega
  have hi16 : key % 16 < 16 := Nat.mod_lt _ (by norm_num)
  obtain ⟨pre, rest, hpre, hdata⟩ := dataSection_record seq (key / 16) hb
  have hm : maskOf (blockVals seq (key / 16)) < 2 ^ 16 := maskOf_blockVals_lt seq _
  have hget : (blockVals seq (key / 16))[key % 16]? = seq[key]? := by
    rw [getElem?_blockVals seq _ _ hi16, Nat.div_add_mod]
  have hhi : (dataSection seq)[pre.length]?
      = some (maskOf (blockVals seq (key / 16)) / 256 % 256) := by
    rw [hdata]
    have := getElem?_append_mid pre
      (blockRecord (Build.minOffset seq) (blockVals seq (key / 16))) rest 0
      (by simp [blockRecord])
    rw [Nat.add_zero] at this
    rw [this]
    rfl
  have hlo : (dataSection seq)[pre.length + 1]?
      = some (maskOf (blockVals seq (key / 16)) % 256) := by
    rw [hdata]
    have := getElem?_append_mid pre
      (blockRecord (Build.minOffset seq) (blockVals seq (key / 16))) rest 1
      (by simp [blockRecord])
    simpa [blockRecord] using this
  have hlt : pre.length + 1 < (dataSection seq).length := by
    rw [hdata]
    simp only [List.length_append, blockRecord, List.length_cons, List.length_nil]
    omega
  refine ⟨layout seq, dataSection seq, tableEntries seq, Build_eq seq, blockLoop_run seq,
    fun i hi => layout_getElem?_data seq i hi, fun hsize => ⟨?_, pre.length, _, _, ?_, hlt, hhi,
      hlo, fun hbit => ?_, ?_⟩⟩
  · have hlen := layout_length seq
    have hoff : (layout seq).out_table_offset
        = ((dataSection seq).length + (4 - (dataSection seq).length % 4) % 4) % 2 ^ 32 := rfl
    omega
  · rw [hpre]; exact layout_load seq (key / 16) hb hsize
  · rw [mask_bytes _ hm, Ne, and_one_shiftLeft_eq_zero] at hbit
    have hbit' : (maskOf (blockVals seq (key / 16))).testBit (key % 16) = true := by
      simpa using hbit
    obtain ⟨v, hv, hv0⟩ := (testBit_maskOf _ _).mp hbit'
    obtain ⟨hcount, hcur, hloop⟩ := record_decode kBitsPerIntPtrT hw (dataSection seq) pre rest
      (blockVals seq (key / 16)) (Build.minOffset seq) (key % 16) v hdata
      (length_blockVals _ _) (minOffset_lt seq) (fun x hx => hseq x (mem_blockVals _ _ _ hx))
      hi16 hv hv0
    rw [hcount]
    refine ⟨hcur, ?_⟩
    rw [← hget, hv]
    exact hloop
  · rw [GetDebugInfoOffset_layout kBitsPerIntPtrT hw seq hseq hsize key (by omega),
      List.getElem?_eq_getElem hkey]
    rfl

/-- C18, witness: key 20 of `sampleInput`. The table entry is read at bytes 32..35 of
the 36-byte output, whose table starts at byte 28; the entry is 4, the mask bytes are
bytes 4 and 5 of the 27-byte data section, and the accessor returns the offset 299. -/
theorem C18_in_bounds_witness :
    16 ≤ 64 ∧ (∀ x ∈ sampleInput, x < 2 ^ 32) ∧ 20 < sampleInput.length ∧
      ∃ r data table,
        Build sampleInput [] = some r ∧
        Build.blockLoop sampleInput (Build.minOffset sampleInput) sampleInput.length 0 [] []
          = some (data, table) ∧
        r.out_data.length < 2 ^ 32 ∧
        r.out_table_offset + 4 * (20 / 16) + 4 ≤ r.out_data.length ∧
        ∃ entry hi lo,
          loadUint32 r.out_data (r.out_table_offset + 4 * (20 / 16)) = some entry ∧
          entry + 1 < data.length ∧
          data[entry]? = some hi ∧ data[entry + 1]? = some lo ∧
          GetDebugInfoOffset 64
            (Accessor.ctor r.out_data r.out_min_offset r.out_table_offset) 20
            = sampleInput[20]? ∧
          sampleInput[20]? = some 299 := by
  obtain ⟨r, data, table, hr, hloop, _, h⟩ :=
    C18_in_bounds 64 (by decide) sampleInput (by decide) 20 (by decide)
  have hr' := hr
  rw [Build_sampleInput] at hr'
  have hlen : r.out_data.length < 2 ^ 32 := by
    rw [← Option.some.inj hr']; decide
  obtain ⟨hbound, entry, hi, lo, hload, hlt, hhi, hlo, _, hres⟩ := h hlen
  exact ⟨by decide, by decide, by decide, r, data, table, hr, hloop, hlen, hbound, entry, hi, lo,
    hload, hlt, hhi, hlo, hres, by decide⟩

/-- C18, counterexample: the input of 3817748701 offsets that starts with 268435456 and
continues with ones. The record of the first block begins with the bytes FF FF FF FF (the
mask 0xFFFF and the first two bytes of the delta 0x0FFFFFFF), and the data section has
exactly 2 ^ 32 bytes, so the returned `out_table_offset` is 0. For key 0 the accessor
reads the table entry at byte 0, finds 4294967295, and reads its two mask bytes at the
indices 4294967295 and 4294967296: the second one is not below the end of the data
section (it is the first byte of the table). Both bytes are 0 and the accessor returns 0,
while the offset of key 0 is 268435456. -/
theorem C18_in_bounds_counterexample :
    ∃ r data table entry,
      Build (spikeInput 268435456 3817748685) [] = some r ∧
      Build.blockLoop (spikeInput 268435456 3817748685)
        (Build.minOffset (spikeInput 268435456 3817748685))
        (spikeInput 268435456 3817748685).length 0 [] [] = some (data, table) ∧
      (∀ v ∈ spikeInput 268435456 3817748685, v < 2 ^ 32) ∧
      0 < (spikeInput 268435456 3817748685).length ∧
      (spikeInput 268435456 3817748685)[0]? = some 268435456 ∧
      data.length = 4294967296 ∧ r.out_table_offset = 0 ∧
      loadUint32 r.out_data (r.out_table_offset + 4 * (0 / 16)) = some entry ∧
      entry = 4294967295 ∧ ¬ (entry + 1 < data.length) ∧
      r.out_data[entry]? = some 0 ∧ r.out_data[entry + 1]? = some 0 ∧
      GetDebugInfoOffset 64
        (Accessor.ctor r.out_data r.out_min_offset r.out_table_offset) 0 = some 0 := by
  have hL : (blockRecord 1 (268435456 :: List.replicate 15 1)).length = 25 := by decide
  have hK : (blockRecord 1 (List.replicate 13 1)).length = 15 := by decide
  have hoff : (layout (spikeInput 268435456 3817748685)).out_table_offset = 0 := by
    rw [spike_table_offset 268435456 3817748685 238609292 13 25 15 (by norm_num) (by norm_num)
      (by norm_num) (by norm_num) hL hK]
    norm_num
  have hD : (dataSection (spikeInput 268435456 3817748685)).length = 4294967296 := by
    rw [length_dataSection_spikeInput 268435456 3817748685 238609292 13 25 15 (by norm_num)
      (by norm_num) (by norm_num) (by norm_num) hL hK]
  have hload : loadUint32 (layout (spikeInput 268435456 3817748685)).out_data (0 + 4 * (0 / 16))
      = some 4294967295 := by
    rw [show 0 + 4 * (0 / 16) = 0 from by norm_num,
      spike_load_first 268435456 3817748685 238609292 13 0 (by norm_num) (by norm_num)
        (by norm_num) (by norm_num) (by rw [hL]; norm_num)]
    decide
  have hhi : (layout (spikeInput 268435456 3817748685)).out_data[4294967295]? = some 0 := by
    rw [show 4294967295 = 25 + 18 * 238609292 + 14 from by norm_num,
      spike_getElem?_last 268435456 3817748685 238609292 13 25 14 (by norm_num) (by norm_num)
        (by norm_num) (by norm_num) hL (by rw [hK]; norm_num)]
    decide
  have hlo : (layout (spikeInput 268435456 3817748685)).out_data[4294967295 + 1]? = some 0 := by
    rw [show 4294967295 + 1
        = 25 + 18 * 238609292 + 15 + (4 - (25 + 18 * 238609292 + 15) % 4) % 4 from by norm_num]
    exact spike_table_first_byte 268435456 3817748685 238609292 13 25 15 (by norm_num)
      (by norm_num) (by norm_num) (by norm_num) hL hK
  refine ⟨_, _, _, 4294967295, Build_eq _, blockLoop_run _, spikeInput_lt _ _ (by norm_num), ?_,
    getElem?_spikeInput_zero _ _, hD, hoff, ?_, rfl, ?_, hhi, hlo, ?_⟩
  · rw [length_spikeInput]; norm_num
  · rw [hoff]; exact hload
  · rw [hD]; norm_num
  · rw [hoff]
    exact GetDebugInfoOffset_bit_clear 64 _ _ 0 0 4294967295 0 0 hload hhi hlo (by decide)

/-- C19 (amended). Keys past the end of the input but inside the last block decode to 0
whenever the byte vector returned by `Build` is shorter than 2 ^ 32 bytes: for every
sequence of unsigned 32-bit offsets of length `N` and every `method_idx` with
`N <= method_idx < 16 * ceil(N/16)` (there are such keys only when `N` is not a multiple
of 16), `GetDebugInfoOffset` on the output returns 0. -/
theorem C19_past_end (kBitsPerIntPtrT : Nat) (hw : 16 ≤ kBitsPerIntPtrT) (seq : List Nat)
    (hseq : ∀ x ∈ seq, x < 2 ^ 32) (method_idx : Nat) (h1 : seq.length ≤ method_idx)
    (h2 : method_idx < 16 * ((seq.length + 15) / 16)) :
    ∃ r, Build seq [] = some r ∧
      (r.out_data.length < 2 ^ 32 →
        GetDebugInfoOffset kBitsPerIntPtrT
          (Accessor.ctor r.out_data r.out_min_offset r.out_table_offset) method_idx = some 0) := by
  refine ⟨layout seq, Build_eq seq, fun hsize => ?_⟩
  have h := GetDebugInfoOffset_layout kBitsPerIntPtrT hw seq hseq hsize method_idx h2
  rw [List.getElem?_eq_none h1] at h
  exact h

/-- C19, witness: `sampleInput` has 23 offsets; key 25 lies in its last block, past the
end, and decodes to 0. -/
theorem C19_past_end_witness :
    16 ≤ 64 ∧ (∀ x ∈ sampleInput, x < 2 ^ 32) ∧ sampleInput.length ≤ 25 ∧
      25 < 16 * ((sampleInput.length + 15) / 16) ∧ sampleInput.length % 16 ≠ 0 ∧
      ∃ r, Build sampleInput [] = some r ∧ r.out_data.length < 2 ^ 32 ∧
        GetDebugInfoOffset 64
          (Accessor.ctor r.out_data r.out_min_offset r.out_table_offset) 25 = some 0 := by
  obtain ⟨r, hr, h⟩ := C19_past_end 64 (by decide) sampleInput (by decide) 25 (by decide)
    (by decide)
  have hr' := hr
  rw [Build_sampleInput] at hr'
  have hlen : r.out_data.length < 2 ^ 32 := by
    rw [← Option.some.inj hr']; decide
  exact ⟨by decide, by decide, by decide, by decide, by decide, r, hr, hlen, h hlen⟩

/-- C19, counterexample: the input of 3817748725 offsets all equal to 1 (238609295 full
blocks and a last block of 5). The data section has 2 ^ 32 + 21 bytes, so the returned
`out_table_offset` is 24 instead of 2 ^ 32 + 24. For the key 3817748725, the first one
past the end, the accessor reads its table entry inside the data section, finds 0, and
decodes bit 5 of the first block: it returns 1, not 0. -/
theorem C19_past_end_counterexample :
    ∃ r, Build (spikeInput 1 3817748709) [] = some r ∧
      (∀ v ∈ spikeInput 1 3817748709, v < 2 ^ 32) ∧
      (spikeInput 1 3817748709).length = 3817748725 ∧
      3817748725 % 16 ≠ 0 ∧ 3817748725 < 16 * ((3817748725 + 15) / 16) ∧
      r.out_data.length = 5249404504 ∧ r.out_table_offset = 24 ∧ r.out_min_offset = 1 ∧
      loadUint32 r.out_data (r.out_table_offset + 4 * (3817748725 / 16)) = some 0 ∧
      GetDebugInfoOffset 64
        (Accessor.ctor r.out_data r.out_min_offset r.out_table_offset) 3817748725 = some 1 := by
  have hoff : (layout (spikeInput 1 3817748709)).out_table_offset = 24 := by
    rw [spike_table_offset 1 3817748709 238609294 5 18 7 (by norm_num) (by norm_num)
      (by norm_num) (by norm_num) (by decide) (by decide)]
    norm_num
  have hload : loadUint32 (layout (spikeInput 1 3817748709)).out_data
      (24 + 4 * (3817748725 / 16)) = some 0 := by
    rw [show 24 + 4 * (3817748725 / 16) = 18 + (18 * 53024288 + 2) from by norm_num,
      spike_load_mid 1 3817748709 238609294 5 18 53024288 2 (by norm_num) (by norm_num)
        (by norm_num) (by norm_num) (by decide) (by norm_num) (by norm_num)]
    decide
  refine ⟨_, Build_eq _, spikeInput_lt _ _ (by norm_num), ?_, by norm_num, by norm_num, ?_,
    hoff, spike_min _ _ (by norm_num), ?_, ?_⟩
  · rw [length_spikeInput]
  · rw [spike_length 1 3817748709 238609294 5 18 7 (by norm_num) (by norm_num)
      (by norm_num) (by norm_num) (by decide) (by decide)]
  · rw [hoff]; exact hload
  · rw [hoff, spike_min _ _ (by norm_num),
      spike_decode_first 64 (by norm_num) 1 3817748709 24 3817748725 (by norm_num) hload]
    decide

/-- C20. Delta arithmetic: for every sequence of unsigned 32-bit offsets and every block,
the delta loop of `Build` encodes, for each nonzero offset of the block in key order, the
value (offset - current_offset) modulo 2 ^ 32, where `current_offset` is the minimum
nonzero offset for the first and the previous nonzero offset afterwards. The first delta
is the exact difference between the block's first nonzero offset and the minimum, which is
not negative. When the nonzero offsets of the block are in non-decreasing key order every
delta is the exact integer difference, and the sum of the deltas is the last nonzero
offset of the block minus the minimum nonzero offset. -/
theorem C20_delta_arithmetic (seq : List Nat) (hseq : ∀ x ∈ seq, x < 2 ^ 32) (b : Nat)
    (hb : b < (seq.length + 15) / 16) :
    ∃ r deltas,
      Build seq [] = some r ∧
      Build.deltaValues seq (16 * b) (min (seq.length - 16 * b) 16) 0 r.out_min_offset
        = some deltas ∧
      Build.deltaLoop seq (16 * b) (min (seq.length - 16 * b) 16) 0 [] r.out_min_offset
        = some ((deltas.map (EncodeUnsignedLeb128 [])).flatten) ∧
      deltas = List.zipWith (fun o c => (o + 2 ^ 32 - c) % 2 ^ 32)
        (nonzeroOffsets ((seq.drop (16 * b)).take 16))
        (r.out_min_offset :: nonzeroOffsets ((seq.drop (16 * b)).take 16)) ∧
      deltas.map (fun (d : Nat) => (d : Int))
        = List.zipWith (fun (o c : Nat) => ((o : Int) - (c : Int)) % 2 ^ 32)
            (nonzeroOffsets ((seq.drop (16 * b)).take 16))
            (r.out_min_offset :: nonzeroOffsets ((seq.drop (16 * b)).take 16)) ∧
      (∀ v rest, nonzeroOffsets ((seq.drop (16 * b)).take 16) = v :: rest →
        r.out_min_offset ≤ v ∧ deltas.head? = some (v - r.out_min_offset) ∧
        ((v - r.out_min_offset : Nat) : Int) = (v : Int) - (r.out_min_offset : Int)) ∧
      (List.Chain' (· ≤ ·) (nonzeroOffsets ((seq.drop (16 * b)).take 16)) →
        deltas.map (fun (d : Nat) => (d : Int))
          = List.zipWith (fun (o c : Nat) => (o : Int) - (c : Int))
              (nonzeroOffsets ((seq.drop (16 * b)).take 16))
              (r.out_min_offset :: nonzeroOffsets ((seq.drop (16 * b)).take 16)) ∧
        ∀ last, (nonzeroOffsets ((seq.drop (16 * b)).take 16)).getLast? = some last →
          ((deltas.sum : Nat) : Int) = (last : Int) - (r.out_min_offset : Int)) := by
  have hb' : b < numBlocks seq.length := hb
  have hle : ∀ v ∈ nonzeroOffsets (blockVals seq b), Build.minOffset seq ≤ v :=
    fun v hv => minOffset_le_nonzeroOffsets seq b v hv
  have hlt : ∀ v ∈ nonzeroOffsets (blockVals seq b), v < 2 ^ 32 :=
    fun v hv => hseq v (mem_blockVals seq b v ((mem_nonzeroOffsets _ _).mp hv).1)
  have hbytes := deltaLoop_block seq b hb' (Build.minOffset seq)
  rw [deltaBytes_eq_deltasOf] at hbytes
  refine ⟨layout seq, deltasOf (Build.minOffset seq) (blockVals seq b), Build_eq seq,
    deltaValues_block seq b hb' _, hbytes, rfl,
    zipWith_delta_int _ _ (minOffset_lt seq) hlt, fun v rest hnz => ?_, fun hch => ?_⟩
  · have hnz' : nonzeroOffsets (blockVals seq b) = v :: rest := hnz
    have hmem : v ∈ nonzeroOffsets (blockVals seq b) := by
      rw [hnz']; exact List.mem_cons_self _ _
    have h1 := hle v hmem
    have h2 := hlt v hmem
    have hm : (layout seq).out_min_offset = Build.minOffset seq := rfl
    rw [hm]
    refine ⟨h1, ?_, by omega⟩
    rw [deltasOf, hnz', List.zipWith_cons_cons, List.head?_cons]
    congr 1
    omega
  · have hch' : List.Chain' (· ≤ ·) (Build.minOffset seq :: nonzeroOffsets (blockVals seq b)) :=
      (chain_cons_iff _ _ hle).mpr hch
    obtain ⟨h1, h2⟩ := zipWith_delta_exact _ _ (minOffset_lt seq) hlt hch'
    refine ⟨h1, fun last hlast => ?_⟩
    have hlast' : (nonzeroOffsets (blockVals seq b)).getLast? = some last := hlast
    rw [hlast', Option.getD_some] at h2
    have hm : (layout seq).out_min_offset = Build.minOffset seq := rfl
    rw [hm, deltasOf]
    omega

/-- C20, witness: block 0 of `sampleInput` holds the nonzero offsets 5 and 7 and the
minimum is 1, so the deltas are 4 and 2, with sum 7 - 1. -/
theorem C20_delta_arithmetic_witness :
    (∀ x ∈ sampleInput, x < 2 ^ 32) ∧ 0 < (sampleInput.length + 15) / 16 ∧
      List.Chain' (· ≤ ·) (nonzeroOffsets ((sampleInput.drop (16 * 0)).take 16)) ∧
      ∃ r deltas,
        Build sampleInput [] = some r ∧
        Build.deltaValues sampleInput (16 * 0) (min (sampleInput.length - 16 * 0) 16) 0
          r.out_min_offset = some deltas ∧
        r.out_min_offset = 1 ∧ deltas = [4, 2] ∧
        deltas.head? = some (5 - r.out_min_offset) ∧
        ((deltas.sum : Nat) : Int) = (7 : Int) - (r.out_min_offset : Int) := by
  have hch : List.Chain' (· ≤ ·) (nonzeroOffsets ((sampleInput.drop (16 * 0)).take 16)) := by
    rw [show nonzeroOffsets ((sampleInput.drop (16 * 0)).take 16) = [5, 7] from by decide]
    simp
  obtain ⟨r, deltas, hr, hd, _, hz, _, hfirst, hsum⟩ :=
    C20_delta_arithmetic sampleInput (by decide) 0 (by decide)
  have hmin : r.out_min_offset = 1 := by
    have := hr
    rw [Build_sampleInput] at this
    rw [← Option.some.inj this]
  have hdel : deltas = [4, 2] := by
    rw [hz, hmin]
    decide
  exact ⟨by decide, by decide, hch, r, deltas, hr, hd, hmin, hdel,
    (hfirst 5 [7] (by decide)).2.1, (hsum hch).2 7 (by decide)⟩

end art
